import Mathlib

/-!
# Branch extraction (`raylib/extraction/raybranches.cpp`)

A shallow embedding of the stages of `Bush::Bush` (candidate initialisation, refinement,
pruning, overlap resolution, root selection and shortest-path relaxation), and of
`Bush::save` / `Bush::load`.

Conventions of the embedding:

* a C++ `double` is an exact rational (`ℚ`); rounding, NaN and infinities are not
  modelled, except that a division by zero whose result is only compared is
  modelled by the outcome of that comparison; the computation of the edge cost is also
  given over an arbitrary ordered field, since no rational square root is exact;
* `std::vector<Branch>` is a `List Branch`, indices are `Nat`;
* library code that is not part of the repository (Eigen `normalized`, `std::sqrt`,
  `std::stod`, the tie-breaking of `std::priority_queue`, the nearest-neighbour search) is
  a parameter of the functions that use it, and so are the methods of `Branch`, whose
  source file is not at hand; where a call can throw, the parameter returns an `Option`.
-/

namespace ray

/-! ## Data model -/

/-- Eigen::Vector3d with exact rational coordinates. -/
structure Vec3 where
  x : ℚ
  y : ℚ
  z : ℚ
deriving DecidableEq, Inhabited

namespace Vec3

/-- Component-wise sum. -/
def add (a b : Vec3) : Vec3 := ⟨a.x + b.x, a.y + b.y, a.z + b.z⟩

/-- Component-wise difference. -/
def sub (a b : Vec3) : Vec3 := ⟨a.x - b.x, a.y - b.y, a.z - b.z⟩

/-- Unary minus. -/
def neg (a : Vec3) : Vec3 := ⟨-a.x, -a.y, -a.z⟩

/-- Product of a vector with a scalar. -/
def smul (a : Vec3) (s : ℚ) : Vec3 := ⟨a.x * s, a.y * s, a.z * s⟩

/-- Eigen `dot`. -/
def dot (a b : Vec3) : ℚ := a.x * b.x + a.y * b.y + a.z * b.z

/-- Eigen `cross`. -/
def cross (a b : Vec3) : Vec3 :=
  ⟨a.y * b.z - a.z * b.y, a.z * b.x - a.x * b.z, a.x * b.y - a.y * b.x⟩

/-- Eigen `squaredNorm`. -/
def squaredNorm (a : Vec3) : ℚ := dot a a

end Vec3

/-- Modelled from the spec: the `Branch` record of `raybranch.h` (not in src), with the
fields that `raybranches.cpp` reads and writes. -/
structure Branch where
  centre : Vec3
  radius : ℚ
  score : ℚ
  length : ℚ
  dir : Vec3
  parent : Int
  tree_score : ℚ
  distance_to_ground : ℚ
  active : Bool
  visited : Bool
deriving DecidableEq, Inhabited

/-- The constant `minimum_score` of raybranches.cpp. -/
def minimum_score : ℚ := 40

/-- Modelled from the spec: the helper `sqr` of rayutils.h (not in src), the square in
`radius²·length`. -/
def sqr (a : ℚ) : ℚ := a * a

/-- Read `branches[i]`. -/
def getB (bs : List Branch) (i : Nat) : Branch := bs.getD i default

/-! ## First pruning pass (raybranches.cpp, lines 183-192) -/

/-- The two statements `best_branches[i] = best_branches.back(); best_branches.pop_back();`. -/
def swapRemove (bs : List Branch) (i : Nat) : List Branch :=
  match bs.getLast? with
  | none => bs
  | some last => (bs.set i last).dropLast

/-- The removal condition of the first pruning pass. -/
def pruneCond (b : Branch) : Bool := !b.active || decide (b.score < minimum_score)

/-- The loop of lines 183-192 from index `branch_id` on; every iteration either removes
an element or advances, so `fuel = size - branch_id` iterations suffice. -/
def pruneLoop : Nat → Nat → List Branch → List Branch
  | 0, _, bs => bs
  | fuel + 1, branch_id, bs =>
    if branch_id < bs.length then
      if pruneCond (getB bs branch_id) then
        pruneLoop fuel branch_id (swapRemove bs branch_id)
      else
        pruneLoop fuel (branch_id + 1) bs
    else bs

/-- The first pruning pass. -/
def prune (bs : List Branch) : List Branch := pruneLoop bs.length 0 bs

/-! ## `Bush::save` and `Bush::load` (raybranches.cpp, lines 386-442) -/

/-- One loaded record: base position and radius. -/
abbrev Base := Vec3 × ℚ

/-- The line that `Bush::save` writes first. -/
def saveHeader : List Char := "# Tree base location list: x, y, z, radius".toList

/-- The characters `Bush::save` writes to a file it could open: the header line and
`std::endl`. The loop over the branch bases is commented out in the source (lines 395-399),
so the list to be saved does not reach the file. -/
def save (_branch_bases : List Base) : List Char := saveHeader ++ [Char.ofNat 10]

/-- The lines that `while (!ifs.eof()) std::getline(ifs, line)` reads from a stream: the
text between newline characters, with a last (possibly empty) line after the final newline. -/
def getlines : List Char → List (List Char)
  | [] => [[]]
  | c :: cs =>
    if c = Char.ofNat 10 then [] :: getlines cs
    else
      match getlines cs with
      | [] => [[c]]
      | l :: ls => (c :: l) :: ls

/-- The tokens that repeated `std::getline(ss, token, ',')` reads from a line. -/
def tokens : List Char → List (List Char)
  | [] => [[]]
  | c :: cs =>
    if c = ',' then [] :: tokens cs
    else
      match tokens cs with
      | [] => [[c]]
      | l :: ls => (c :: l) :: ls

/-- The test `line.length() == 0 || line[0] == '#'` of line 418. -/
def skipLine (line : List Char) : Bool := line.length == 0 || line.head? == some '#'

/-- The count `std::count(line.begin(), line.end(), ',')`. -/
def numCommas (line : List Char) : Nat := line.count ','

/-- The body of the branch `num_commas == 3`: four tokens, converted in order by `std::stod`;
`none` when a conversion throws. -/
def parseLine (stod : List Char → Option ℚ) (line : List Char) : Option Base :=
  match tokens line with
  | [t0, t1, t2, t3] =>
    match stod t0 with
    | none => none
    | some x =>
      match stod t1 with
      | none => none
      | some y =>
        match stod t2 with
        | none => none
        | some z =>
          match stod t3 with
          | none => none
          | some radius => some (⟨x, y, z⟩, radius)
  | _ => none

/-- The read loop of `Bush::load` over the remaining lines; `none` is an exception that
leaves `load`, `some l` is the returned vector. -/
def loadLoop (stod : List Char → Option ℚ) : List (List Char) → List Base → Option (List Base)
  | [], branches => some branches
  | line :: rest, branches =>
    if skipLine line then loadLoop stod rest branches
    else if numCommas line = 3 then
      match parseLine stod line with
      | none => none
      | some rec => loadLoop stod rest (branches ++ [rec])
    else some []

/-- The function `Bush::load` on a file that could be opened (`some content`) or not (`none`). -/
def load (stod : List Char → Option ℚ) (file : Option (List Char)) : Option (List Base) :=
  match file with
  | none => some []
  | some content => loadLoop stod (getlines content) []

/-- A data line in the sense of the loader: not skipped. -/
def isDataLine (line : List Char) : Bool := !skipLine line

/-- A data line whose number of commas is not three. -/
def isBadLine (line : List Char) : Bool := isDataLine line && !(numCommas line == 3)

/-! ### A decimal model of `std::stod` -/

/-- The white space that `strtod` skips. -/
def isSpaceChar (c : Char) : Bool :=
  c.toNat == 32 || (9 ≤ c.toNat && c.toNat ≤ 13)

/-- Reads a run of decimal digits: value so far, number of digits read, rest. -/
def readDigits : List Char → Nat → Nat → Nat × Nat × List Char
  | [], v, n => (v, n, [])
  | c :: cs, v, n =>
    if 48 ≤ c.toNat ∧ c.toNat ≤ 57 then readDigits cs (10 * v + (c.toNat - 48)) (n + 1)
    else (v, n, c :: cs)

/-- Reads an optional sign: `true` for minus. -/
def readSign : List Char → Bool × List Char
  | c :: cs => if c = '-' then (true, cs) else if c = '+' then (false, cs) else (false, c :: cs)
  | [] => (false, [])

/-- Reads an optional decimal exponent `e[+-]ddd`; zero when there is none. -/
def readExponent : List Char → Int
  | c :: cs =>
    if c = 'e' ∨ c = 'E' then
      match readSign cs with
      | (neg, r) =>
        match readDigits r 0 0 with
        | (v, n, _) => if n = 0 then 0 else if neg then -(v : Int) else (v : Int)
    else 0
  | [] => 0

/-- A model of `std::stod` on decimal input: leading white space, an optional sign, digits
with an optional fraction, an optional exponent; the longest such prefix is converted and
the rest ignored; `none` stands for `std::invalid_argument` (no digits to convert).
Hexadecimal, infinity and NaN spellings and range errors are not modelled. -/
def stodDec (s : List Char) : Option ℚ :=
  match readSign (s.dropWhile isSpaceChar) with
  | (neg, r0) =>
    match readDigits r0 0 0 with
    | (ip, ni, r1) =>
      match (match r1 with
             | c :: cs => if c = '.' then readDigits cs 0 0 else (0, 0, r1)
             | [] => (0, 0, [])) with
      | (fp, nf, r2) =>
        if ni + nf = 0 then none
        else
          let m : ℚ := (ip : ℚ) + (fp : ℚ) / (10 : ℚ) ^ nf
          let v : ℚ := m * (10 : ℚ) ^ (readExponent r2)
          some (if neg then -v else v)

/-! ## Overlap resolution (raybranches.cpp, lines 200-281) -/

/-- Modelled from the spec: `minVector` of rayutils.h (not in src), the component-wise
minimum used for the bounding cuboid. -/
def minVector (a b : Vec3) : Vec3 := ⟨min a.x b.x, min a.y b.y, min a.z b.z⟩

/-- Modelled from the spec: `maxVector` of rayutils.h (not in src), the component-wise
maximum used for the bounding cuboid. -/
def maxVector (a b : Vec3) : Vec3 := ⟨max a.x b.x, max a.y b.y, max a.z b.z⟩

/-- The class `Cuboid` of raycuboid.cpp. -/
structure Cuboid where
  min_bound_ : Vec3
  max_bound_ : Vec3

/-- The method `Cuboid::overlaps` (raycuboid.cpp, lines 47-52). -/
def Cuboid.overlaps (c other : Cuboid) : Bool :=
  let outside :=
    decide (other.min_bound_.x > c.max_bound_.x) || decide (other.min_bound_.y > c.max_bound_.y) ||
    decide (other.min_bound_.z > c.max_bound_.z) || decide (other.max_bound_.x < c.min_bound_.x) ||
    decide (other.max_bound_.y < c.min_bound_.y) || decide (other.max_bound_.z < c.min_bound_.z)
  !outside

/-- A point within the bounds of a cuboid (`Cuboid::intersects`, raycuboid.cpp, lines 41-45). -/
def Cuboid.intersects (c : Cuboid) (pos : Vec3) : Bool :=
  decide (pos.x ≥ c.min_bound_.x) && decide (pos.y ≥ c.min_bound_.y) &&
  decide (pos.z ≥ c.min_bound_.z) && decide (pos.x ≤ c.max_bound_.x) &&
  decide (pos.y ≤ c.max_bound_.y) && decide (pos.z ≤ c.max_bound_.z)

/-- The bounding cuboid of a branch (lines 216-219 and 228-231). -/
def branchCuboid (b : Branch) : Cuboid :=
  let base := Vec3.sub b.centre (Vec3.smul b.dir (1 / 2 * b.length))
  let top := Vec3.add b.centre (Vec3.smul b.dir (1 / 2 * b.length))
  let rad : Vec3 := ⟨b.radius, b.radius, b.radius⟩
  ⟨Vec3.sub (minVector base top) rad, Vec3.add (maxVector base top) rad⟩

/-- The constant `s = 0.8` of line 210. -/
def sampleScale : ℚ := 4 / 5

/-- The array `xs` of line 211. -/
def xs : List ℚ := [0, sampleScale, 0, -sampleScale, 0]

/-- The array `ys` of line 212. -/
def ys : List ℚ := [0, 0, sampleScale, 0, -sampleScale]

/-- The array `zs` of line 213. -/
def zs : List ℚ := [-(1 / 2) * sampleScale, -(1 / 4) * sampleScale, 0, 1 / 4 * sampleScale,
  1 / 2 * sampleScale]

/-- The index pairs `(k, l)` in the order of the two loops of lines 236-238. -/
def samplePairs : List (Nat × Nat) :=
  (List.range 5).flatMap (fun k => (List.range 5).map (fun l => (k, l)))

/-- The sample `pos` of line 240 for the index pair `(k, l)`. -/
def samplePos (normalized : Vec3 → Vec3) (branch : Branch) (kl : Nat × Nat) : Vec3 :=
  let ax1 := normalized (Vec3.cross ⟨1, 2, 3⟩ branch.dir)
  let ax2 := Vec3.cross branch.dir ax1
  Vec3.add
    (Vec3.add branch.centre (Vec3.smul (Vec3.smul branch.dir (zs.getD kl.1 0)) branch.length))
    (Vec3.smul (Vec3.add (Vec3.smul ax1 (xs.getD kl.2 0)) (Vec3.smul ax2 (ys.getD kl.2 0)))
      branch.radius)

/-- The test of lines 241-247: is the point inside the cylinder? -/
def insideCylinder (cylinder : Branch) (p : Vec3) : Bool :=
  let pos := Vec3.sub p cylinder.centre
  let d := Vec3.dot pos cylinder.dir
  if d > cylinder.length * (1 / 2) ∨ d < -cylinder.length * (1 / 2) then false
  else decide (Vec3.squaredNorm (Vec3.sub pos (Vec3.smul cylinder.dir d)) < sqr cylinder.radius)

/-- The counter `num_inside` after the loops of lines 235-250. -/
def numInside (normalized : Vec3 → Vec3) (branch cylinder : Branch) : Nat :=
  samplePairs.countP (fun kl => insideCylinder cylinder (samplePos normalized branch kl))

/-- The volume proxy `sqr(radius) * length` of lines 254-255. -/
def vol (b : Branch) : ℚ := sqr b.radius * b.length

/-- The pair `(i, j)` reaches the removal code of lines 253-273: `j` is another, active
branch whose cuboid overlaps that of `i` and which holds more than 0.4 of the samples of `i`. -/
def dupHit (normalized : Vec3 → Vec3) (bs : List Branch) (i j : Nat) : Bool :=
  decide (i ≠ j) && (getB bs j).active &&
    (branchCuboid (getB bs i)).overlaps (branchCuboid (getB bs j)) &&
    decide ((numInside normalized (getB bs i) (getB bs j) : ℚ) / 25 > 2 / 5)

/-- The outer loop of lines 200-276 from index `i` on. The inner loop runs to the first `j`
that reaches the removal code and breaks there; `i--` followed by the loop increment leaves
`i` in place. Every iteration shortens the list or advances `i`, so `fuel = size - i`
iterations suffice. -/
def overlapLoop (normalized : Vec3 → Vec3) : Nat → Nat → List Branch → List Branch
  | 0, _, bs => bs
  | fuel + 1, i, bs =>
    if i < bs.length then
      if !(getB bs i).active then overlapLoop normalized fuel (i + 1) bs
      else
        match (List.range bs.length).find? (fun j => dupHit normalized bs i j) with
        | none => overlapLoop normalized fuel (i + 1) bs
        | some j =>
          if vol (getB bs i) < vol (getB bs j) then
            overlapLoop normalized fuel i (swapRemove bs i)
          else if j > i then
            overlapLoop normalized fuel (i + 1) (swapRemove bs j)
          else
            overlapLoop normalized fuel (i + 1) (bs.set j { getB bs j with active := false })
    else bs

/-- The overlap-resolution pass with the copy of the active branches of lines 277-280. -/
def overlapResolution (normalized : Vec3 → Vec3) (bs : List Branch) : List Branch :=
  (overlapLoop normalized bs.length 0 bs).filter (fun b => b.active)

/-! ## Root selection (raybranches.cpp, lines 292-310) -/

/-- The struct `QueueNode` of raybranches.cpp. -/
structure QueueNode where
  distance_to_ground : ℚ
  score : ℚ
  id : Nat
deriving DecidableEq, Inhabited

/-- The test `branches[i].centre[2] > z` of line 303 for the pair `(bi, bj)`. When
`height` is zero the quotient `x2 / (2.0 * height)` is infinite or NaN and the comparison
is false. -/
def rootBreak (min_bound_z : ℚ) (bi bj : Branch) : Bool :=
  let dif : Vec3 := ⟨bj.centre.x - bi.centre.x, bj.centre.y - bi.centre.y, 0⟩
  let x2 := Vec3.squaredNorm dif
  let height := bj.centre.z - min_bound_z
  if 2 * height = 0 then false else decide (bi.centre.z > x2 / (2 * height))

/-- The value of `j` after the inner loop of lines 295-305. -/
def rootScan (min_bound_z : ℚ) (bs : List Branch) (i : Nat) : Nat :=
  bs.findIdx (fun bj => rootBreak min_bound_z (getB bs i) bj)

/-- The test `j == branches.size()` of line 306. -/
def isRoot (min_bound_z : ℚ) (bs : List Branch) (i : Nat) : Bool :=
  rootScan min_bound_z bs i == bs.length

/-- The queue entries pushed by lines 292-310, in the order of the pushes. -/
def rootSelect (min_bound_z : ℚ) (bs : List Branch) : List QueueNode :=
  ((List.range bs.length).filter (fun i => isRoot min_bound_z bs i)).map
    (fun i => ⟨(getB bs i).centre.z, sqr (getB bs i).centre.z, i⟩)

/-- The inequality of the specification for a branch `i` and another branch `j`:
`height_i > hdist(i, j)² / (2 · height_j)`, with heights above `min_bound`. -/
def specDominates (min_bound_z : ℚ) (bi bj : Branch) : Prop :=
  bi.centre.z - min_bound_z >
    ((bj.centre.x - bi.centre.x) ^ 2 + (bj.centre.y - bi.centre.y) ^ 2) /
      (2 * (bj.centre.z - min_bound_z))

/-- The rule of the specification for root selection: no other branch dominates `i`. -/
def specRoot (min_bound_z : ℚ) (bs : List Branch) (i : Nat) : Prop :=
  ¬ ∃ j, j < bs.length ∧ j ≠ i ∧ specDominates min_bound_z (getB bs i) (getB bs j)

/-- The inequality of line 303 as the code evaluates it for a branch `i` and a branch `j`:
the z coordinate of `i` itself against the quotient for `j`; a branch `j` at height zero
never excludes. -/
def codeDominates (min_bound_z : ℚ) (bi bj : Branch) : Prop :=
  bj.centre.z - min_bound_z ≠ 0 ∧
    bi.centre.z >
      ((bj.centre.x - bi.centre.x) ^ 2 + (bj.centre.y - bi.centre.y) ^ 2) /
        (2 * (bj.centre.z - min_bound_z))

/-- Branch `i` has an entry among the seeds. -/
def seeded (seeds : List QueueNode) (i : Nat) : Prop := ∃ qn ∈ seeds, qn.id = i

/-! ## Shortest-path relaxation (raybranches.cpp, lines 289-368) -/

/-- The constant `inf` of raybranches.cpp (line 18). -/
def inf : ℚ := 10 ^ 10

/-- The constant `search_size` of line 314. -/
def search_size : Nat := 20

/-- The numeric library calls of the relaxation loop: `std::sqrt` and Eigen `normalized`. -/
structure NumLib where
  sqrt : ℚ → ℚ
  normalized : Vec3 → Vec3

/-- The result of the nearest-neighbour search (line 324): `indices i id` and `dists2 i id`
are the entries `indices(i, id)` and `dists2(i, id)` of the two matrices. -/
structure Knn where
  indices : Nat → Nat → Int
  dists2 : Nat → Nat → ℚ

/-- The values of `i` for which the loop of line 332 runs its body for node `id`: the
indices below `search_size` before the first entry that is not above -1. -/
def slots (K : Knn) (id : Nat) : List Nat :=
  (List.range search_size).takeWhile (fun i => decide (K.indices i id > -1))

/-- The neighbour `child` of line 334. -/
def childAt (K : Knn) (id i : Nat) : Nat := (K.indices i id).toNat

/-- The value of `dist` after line 350, the cost of the edge from `node` to `child`:
`dist` squared, divided by the square of `max(0.001, dif.dot(dir))`. -/
def edgeCost (L : NumLib) (node child : Branch) (d2 : ℚ) : ℚ :=
  let dist := L.sqrt d2
  let dist := dist * dist
  let dif := L.normalized (Vec3.sub child.centre node.centre)
  let dir := node.dir
  let dir2 := if Vec3.dot child.dir dir < 0 then Vec3.neg child.dir else child.dir
  let dir := L.normalized (Vec3.add dir dir2)
  dist / (max (1 / 1000) (Vec3.dot dif dir)) ^ 2

/-- The cost of the edge in slot `i` of node `id`, on the branch list `bs`. -/
def slotCost (L : NumLib) (K : Knn) (bs : List Branch) (id i : Nat) : ℚ :=
  edgeCost L (getB bs id) (getB bs (childAt K id i)) (K.dists2 i id)

/-- The body of the loop of line 332 for slot `i` of the popped `node` (lines 334-364), on
the branch list and the queue; a push appends to the queue. -/
def relaxChild (L : NumLib) (K : Knn) (node : QueueNode)
    (st : List Branch × List QueueNode) (i : Nat) : List Branch × List QueueNode :=
  let child := childAt K node.id i
  let dist := L.sqrt (K.dists2 i node.id)
  let new_dist := node.distance_to_ground + dist
  let new_score := node.score + slotCost L K st.1 node.id i
  if new_score < (getB st.1 child).tree_score then
    (st.1.set child { getB st.1 child with
        tree_score := new_score, distance_to_ground := new_dist, parent := (node.id : Int) },
      st.2 ++ [⟨new_dist, new_score, child⟩])
  else st

/-- The loop of lines 332-365 for the popped `node`. -/
def expand (L : NumLib) (K : Knn) (node : QueueNode)
    (st : List Branch × List QueueNode) : List Branch × List QueueNode :=
  (slots K node.id).foldl (relaxChild L K node) st

/-- The entry has the least score of the queue. -/
def leastIn (q : List QueueNode) (e : QueueNode) : Bool :=
  q.all (fun e2 => decide (e.score ≤ e2.score))

/-- The position of the entry that `top()` returns. `std::priority_queue` with
`QueueNodeComparator` returns an entry of least score; which one among equal scores is
left to `pick`: its choice is taken when it is the position of an entry of least score,
the first such entry otherwise. -/
def topIndex (pick : List QueueNode → Nat) (q : List QueueNode) : Nat :=
  if pick q < q.length ∧ leastIn q (q.getD (pick q) default) = true then pick q
  else q.findIdx (fun e => leastIn q e)

/-- The loop of lines 327-368, at most `fuel` iterations. -/
def climb (L : NumLib) (K : Knn) (pick : List QueueNode → Nat) :
    Nat → List Branch × List QueueNode → List Branch × List QueueNode
  | 0, st => st
  | fuel + 1, st =>
    if st.2.isEmpty then st
    else
      let node := st.2.getD (topIndex pick st.2) default
      let closest_node := st.2.eraseIdx (topIndex pick st.2)
      if !(getB st.1 node.id).visited then
        let st1 := expand L K node (st.1, closest_node)
        climb L K pick fuel
          (st1.1.set node.id { getB st1.1 node.id with visited := true }, st1.2)
      else climb L K pick fuel (st.1, closest_node)

/-- A number of iterations after which the queue is empty: every iteration pops one entry,
and only the first pop of a branch pushes, at most `search_size` entries. -/
def climbFuel (n seeds : Nat) : Nat := seeds + (search_size + 1) * n

/-- Root selection followed by the relaxation loop (lines 289-368): the final branch list
and queue. -/
def skeleton (L : NumLib) (K : Knn) (pick : List QueueNode → Nat) (min_bound_z : ℚ)
    (bs : List Branch) : List Branch × List QueueNode :=
  climb L K pick (climbFuel bs.length (rootSelect min_bound_z bs).length)
    (bs, rootSelect min_bound_z bs)

/-- The branch list as it enters the skeleton stage: no parent, not visited, and the
tree score `t0` that the constructor of `Branch` (raybranch.h, not in src) gives. -/
def Fresh (t0 : ℚ) (bs : List Branch) : Prop :=
  ∀ b ∈ bs, b.parent = -1 ∧ b.visited = false ∧ b.tree_score = t0

/-- The neighbour search returns indices in `[-1, n)`. -/
def KnnValid (K : Knn) (n : Nat) : Prop :=
  ∀ u, u < n → ∀ i ∈ slots K u, childAt K u i < n

/-- Reachable from a seed by following neighbour edges. -/
inductive Reach (K : Knn) (seeds : List QueueNode) : Nat → Prop
  | seed (s : QueueNode) : s ∈ seeds → Reach K seeds s.id
  | edge (u i : Nat) : Reach K seeds u → i ∈ slots K u → Reach K seeds (childAt K u i)

/-- Reachable from a seed by a path of neighbour edges, with the score of the path: the
score of the seed plus the costs of the edges. -/
inductive PathScore (L : NumLib) (K : Knn) (bs : List Branch) (seeds : List QueueNode) :
    Nat → ℚ → Prop
  | seed (s : QueueNode) : s ∈ seeds → PathScore L K bs seeds s.id s.score
  | edge (u i : Nat) (c : ℚ) : PathScore L K bs seeds u c → i ∈ slots K u →
      PathScore L K bs seeds (childAt K u i) (c + slotCost L K bs u i)

/-- One step along the parent links: the parent of branch `p`, or `p` itself when it is
the value -1 that ends a chain. -/
def followParent (bs : List Branch) (p : Int) : Int :=
  if p < 0 then p else (getB bs p.toNat).parent

/-- The branch reached from `p` after `k` steps along the parent links. -/
def ancestor (bs : List Branch) : Nat → Int → Int
  | 0, p => p
  | k + 1, p => ancestor bs k (followParent bs p)

/-! ### Invariants of the relaxation loop -/

/-- What the loop over the slots `sl` of the popped `node` does to the branch list and the
queue: `st` before, `st1` after. -/
structure ExpandRel (L : NumLib) (K : Knn) (node : QueueNode) (sl : List Nat)
    (st st1 : List Branch × List QueueNode) : Prop where
  len : st1.1.length = st.1.length
  geo : ∀ x, (getB st1.1 x).centre = (getB st.1 x).centre ∧
    (getB st1.1 x).dir = (getB st.1 x).dir ∧ (getB st1.1 x).visited = (getB st.1 x).visited
  chg : ∀ x, ((getB st1.1 x).tree_score = (getB st.1 x).tree_score ∧
      (getB st1.1 x).parent = (getB st.1 x).parent) ∨
    ((getB st1.1 x).tree_score < (getB st.1 x).tree_score ∧
      (getB st1.1 x).parent = (node.id : Int) ∧
      (∃ qn ∈ st1.2, qn.id = x ∧ qn.score = (getB st1.1 x).tree_score) ∧
      (∃ i ∈ sl, childAt K node.id i = x ∧
        (getB st1.1 x).tree_score = node.score + slotCost L K st.1 node.id i))
  que : ∀ qn ∈ st1.2, qn ∈ st.2 ∨
    (∃ i ∈ sl, qn.id = childAt K node.id i ∧
      qn.score = node.score + slotCost L K st.1 node.id i ∧
      (getB st1.1 qn.id).parent = (node.id : Int))
  sub : ∀ qn ∈ st.2, qn ∈ st1.2
  opt : ∀ i ∈ sl, (getB st1.1 (childAt K node.id i)).tree_score ≤
    node.score + slotCost L K st.1 node.id i
  qlen : st1.2.length ≤ st.2.length + sl.length

/-- The invariant of the relaxation loop. `bs0` is the branch list at the start of the loop,
`t0` its tree score, `seeds` the seeded entries and `e u` the score with which a visited
branch `u` was popped. -/
structure Inv (L : NumLib) (K : Knn) (t0 : ℚ) (seeds : List QueueNode) (bs0 : List Branch)
    (e : Nat → ℚ) (st : List Branch × List QueueNode) : Prop where
  len : st.1.length = bs0.length
  geo : ∀ x, (getB st.1 x).centre = (getB bs0 x).centre ∧ (getB st.1 x).dir = (getB bs0 x).dir
  qid : ∀ qn ∈ st.2, qn.id < bs0.length
  qlow : ∀ u, u < bs0.length → (getB st.1 u).visited = true → ∀ qn ∈ st.2, e u ≤ qn.score
  ts_none : ∀ u, u < bs0.length → (getB st.1 u).parent = -1 → (getB st.1 u).tree_score = t0
  ts_some : ∀ u, u < bs0.length → (getB st.1 u).parent ≠ -1 → (getB st.1 u).tree_score < t0
  inq : ∀ u, u < bs0.length → (getB st.1 u).parent ≠ -1 → (getB st.1 u).visited = false →
    ∃ qn ∈ st.2, qn.id = u ∧ qn.score = (getB st.1 u).tree_score
  low : ∀ u, u < bs0.length → (getB st.1 u).parent ≠ -1 → (getB st.1 u).visited = true →
    e u ≤ (getB st.1 u).tree_score
  opt : ∀ u, u < bs0.length → (getB st.1 u).visited = true → ∀ i ∈ slots K u,
    (getB st.1 (childAt K u i)).tree_score ≤ e u + slotCost L K bs0 u i
  qsrc : ∀ qn ∈ st.2, seeded seeds qn.id ∨ (getB st.1 qn.id).parent ≠ -1
  vroot : ∀ u, u < bs0.length → (getB st.1 u).visited = true → (getB st.1 u).parent = -1 →
    seeded seeds u
  seedq : ∀ s ∈ seeds, (getB st.1 s.id).visited = true ∨ s ∈ st.2
  seedlow : ∀ s ∈ seeds, (getB st.1 s.id).visited = true → e s.id ≤ s.score
  reach : ∀ u, u < bs0.length → (getB st.1 u).parent ≠ -1 → Reach K seeds u
  qreach : ∀ qn ∈ st.2, Reach K seeds qn.id
  vreach : ∀ u, u < bs0.length → (getB st.1 u).visited = true → Reach K seeds u
  par : ∀ u, u < bs0.length → (getB st.1 u).parent = -1 ∨
    (0 ≤ (getB st.1 u).parent ∧ (getB st.1 u).parent < (bs0.length : Int))

/-- The number of branches not yet visited. -/
def unvisited (bs : List Branch) : Nat := bs.countP (fun b => !b.visited)

/-! ## Rational stand-ins for the numeric library -/

/-- Newton iteration for the integer square root. -/
def natSqrtIter : Nat → Nat → Nat → Nat
  | 0, _, x => x
  | fuel + 1, n, x =>
    let y := (x + n / x) / 2
    if y < x then natSqrtIter fuel n y else x

/-- Integer square root (rounded down) of numbers below `2 ^ 200`. -/
def natSqrt (n : Nat) : Nat := if n = 0 then 0 else natSqrtIter 200 n n

/-- A stand-in for `std::sqrt`: the square root rounded down to nine decimals, exact on
squares of such numbers; zero on negative input. -/
def sqrtQ (q : ℚ) : ℚ :=
  if q ≤ 0 then 0
  else (natSqrt (q.num.toNat * q.den * 10 ^ 18) : ℚ) / ((q.den : ℚ) * 10 ^ 9)

/-- A stand-in for Eigen `normalized()`: division by the rounded norm, the zero vector
is returned as it is. -/
def normalizedQ (v : Vec3) : Vec3 :=
  if Vec3.squaredNorm v > 0 then Vec3.smul v (1 / sqrtQ (Vec3.squaredNorm v)) else v

/-! ## Example inputs -/

/-- The file of two lines `a,b,c,d` and `1,2`. -/
def badFieldFile : List Char := "a,b,c,d\n1,2".toList

/-- The file of three lines `1,2,3,0.5`, a comment and `1,2`. -/
def twoCommaFile : List Char := "1,2,3,0.5\n# c\n1,2".toList

/-- An active candidate with the given centre, direction, radius and length, score 50 and
the skeleton fields as the constructor leaves them. -/
def mkBranch (centre dir : Vec3) (radius length : ℚ) : Branch :=
  ⟨centre, radius, 50, length, dir, -1, inf, inf, true, false⟩

/-- A vertical cylinder of radius 1 and length 1 at the origin. -/
def cylA : Branch := mkBranch ⟨0, 0, 0⟩ ⟨0, 0, 1⟩ 1 1

/-- A thinner copy of `cylA`. -/
def cylA2 : Branch := mkBranch ⟨0, 0, 0⟩ ⟨0, 0, 1⟩ (9 / 10) 1

/-- A large vertical cylinder that contains `cylA` away from its own axis. -/
def cylC : Branch := mkBranch ⟨8, 0, 0⟩ ⟨0, 0, 1⟩ 10 40

/-- A vertical branch at the origin, one unit above the lowest point of the cloud. -/
def lowBranch : Branch := mkBranch ⟨0, 0, 0⟩ ⟨0, 0, 1⟩ (1 / 10) (4 / 5)

/-- A vertical branch one unit above `lowBranch`. -/
def highBranch : Branch := mkBranch ⟨0, 0, 1⟩ ⟨0, 0, 1⟩ (1 / 10) (4 / 5)

/-- The rational stand-ins as a numeric library. -/
def libQ : NumLib := ⟨sqrtQ, normalizedQ⟩

/-- Ties in the queue go to the first entry. -/
def pickFirst : List QueueNode → Nat := fun _ => 0

/-- The neighbour search on two branches: each has the other as its only neighbour, at
squared distance `d2`. -/
def knnPair (d2 : ℚ) : Knn :=
  ⟨fun i id => if i = 0 then (if id = 0 then 1 else 0) else -1, fun _ _ => d2⟩

/-- A horizontal branch at the origin. -/
def flatLow : Branch := mkBranch ⟨0, 0, 0⟩ ⟨1, 0, 0⟩ (1 / 10) (4 / 5)

/-- A horizontal branch 1000 units above `flatLow`. -/
def flatHigh : Branch := mkBranch ⟨0, 0, 1000⟩ ⟨1, 0, 0⟩ (1 / 10) (4 / 5)

/-- A vertical branch two units above the origin. -/
def higherBranch : Branch := mkBranch ⟨0, 0, 2⟩ ⟨0, 0, 1⟩ (1 / 10) (4 / 5)

/-- The final branch list of the skeleton stage on `lowBranch`, `highBranch`, which are each
other's neighbour at squared distance 1, with the lowest point of the cloud at z = -1. -/
def cycleOut : List Branch :=
  (skeleton libQ (knnPair 1) pickFirst (-1) [lowBranch, highBranch]).1

/-! ## Records of a loaded file -/

/-- A record read from a data line: the four tokens of the line convert to its four numbers,
the first three to the base position and the fourth to the radius. -/
def recordOf (stod : List Char → Option ℚ) (line : List Char) (r : Base) : Prop :=
  ∃ t0 t1 t2 t3, tokens line = [t0, t1, t2, t3] ∧ stod t0 = some r.1.x ∧
    stod t1 = some r.1.y ∧ stod t2 = some r.1.z ∧ stod t3 = some r.2

/-- The first pops of the loop of lines 327-368 in at most `fuel` iterations, in order: for
every pop of a branch that is not yet visited, the index of the branch and the number of
entries pushed while its slots were relaxed. The recursion is that of `climb`. -/
def climbLog (L : NumLib) (K : Knn) (pick : List QueueNode → Nat) :
    Nat → List Branch × List QueueNode → List (Nat × Nat)
  | 0, _ => []
  | fuel + 1, st =>
    if st.2.isEmpty then []
    else
      let node := st.2.getD (topIndex pick st.2) default
      let closest_node := st.2.eraseIdx (topIndex pick st.2)
      if !(getB st.1 node.id).visited then
        let st1 := expand L K node (st.1, closest_node)
        (node.id, st1.2.length - closest_node.length) ::
          climbLog L K pick fuel
            (st1.1.set node.id { getB st1.1 node.id with visited := true }, st1.2)
      else climbLog L K pick fuel (st.1, closest_node)

/-- The state after the first pop of a branch: the loop of lines 332-365 for `node` on the
branch list and the rest of the queue, then the mark `visited` of line 366. -/
def afterExpand (L : NumLib) (K : Knn) (node : QueueNode)
    (st : List Branch × List QueueNode) : List Branch × List QueueNode :=
  ((expand L K node st).1.set node.id
    { getB (expand L K node st).1 node.id with visited := true }, (expand L K node st).2)

/-- The state of the loop on `lowBranch`, `highBranch` after its first iteration. -/
def cycleMid : List Branch × List QueueNode :=
  climb libQ (knnPair 1) pickFirst 1 ([lowBranch, highBranch],
    rootSelect (-1) [lowBranch, highBranch])

/-- A vertical cylinder of radius 4 and length 9 at the origin. -/
def tieA : Branch := mkBranch ⟨0, 0, 0⟩ ⟨0, 0, 1⟩ 4 9

/-- A vertical cylinder of radius 3 and length 16 at the origin, with the radius²·length of
`tieA`. -/
def tieB : Branch := mkBranch ⟨0, 0, 0⟩ ⟨0, 0, 1⟩ 3 16

/-! ## Candidate initialisation (raybranches.cpp, lines 71-108) -/

/-- The constant `branch_height_to_width` of raybranches.cpp. -/
def branch_height_to_width : ℚ := 4

/-- Modelled from the spec: the cloud (raycloud.h, not in src) as far as the pipeline reads
it: the end points and the predicate `rayBounded`. -/
structure Cloud where
  ends : List Vec3
  rayBounded : Nat → Bool

/-- Eigen::Vector3i, the index of a voxel. -/
structure Vec3i where
  x : Int
  y : Int
  z : Int
deriving DecidableEq, Inhabited

/-- Modelled from the spec: the class `IntegerVoxels` (not in src), a voxel grid with a cell
width and an origin offset that maps the index of every occupied cell to its occupancy
count. The map is a list of pairs with distinct indices; the order in which `forEach`
visits the cells is not given by the spec, the order of first insertion is used. -/
structure IntegerVoxels where
  voxel_width : ℚ
  offset : Vec3
  voxel_map : List (Vec3i × Nat)

/-- Modelled from the spec: the index of the cell that holds a point, the floor of
`(pos - offset) / voxel_width` on every axis. A zero width is a division by zero in the
source and outside the model. -/
def cellIndex (voxel_width : ℚ) (offset pos : Vec3) : Vec3i :=
  ⟨⌊(pos.x - offset.x) / voxel_width⌋, ⌊(pos.y - offset.y) / voxel_width⌋,
    ⌊(pos.z - offset.z) / voxel_width⌋⟩

/-- Modelled from the spec: one more point in the cell `index` of an occupancy map. -/
def bump (index : Vec3i) : List (Vec3i × Nat) → List (Vec3i × Nat)
  | [] => [(index, 1)]
  | (k, c) :: rest => if k = index then (k, c + 1) :: rest else (k, c) :: bump index rest

/-- Modelled from the spec: `IntegerVoxels::increment(pos)`, one more point in the cell that
holds `pos`. -/
def IntegerVoxels.increment (v : IntegerVoxels) (pos : Vec3) : IntegerVoxels :=
  { v with voxel_map := bump (cellIndex v.voxel_width v.offset pos) v.voxel_map }

/-- The lambda `addBranch` of lines 89-103 on the branch list it captures. `fresh` is the
branch that `Branch branch;` constructs (raybranch.h, not in src) and `sqrt` is
`std::sqrt`. The parameter `voxel_width` is the one of the lambda, which hides the
argument of `initialiseBranches`. -/
def addBranch (fresh : Branch) (sqrt : ℚ → ℚ) (branches : List Branch) (voxel_width : ℚ)
    (offset : Vec3) (index : Vec3i) (count : Nat) : List Branch :=
  let centre : Vec3 := Vec3.add (Vec3.smul
    ⟨(index.x : ℚ) + 1 / 2, (index.y : ℚ) + 1 / 2, (index.z : ℚ) + 1 / 2⟩ voxel_width) offset
  if count < 2 then branches
  else
    let diameter := voxel_width / sqrt 2
    branches ++ [{ fresh with
      centre := centre, radius := diameter / 2, length := diameter * branch_height_to_width,
      score := 0, dir := ⟨0, 0, 1⟩ }]

/-- Modelled from the spec: `IntegerVoxels::forEach` with the callback `addBranch`: the
callback is called for every occupied cell with the width and the offset of the grid, the
index of the cell and its count. -/
def IntegerVoxels.forEach (v : IntegerVoxels) (fresh : Branch) (sqrt : ℚ → ℚ)
    (branches : List Branch) : List Branch :=
  v.voxel_map.foldl
    (fun bs kc => addBranch fresh sqrt bs v.voxel_width v.offset kc.1 kc.2) branches

/-- The four grids of lines 73-78, still empty. -/
def emptyVoxels (min_bound : Vec3) (voxel_width : ℚ) : List IntegerVoxels :=
  let half_voxel : Vec3 := ⟨1 / 2 * voxel_width, 1 / 2 * voxel_width, 1 / 2 * voxel_width⟩
  [⟨voxel_width, min_bound, []⟩, ⟨voxel_width, Vec3.add min_bound half_voxel, []⟩,
    ⟨2 * voxel_width, min_bound, []⟩,
    ⟨2 * voxel_width, Vec3.add min_bound (Vec3.smul half_voxel 2), []⟩]

/-- The function `initialiseBranches` (lines 71-108): the bounded end points are counted in
the four grids, then every grid calls `addBranch` for its cells. -/
def initialiseBranches (fresh : Branch) (sqrt : ℚ → ℚ) (branches : List Branch)
    (cloud : Cloud) (min_bound : Vec3) (voxel_width : ℚ) : List Branch :=
  let voxels := (List.range cloud.ends.length).foldl
    (fun vs i =>
      if !cloud.rayBounded i then vs
      else vs.map (fun v => v.increment (cloud.ends.getD i default)))
    (emptyVoxels min_bound voxel_width)
  voxels.foldl (fun bs v => v.forEach fresh sqrt bs) branches

/-- The end points of the bounded rays, in the order of the cloud. -/
def boundedEnds (cloud : Cloud) : List Vec3 :=
  ((List.range cloud.ends.length).filter (fun i => cloud.rayBounded i)).map
    (fun i => cloud.ends.getD i default)

/-- The cells of a grid that hold the bounded end points, one entry per point. -/
def pointCells (g : IntegerVoxels) (cloud : Cloud) : List Vec3i :=
  (boundedEnds cloud).map (cellIndex g.voxel_width g.offset)

/-- The occupancy count of a cell: the number of bounded end points that fall in it. -/
def occupancy (g : IntegerVoxels) (cloud : Cloud) (index : Vec3i) : Nat :=
  (pointCells g cloud).count index

/-- The centre of a cell, `(index + ½) · cell_width + grid_origin`. -/
def cellCentre (g : IntegerVoxels) (index : Vec3i) : Vec3 :=
  ⟨((index.x : ℚ) + 1 / 2) * g.voxel_width + g.offset.x,
    ((index.y : ℚ) + 1 / 2) * g.voxel_width + g.offset.y,
    ((index.z : ℚ) + 1 / 2) * g.voxel_width + g.offset.z⟩

/-- The candidate of a cell of a grid: centred at the cell, with the diameter
`cell_width / √2`. -/
def candidateAt (fresh : Branch) (sqrt : ℚ → ℚ) (g : IntegerVoxels) (index : Vec3i) : Branch :=
  { fresh with
    centre := cellCentre g index, radius := g.voxel_width / sqrt 2 / 2,
    length := g.voxel_width / sqrt 2 * branch_height_to_width, score := 0, dir := ⟨0, 0, 1⟩ }

/-- The occupancy map of a grid after all bounded end points are counted. -/
def tallyOf (g : IntegerVoxels) (cloud : Cloud) : List (Vec3i × Nat) :=
  (pointCells g cloud).foldl (fun m c => bump c m) []

/-- The candidates of a grid: one for every cell with at least two bounded end points. -/
def gridCandidates (fresh : Branch) (sqrt : ℚ → ℚ) (g : IntegerVoxels) (cloud : Cloud) :
    List Branch :=
  (((pointCells g cloud).dedup).filter (fun k => decide (2 ≤ occupancy g cloud k))).map
    (candidateAt fresh sqrt g)

/-- A cloud of two bounded end points that share a cell only in the first grid of double
width. -/
def pairCloud : Cloud := ⟨[⟨1 / 10, 1 / 10, 1 / 10⟩, ⟨3 / 2, 1 / 10, 1 / 10⟩], fun _ => true⟩

/-- A cloud of two end points of which none is bounded. -/
def unboundedCloud : Cloud := ⟨[⟨1 / 10, 1 / 10, 1 / 10⟩, ⟨1 / 5, 1 / 10, 1 / 10⟩],
  fun _ => false⟩

/-- The branch that the constructor of `Branch` is taken to build in the examples. -/
def freshBranch : Branch := ⟨⟨0, 0, 0⟩, 0, 0, 0, ⟨0, 0, 0⟩, -1, inf, inf, true, false⟩

/-! ## Refinement (raybranches.cpp, lines 141-178) -/

/-- The methods of `Branch` that the refinement loop calls (raybranch.cpp, not in src).
`getOverlap` stands for the call with the grid and the point spacing of the cloud and returns
the points it collects. -/
structure Refiner where
  getOverlap : Branch → List Vec3
  estimatePose : Branch → List Vec3 → Branch
  updateDirection : Branch → List Vec3 → Branch
  updateCentre : Branch → List Vec3 → Branch
  updateRadiusAndScore : Branch → List Vec3 → Branch

/-- The constant `min_num_points` of line 134. -/
def min_num_points : Nat := 6

/-- The constant `num_iterations` of line 144. -/
def num_iterations : Nat := 5

/-- The branch after the three updates of lines 168-170. -/
def updated (R : Refiner) (branch : Branch) (points : List Vec3) : Branch :=
  R.updateRadiusAndScore (R.updateCentre (R.updateDirection branch points) points) points

/-- The assignment of lines 172-173: the best state is replaced by a state of higher score. -/
def keepBest (best branch : Branch) : Branch :=
  if branch.score > best.score then branch else best

/-- The body of the loop over `branch_id` (lines 150-176) on one branch and its best
state. -/
def refineBranch (R : Refiner) (midRadius : ℚ) (st : Branch × Branch) : Branch × Branch :=
  if !st.1.active then st
  else if (R.getOverlap st.1).length < min_num_points then ({ st.1 with active := false }, st.2)
  else if st.1.dir.z = 1 then (R.estimatePose st.1 (R.getOverlap st.1), st.2)
  else
    (if (updated R st.1 (R.getOverlap st.1)).length < midRadius then
        { updated R st.1 (R.getOverlap st.1) with active := false }
      else updated R st.1 (R.getOverlap st.1),
      keepBest st.2 (updated R st.1 (R.getOverlap st.1)))

/-- The loop over `it` (lines 145-178), `it` iterations on the pairs of a branch and its
best state. -/
def refineIterate (R : Refiner) (midRadius : ℚ) :
    Nat → List (Branch × Branch) → List (Branch × Branch)
  | 0, sts => sts
  | it + 1, sts => refineIterate R midRadius it (sts.map (refineBranch R midRadius))

/-- The lists `branches` and `best_branches` before the iterations (lines 141-143). -/
def refineInit (branches : List Branch) : List (Branch × Branch) :=
  branches.map (fun b => (b, { b with active := false }))

/-- The refinement of lines 141-178: every branch with its best state. -/
def refine (R : Refiner) (midRadius : ℚ) (branches : List Branch) : List (Branch × Branch) :=
  refineIterate R midRadius num_iterations (refineInit branches)

/-- A pass on the branch runs the three updates: the branch is active, has enough points
and its direction is no longer the initial one. -/
def steadyPass (R : Refiner) (branch : Branch) : Bool :=
  branch.active && !decide ((R.getOverlap branch).length < min_num_points) &&
    !decide (branch.dir.z = 1)

/-- The states after the updates of the steady passes that `n` iterations run on a
candidate, in the order of the passes. -/
def steadyStates (R : Refiner) (midRadius : ℚ) : Nat → Branch → List Branch
  | 0, _ => []
  | n + 1, b =>
    (if steadyPass R b then [updated R b (R.getOverlap b)] else []) ++
      steadyStates R midRadius n (refineBranch R midRadius (b, b)).1

/-! ## The pipeline of `Bush::Bush` (raybranches.cpp, lines 110-368) -/

/-- The calls of `Bush::Bush` into code that is not among the sources at hand. A call that
throws or aborts is `none`.
* `estimatePointSpacing`, `calcMinBound`, `calcMaxBound`: the methods of `Cloud` called in
  lines 112, 119 and 120;
* `grid`: the `Grid` of lines 124-132, built from the bounds and the voxel width and filled
  with the bounded end points; its result stands for the methods of `Branch` on that grid
  with the point spacing;
* `knn`: the kd-tree of libnabo built on the given points and queried for the given number
  of neighbours (lines 315-324). -/
structure Outside where
  estimatePointSpacing : Cloud → Option ℚ
  calcMinBound : Cloud → Option Vec3
  calcMaxBound : Cloud → Option Vec3
  grid : Vec3 → Vec3 → ℚ → List Vec3 → ℚ → Option Refiner
  knn : List Vec3 → Nat → Option Knn

/-- The constructor `Bush::Bush` from its first line to the end of the relaxation: the final
branch list and queue, or `none` when a call into code outside fails; nothing in the
constructor catches an exception. -/
def bush (fresh : Branch) (L : NumLib) (O : Outside) (pick : List QueueNode → Nat)
    (cloud : Cloud) (midRadius : ℚ) : Option (List Branch × List QueueNode) :=
  match O.estimatePointSpacing cloud with
  | none => none
  | some spacing =>
    match O.calcMinBound cloud with
    | none => none
    | some min_bound =>
      match O.calcMaxBound cloud with
      | none => none
      | some max_bound =>
        let voxel_width := midRadius * 2
        match O.grid min_bound max_bound voxel_width (boundedEnds cloud) spacing with
        | none => none
        | some R =>
          let branches := initialiseBranches fresh L.sqrt [] cloud min_bound voxel_width
          let best_branches := prune ((refine R midRadius branches).map Prod.snd)
          let branches := overlapResolution L.normalized best_branches
          match O.knn (branches.map (fun b => b.centre)) search_size with
          | none => none
          | some K => some (skeleton L K pick min_bound.z branches)

/-- The precondition of the neighbour search as the repository asserts it before the same
call in raysmooth.cpp (line 32): `num_neighbors <= (int)positions.size()`. -/
def knnRequestOk (points : List Vec3) (num_neighbors : Nat) : Bool :=
  decide (num_neighbors ≤ points.length)

/-- Six points for `toyRefiner`. -/
def sixPoints : List Vec3 := List.replicate 6 ⟨0, 0, 0⟩

/-- Methods for the examples: no point is collected for a branch left of the origin, six
otherwise; the pose estimate turns the direction to the x axis; the update halves the
radius and sets the score to 0. -/
def toyRefiner : Refiner :=
  ⟨fun b => if b.centre.x < 0 then [] else sixPoints,
    fun b _ => { b with dir := ⟨1, 0, 0⟩ },
    fun b _ => b, fun b _ => b,
    fun b _ => { b with radius := b.radius / 2, score := 0 }⟩

/-- Methods for the examples: six points for every branch; the pose estimate turns the
direction to the x axis; the update adds 1 to the score. -/
def countRefiner : Refiner :=
  ⟨fun _ => sixPoints, fun b _ => { b with dir := ⟨1, 0, 0⟩ },
    fun b _ => b, fun b _ => b, fun b _ => { b with score := b.score + 1 }⟩

/-- A candidate left of the origin. -/
def candLeft : Branch := ⟨⟨-1, 0, 0⟩, 1, 0, 8, ⟨0, 0, 1⟩, -1, inf, inf, true, false⟩

/-- A candidate right of the origin. -/
def candRight : Branch := ⟨⟨1, 0, 0⟩, 1, 0, 8, ⟨0, 0, 1⟩, -1, inf, inf, true, false⟩

/-- Calls into code outside for the examples: spacing 1, both bounds at the origin, the
methods `toyRefiner`, and a neighbour search that enforces its precondition and fails when
more neighbours are requested than there are points. -/
def outsideChecked : Outside :=
  ⟨fun _ => some 1, fun _ => some ⟨0, 0, 0⟩, fun _ => some ⟨0, 0, 0⟩,
    fun _ _ _ _ _ => some toyRefiner,
    fun points num_neighbors =>
      if knnRequestOk points num_neighbors then some (knnPair 1) else none⟩

/-! ## The edge cost over an ordered field -/

/-- A vector with coordinates in an ordered field `F` in place of `double`. -/
structure VecF (F : Type) where
  x : F
  y : F
  z : F

namespace VecF

/-- Component-wise sum. -/
def add {F : Type} [LinearOrderedField F] (a b : VecF F) : VecF F :=
  ⟨a.x + b.x, a.y + b.y, a.z + b.z⟩

/-- Component-wise difference. -/
def sub {F : Type} [LinearOrderedField F] (a b : VecF F) : VecF F :=
  ⟨a.x - b.x, a.y - b.y, a.z - b.z⟩

/-- Unary minus. -/
def neg {F : Type} [LinearOrderedField F] (a : VecF F) : VecF F := ⟨-a.x, -a.y, -a.z⟩

/-- Eigen `dot`. -/
def dot {F : Type} [LinearOrderedField F] (a b : VecF F) : F := a.x * b.x + a.y * b.y + a.z * b.z

/-- Eigen `squaredNorm`. -/
def squaredNorm {F : Type} [LinearOrderedField F] (a : VecF F) : F := dot a a

end VecF

/-- The value of `dist` after line 350 of raybranches.cpp, computed in an ordered field `F`
in place of `double`: lines 335-350 for a node and a neighbour with the given centres and
directions and the entry `d2` of `dists2`. -/
def edgeCostIn {F : Type} [LinearOrderedField F] (sqrt : F → F)
    (normalized : VecF F → VecF F) (nodeCentre nodeDir childCentre childDir : VecF F)
    (d2 : F) : F :=
  let dist := sqrt d2
  let dist := dist * dist
  let dif := normalized (VecF.sub childCentre nodeCentre)
  let dir := nodeDir
  let dir2 := if VecF.dot childDir dir < 0 then VecF.neg childDir else childDir
  let dir := normalized (VecF.add dir dir2)
  dist / (max (1 / 1000) (VecF.dot dif dir)) ^ 2

/-- The alignment `a` of an edge in the words of the specification: the dot product of the
unit vector from the centre of the node to the centre of the neighbour with the normalised
sum of the direction of the node and the direction of the neighbour, the latter negated
first when its dot product with the direction of the node is negative. `unit` is the
normalisation of a vector. -/
def alignmentIn {F : Type} [LinearOrderedField F] (unit : VecF F → VecF F)
    (nodeCentre nodeDir childCentre childDir : VecF F) : F :=
  VecF.dot (unit (VecF.sub childCentre nodeCentre))
    (unit (VecF.add nodeDir
      (if VecF.dot childDir nodeDir < 0 then VecF.neg childDir else childDir)))

/-- The edge cost of the specification: the squared Euclidean distance between the centres
divided by `max(0.001, a)²`. -/
def specEdgeCostIn {F : Type} [LinearOrderedField F] (unit : VecF F → VecF F)
    (nodeCentre nodeDir childCentre childDir : VecF F) : F :=
  ((childCentre.x - nodeCentre.x) ^ 2 + (childCentre.y - nodeCentre.y) ^ 2 +
      (childCentre.z - nodeCentre.z) ^ 2) /
    (max (1 / 1000) (alignmentIn unit nodeCentre nodeDir childCentre childDir)) ^ 2

/-- A vector of the rational embedding as a vector over the field `ℚ`. -/
def Vec3.toF (v : Vec3) : VecF ℚ := ⟨v.x, v.y, v.z⟩

/-- A vector over the field `ℚ` as a vector of the rational embedding. -/
def Vec3.ofF (v : VecF ℚ) : Vec3 := ⟨v.x, v.y, v.z⟩

/-! ## Lines on which `std::stod` throws -/

/-- A data line with exactly three commas of which some field does not convert: the loader
calls `std::stod` on the field and the call throws. -/
def raisesOn (stod : List Char → Option ℚ) (line : List Char) : Bool :=
  isDataLine line && (numCommas line == 3) && (tokens line).any (fun t => (stod t).isNone)

/-- The first line of a file on which the read loop stops: a data line whose number of
commas is not three, or a line on which `std::stod` throws. -/
def firstStop (stod : List Char → Option ℚ) (lines : List (List Char)) : Option (List Char) :=
  lines.find? (fun l => isBadLine l || raisesOn stod l)

/-- The file of the one line `1,2,3,`, whose fourth field is empty. -/
def emptyFieldFile : List Char := "1,2,3,".toList

/-- The file of the one line `a,b,c,d`. -/
def lettersFile : List Char := "a,b,c,d".toList

/-! ## Overlap resolution without the broad phase -/

/-- The conditions on a branch under which the broad phase is sound: a radius that is not
negative, a direction of unit length, and an axis `ax1` from Eigen `normalized` whose
length is at most `1 / s` for the sample scale `s = 0.8` (a unit vector, or the zero vector
that `normalized` returns for a direction along `(1, 2, 3)`). -/
def broadOk (normalized : Vec3 → Vec3) (b : Branch) : Bool :=
  decide (0 ≤ b.radius) && decide (Vec3.squaredNorm b.dir = 1) &&
    decide (sqr sampleScale * Vec3.squaredNorm (normalized (Vec3.cross ⟨1, 2, 3⟩ b.dir)) ≤ 1)

/-- The test of `dupHit` without the broad-phase exclusion of line 232: every pair of
another, active branch is sampled. -/
def dupHitAll (normalized : Vec3 → Vec3) (bs : List Branch) (i j : Nat) : Bool :=
  decide (i ≠ j) && (getB bs j).active &&
    decide ((numInside normalized (getB bs i) (getB bs j) : ℚ) / 25 > 2 / 5)

/-- The loop `overlapLoop` with every pair sampled. -/
def overlapLoopAll (normalized : Vec3 → Vec3) : Nat → Nat → List Branch → List Branch
  | 0, _, bs => bs
  | fuel + 1, i, bs =>
    if i < bs.length then
      if !(getB bs i).active then overlapLoopAll normalized fuel (i + 1) bs
      else
        match (List.range bs.length).find? (fun j => dupHitAll normalized bs i j) with
        | none => overlapLoopAll normalized fuel (i + 1) bs
        | some j =>
          if vol (getB bs i) < vol (getB bs j) then
            overlapLoopAll normalized fuel i (swapRemove bs i)
          else if j > i then
            overlapLoopAll normalized fuel (i + 1) (swapRemove bs j)
          else
            overlapLoopAll normalized fuel (i + 1) (bs.set j { getB bs j with active := false })
    else bs

/-- The overlap-resolution pass with every pair sampled. -/
def overlapResolutionAll (normalized : Vec3 → Vec3) (bs : List Branch) : List Branch :=
  (overlapLoopAll normalized bs.length 0 bs).filter (fun b => b.active)

/-! ## What overlap resolution keeps -/

/-- The list `bs2` keeps the active branches of `bs` up to removals that leave a larger one:
its active branches are a sub-multiset of those of `bs`, and every active branch of `bs` has
an active branch of `bs2` with at least its `radius²·length`. -/
def Keeps (bs bs2 : List Branch) : Prop :=
  (bs2.filter (fun b => b.active)).Subperm (bs.filter (fun b => b.active)) ∧
    ∀ b ∈ bs, b.active = true → ∃ b2 ∈ bs2, b2.active = true ∧ vol b ≤ vol b2

/-! ## Cylinders of negative radius -/

theorem getLast?_mid_concat (l₁ : List Branch) (x : Branch) (m : List Branch) (y : Branch) :
    (l₁ ++ x :: (m ++ [y])).getLast? = some y := by
  have : l₁ ++ x :: (m ++ [y]) = (l₁ ++ x :: m) ++ [y] := by simp
  rw [this, List.getLast?_append]
  simp

theorem swapRemove_split (l₁ : List Branch) (x : Branch) (l₂ : List Branch) :
    ∃ l₂', swapRemove (l₁ ++ x :: l₂) l₁.length = l₁ ++ l₂' ∧ l₂'.Perm l₂ := by
  rcases List.eq_nil_or_concat l₂ with h | ⟨m, y, h⟩
  · subst h
    refine ⟨[], ?_, List.Perm.refl _⟩
    simp [swapRemove, List.getLast?_append, List.dropLast_append_cons]
  · rw [List.concat_eq_append] at h
    subst h
    have h2 : (l₁ ++ x :: (m ++ [y])).set l₁.length y = (l₁ ++ y :: m) ++ [y] := by
      simp
    refine ⟨y :: m, ?_, (List.perm_append_singleton y m).symm⟩
    unfold swapRemove
    rw [getLast?_mid_concat]
    simp only [h2, List.dropLast_concat]

theorem swapRemove_length (bs : List Branch) (i : Nat) (h : i < bs.length) :
    (swapRemove bs i).length = bs.length - 1 := by
  unfold swapRemove
  cases hl : bs.getLast? with
  | none =>
    rw [List.getLast?_eq_none_iff] at hl
    subst hl
    simp at h
  | some last => simp

theorem split_at_index (bs : List Branch) (i : Nat) (h : i < bs.length) :
    bs = bs.take i ++ getB bs i :: bs.drop (i + 1) ∧ (bs.take i).length = i := by
  constructor
  · have : getB bs i = bs[i] := by simp [getB, List.getD_eq_getElem?_getD, h]
    rw [this]
    simp
  · simp
    omega

/-- The kept elements of the first pruning pass. -/
theorem pruneLoop_perm (fuel : Nat) : ∀ (branch_id : Nat) (bs : List Branch),
    bs.length - branch_id ≤ fuel →
    (pruneLoop fuel branch_id bs).Perm
      (bs.take branch_id ++ (bs.drop branch_id).filter (fun b => !pruneCond b)) := by
  induction fuel with
  | zero =>
    intro branch_id bs h
    have h1 : bs.length ≤ branch_id := by omega
    simp [pruneLoop, List.drop_eq_nil_of_le h1, List.take_of_length_le h1]
  | succ fuel ih =>
    intro branch_id bs h
    unfold pruneLoop
    by_cases hlt : branch_id < bs.length
    · rw [if_pos hlt]
      obtain ⟨hsplit, hlen⟩ := split_at_index bs branch_id hlt
      have hdrop : bs.drop branch_id = getB bs branch_id :: bs.drop (branch_id + 1) := by
        conv_lhs => rw [hsplit]
        rw [List.drop_append_eq_append_drop]
        simp [hlen]
      by_cases hc : pruneCond (getB bs branch_id) = true
      · rw [if_pos hc]
        obtain ⟨l₂', he, hp⟩ :=
          swapRemove_split (bs.take branch_id) (getB bs branch_id) (bs.drop (branch_id + 1))
        rw [hlen, ← hsplit] at he
        have hl := swapRemove_length bs branch_id hlt
        refine (ih branch_id (swapRemove bs branch_id) (by omega)).trans ?_
        have ht : (bs.take branch_id ++ l₂').take branch_id = bs.take branch_id := by
          rw [List.take_append_eq_append_take]
          simp [hlen]
        have hd : (bs.take branch_id ++ l₂').drop branch_id = l₂' := by
          rw [List.drop_append_eq_append_drop]
          simp [hlen]
        rw [he, ht, hd, hdrop, List.filter_cons]
        simp only [hc, Bool.not_true]
        exact List.Perm.append_left _ (hp.filter _)
      · rw [if_neg hc]
        refine (ih (branch_id + 1) bs (by omega)).trans ?_
        have hc' : pruneCond (getB bs branch_id) = false := by simpa using hc
        rw [hdrop, List.filter_cons]
        simp only [hc', Bool.not_false, if_true]
        have ht : bs.take (branch_id + 1) = bs.take branch_id ++ [getB bs branch_id] := by
          conv_lhs => rw [hsplit]
          rw [List.take_append_eq_append_take]
          simp [hlen]
        rw [ht]
        simp
    · rw [if_neg hlt]
      have h1 : bs.length ≤ branch_id := by omega
      simp [List.drop_eq_nil_of_le h1, List.take_of_length_le h1]

/-- More fuel than `size - branch_id` does not change the result of the pruning loop. -/
theorem pruneLoop_fuel (fuel : Nat) : ∀ (k branch_id : Nat) (bs : List Branch),
    bs.length - branch_id ≤ fuel →
    pruneLoop (fuel + k) branch_id bs = pruneLoop fuel branch_id bs := by
  induction fuel with
  | zero =>
    intro k branch_id bs h
    have h1 : ¬ branch_id < bs.length := by omega
    cases k with
    | zero => rfl
    | succ k => simp [pruneLoop, h1]
  | succ fuel ih =>
    intro k branch_id bs h
    have e : fuel + 1 + k = (fuel + k) + 1 := by omega
    rw [e]
    unfold pruneLoop
    by_cases hlt : branch_id < bs.length
    · simp only [hlt, if_true]
      by_cases hc : pruneCond (getB bs branch_id) = true
      · simp only [hc, if_true]
        have hl := swapRemove_length bs branch_id hlt
        exact ih k branch_id _ (by omega)
      · simp only [hc, if_false]
        exact ih k (branch_id + 1) bs (by omega)
    · simp only [hlt, if_false]


/-- C4: after the first pruning pass the list holds, up to order, exactly the candidates
that are active and have score at least 40: each of them once, and no other. -/
theorem prune_perm_filter (bs : List Branch) :
    (prune bs).Perm (bs.filter (fun b => b.active && decide (40 ≤ b.score))) := by
  have h := pruneLoop_perm bs.length 0 bs (by omega)
  have hf : (fun b : Branch => !pruneCond b) = (fun b => b.active && decide (40 ≤ b.score)) := by
    funext b
    by_cases hs : b.score < 40
    · simp [pruneCond, minimum_score, hs, not_le.mpr hs]
    · simp [pruneCond, minimum_score, hs, not_lt.mp hs]
  simpa [prune, hf] using h

/-! ### Save and load -/

/-- A line with `n` commas has `n + 1` tokens. -/
theorem tokens_length (line : List Char) : (tokens line).length = numCommas line + 1 := by
  induction line with
  | nil => simp [tokens, numCommas]
  | cons c cs ih =>
    unfold tokens
    by_cases hc : c = ','
    · subst hc
      simp only [if_true, List.length_cons, ih]
      simp [numCommas]
    · simp only [hc, if_false]
      have hn : numCommas (c :: cs) = numCommas cs := by
        simp only [numCommas]
        exact List.count_cons_of_ne (fun h => hc h.symm) cs
      rw [hn, ← ih]
      cases ht : tokens cs with
      | nil => rw [ht] at ih; simp at ih
      | cons l ls => simp

theorem skipLine_saveHeader : skipLine saveHeader = true := by decide

theorem getlines_append_newline (l : List Char) (hl : ∀ c ∈ l, c ≠ Char.ofNat 10) :
    getlines (l ++ [Char.ofNat 10]) = [l, []] := by
  induction l with
  | nil => simp [getlines]
  | cons c cs ih =>
    have hc : c ≠ Char.ofNat 10 := hl c (List.mem_cons_self _ _)
    have ih' := ih (fun d hd => hl d (List.mem_cons_of_mem _ hd))
    simp [getlines, hc, ih']

/-- C10: whatever list of bases is saved, the written file is the header line alone, and
loading it returns the empty list; no saved tuple is read back. -/
theorem load_save_empty (stod : List Char → Option ℚ) (bases : List Base) :
    load stod (some (save bases)) = some [] := by
  have h : getlines (save bases) = [saveHeader, []] :=
    getlines_append_newline saveHeader (by decide)
  simp [load, h, loadLoop, skipLine_saveHeader, skipLine]

theorem loadLoop_bad (stod : List Char → Option ℚ) (pre : List (List Char)) :
    ∀ (bad : List Char) (post : List (List Char)) (acc : List Base),
    isBadLine bad = true →
    (∀ l ∈ pre, isDataLine l = true → numCommas l = 3 → (parseLine stod l).isSome = true) →
    loadLoop stod (pre ++ bad :: post) acc = some [] := by
  induction pre with
  | nil =>
    intro bad post acc hbad _
    simp only [isBadLine, isDataLine, Bool.and_eq_true, Bool.not_eq_true', beq_eq_false_iff_ne,
      ne_eq] at hbad
    simp [loadLoop, hbad.1, hbad.2]
  | cons l pre ih =>
    intro bad post acc hbad hpre
    have ih' := fun acc' => ih bad post acc' hbad
      (fun l' hl' => hpre l' (List.mem_cons_of_mem _ hl'))
    simp only [List.cons_append, loadLoop]
    by_cases hs : skipLine l = true
    · simp [hs, ih']
    · simp only [hs, Bool.false_eq_true, if_false]
      by_cases h3 : numCommas l = 3
      · have hp := hpre l (List.mem_cons_self _ _) (by simp [isDataLine, hs]) h3
        rw [if_pos h3]
        cases hpl : parseLine stod l with
        | none => simp [hpl] at hp
        | some r => simp [ih']
      · simp [h3]

/-- C9 (amended): a file with a data line whose number of commas is not three loads as the
empty result, provided `std::stod` converts the four fields of every three-comma data line
that comes before that line. -/
theorem load_bad_line_empty (stod : List Char → Option ℚ) (content : List Char)
    (pre : List (List Char)) (bad : List Char) (post : List (List Char))
    (hsplit : getlines content = pre ++ bad :: post)
    (hbad : isBadLine bad = true)
    (hpre : ∀ l ∈ pre, isDataLine l = true → numCommas l = 3 →
      (parseLine stod l).isSome = true) :
    load stod (some content) = some [] := by
  simp only [load, hsplit]
  exact loadLoop_bad stod pre bad post [] hbad hpre

/-- C9 (counterexample): the second line of the file has two commas, yet `load` does not
return the empty result: converting the field `a` of the first line throws. -/
theorem load_bad_line_raises :
    (getlines badFieldFile).any isBadLine = true ∧
      load stodDec (some badFieldFile) ≠ some [] := by
  decide

theorem load_bad_line_empty_witness :
    load stodDec (some twoCommaFile) = some [] :=
  load_bad_line_empty stodDec twoCommaFile ["1,2,3,0.5".toList, "# c".toList] "1,2".toList []
    (by decide) (by decide) (by decide!)

/-! ### Overlap resolution -/

theorem seg_bounds (c a t h : ℚ) (ht : |t| ≤ |h|) :
    min (c - a * h) (c + a * h) ≤ c + a * t ∧ c + a * t ≤ max (c - a * h) (c + a * h) := by
  have h1 : |a * t| ≤ |a * h| := by
    rw [abs_mul, abs_mul]
    exact mul_le_mul_of_nonneg_left ht (abs_nonneg a)
  have h2 := abs_le.mp (le_trans h1 (le_refl _))
  rcases le_total 0 (a * h) with hs | hs
  · rw [abs_of_nonneg hs] at h2
    constructor
    · exact le_trans (min_le_left _ _) (by linarith [h2.1])
    · exact le_trans (by linarith [h2.2]) (le_max_right _ _)
  · rw [abs_of_nonpos hs] at h2
    constructor
    · exact le_trans (min_le_right _ _) (by linarith [h2.1])
    · exact le_trans (by linarith [h2.2]) (le_max_left _ _)

theorem lt_of_sq_sum_lt (u v w r : ℚ) (hr : 0 ≤ r) (h : u * u + v * v + w * w < r * r) :
    -r < u ∧ u < r := by
  constructor
  · by_contra hc
    push_neg at hc
    nlinarith [mul_self_nonneg v, mul_self_nonneg w, mul_self_nonneg (u + r)]
  · by_contra hc
    push_neg at hc
    nlinarith [mul_self_nonneg v, mul_self_nonneg w, mul_self_nonneg (u - r)]

/-- A point inside a cylinder of non-negative radius lies in the cylinder's cuboid. -/
theorem inside_intersects (b : Branch) (p : Vec3) (hr : 0 ≤ b.radius)
    (h : insideCylinder b p = true) : (branchCuboid b).intersects p = true := by
  unfold insideCylinder at h
  simp only [Vec3.sub, Vec3.dot, Vec3.smul, Vec3.squaredNorm, sqr] at h
  split at h
  · exact absurd h (by simp)
  · rename_i hd
    push_neg at hd
    simp only [decide_eq_true_eq] at h
    generalize (p.x - b.centre.x) * b.dir.x + (p.y - b.centre.y) * b.dir.y +
      (p.z - b.centre.z) * b.dir.z = d at h hd
    have hlen : 0 ≤ 1 / 2 * b.length := by linarith [hd.1, hd.2]
    have habs : |d| ≤ |1 / 2 * b.length| := by
      rw [abs_of_nonneg hlen]
      exact abs_le.mpr ⟨by linarith [hd.2], by linarith [hd.1]⟩
    have hx := seg_bounds b.centre.x b.dir.x d (1 / 2 * b.length) habs
    have hy := seg_bounds b.centre.y b.dir.y d (1 / 2 * b.length) habs
    have hz := seg_bounds b.centre.z b.dir.z d (1 / 2 * b.length) habs
    have px := lt_of_sq_sum_lt _ _ _ _ hr h
    have py := lt_of_sq_sum_lt (p.y - b.centre.y - b.dir.y * d) (p.x - b.centre.x - b.dir.x * d)
      (p.z - b.centre.z - b.dir.z * d) _ hr (by linarith [h])
    have pz := lt_of_sq_sum_lt (p.z - b.centre.z - b.dir.z * d) (p.x - b.centre.x - b.dir.x * d)
      (p.y - b.centre.y - b.dir.y * d) _ hr (by linarith [h])
    simp only [Cuboid.intersects, branchCuboid, Vec3.sub, Vec3.add, Vec3.smul, minVector,
      maxVector, Bool.and_eq_true, decide_eq_true_eq, ge_iff_le]
    refine ⟨⟨⟨⟨⟨?_, ?_⟩, ?_⟩, ?_⟩, ?_⟩, ?_⟩
    · linarith [hx.1, px.1]
    · linarith [hy.1, py.1]
    · linarith [hz.1, pz.1]
    · linarith [hx.2, px.2]
    · linarith [hy.2, py.2]
    · linarith [hz.2, pz.2]

/-- Two cuboids with a common point overlap. -/
theorem overlaps_of_common (c o : Cuboid) (p : Vec3) (hc : c.intersects p = true)
    (ho : o.intersects p = true) : c.overlaps o = true := by
  simp only [Cuboid.intersects, Bool.and_eq_true, decide_eq_true_eq, ge_iff_le] at hc ho
  simp only [Cuboid.overlaps, Bool.not_eq_true', Bool.or_eq_false_iff, decide_eq_false_iff_not,
    not_lt, gt_iff_lt]
  obtain ⟨⟨⟨⟨⟨c1, c2⟩, c3⟩, c4⟩, c5⟩, c6⟩ := hc
  obtain ⟨⟨⟨⟨⟨o1, o2⟩, o3⟩, o4⟩, o5⟩, o6⟩ := ho
  refine ⟨⟨⟨⟨⟨?_, ?_⟩, ?_⟩, ?_⟩, ?_⟩, ?_⟩ <;> linarith

theorem zs_abs_le (k : Nat) : |zs.getD k 0| ≤ 1 / 2 := by
  rcases k with _ | _ | _ | _ | _ | k <;> simp [zs, sampleScale] <;> norm_num [abs_le]

theorem find?_range_lt (p : Nat → Bool) (n j : Nat)
    (h : (List.range n).find? p = some j) : j < n := by
  have := List.mem_of_find?_eq_some h
  exact List.mem_range.mp this

/-- More fuel than `size - i` does not change the result of the overlap loop. -/
theorem overlapLoop_fuel (normalized : Vec3 → Vec3) (fuel : Nat) :
    ∀ (k i : Nat) (bs : List Branch), bs.length - i ≤ fuel →
    overlapLoop normalized (fuel + k) i bs = overlapLoop normalized fuel i bs := by
  induction fuel with
  | zero =>
    intro k i bs h
    have h1 : ¬ i < bs.length := by omega
    cases k with
    | zero => rfl
    | succ k => simp [overlapLoop, h1]
  | succ fuel ih =>
    intro k i bs h
    have e : fuel + 1 + k = (fuel + k) + 1 := by omega
    rw [e]
    unfold overlapLoop
    by_cases hlt : i < bs.length
    · simp only [hlt, if_true]
      by_cases ha : (!(getB bs i).active) = true
      · simp only [ha, if_true]
        exact ih k (i + 1) bs (by omega)
      · simp only [ha, if_false]
        cases hf : (List.range bs.length).find? (fun j => dupHit normalized bs i j) with
        | none => exact ih k (i + 1) bs (by omega)
        | some j =>
          have hj := find?_range_lt _ _ _ hf
          simp only []
          by_cases hv : vol (getB bs i) < vol (getB bs j)
          · simp only [hv, if_true]
            have hl := swapRemove_length bs i hlt
            exact ih k i _ (by omega)
          · simp only [hv, if_false]
            by_cases hji : j > i
            · simp only [hji, if_true]
              have hl := swapRemove_length bs j hj
              exact ih k (i + 1) _ (by omega)
            · simp only [hji, if_false]
              exact ih k (i + 1) _ (by rw [List.length_set]; omega)
    · simp only [hlt, if_false]


/-- C3 (failing input): on the list `cylA, cylA2, cylC` the pass removes `cylA2` when it
compares `cylA` with it and then leaves the outer index; `cylA` is never compared with
`cylC`, and both stay in the output although their cuboids overlap and all 25 samples of
`cylA` lie inside `cylC`. -/
theorem overlap_leaves_duplicate :
    overlapResolution normalizedQ [cylA, cylA2, cylC] = [cylA, cylC] ∧
      (branchCuboid cylA).overlaps (branchCuboid cylC) = true ∧
      numInside normalizedQ cylA cylC = 25 ∧
      dupHit normalizedQ [cylA, cylC] 0 1 = true := by
  decide!

/-! ### Root selection -/

theorem rootBreak_iff (m : ℚ) (bi bj : Branch) :
    rootBreak m bi bj = true ↔ codeDominates m bi bj := by
  unfold rootBreak codeDominates
  by_cases h : 2 * (bj.centre.z - m) = 0
  · have h' : bj.centre.z - m = 0 := by linarith
    simp [h, h']
  · have h' : bj.centre.z - m ≠ 0 := fun h0 => h (by rw [h0]; ring)
    simp only [if_neg h, decide_eq_true_eq, Vec3.squaredNorm, Vec3.dot, gt_iff_lt, ne_eq, h',
      not_false_eq_true, true_and]
    have e : (bj.centre.x - bi.centre.x) * (bj.centre.x - bi.centre.x) +
        (bj.centre.y - bi.centre.y) * (bj.centre.y - bi.centre.y) + 0 * 0 =
        (bj.centre.x - bi.centre.x) ^ 2 + (bj.centre.y - bi.centre.y) ^ 2 := by ring
    rw [e]

theorem isRoot_iff (m : ℚ) (bs : List Branch) (i : Nat) :
    isRoot m bs i = true ↔ ∀ j, j < bs.length → ¬ codeDominates m (getB bs i) (getB bs j) := by
  unfold isRoot rootScan
  rw [beq_iff_eq, List.findIdx_eq_length]
  constructor
  · intro h j hj hd
    have hm : getB bs j ∈ bs := by
      have : getB bs j = bs[j] := by simp [getB, List.getD_eq_getElem?_getD, hj]
      rw [this]
      exact List.getElem_mem hj
    have := h _ hm
    rw [(rootBreak_iff m _ _).mpr hd] at this
    exact absurd this (by simp)
  · intro h x hx
    obtain ⟨j, hj, rfl⟩ := List.getElem_of_mem hx
    have hg : getB bs j = bs[j] := by simp [getB, List.getD_eq_getElem?_getD, hj]
    by_contra hc
    have hc' : rootBreak m (getB bs i) bs[j] = true := by simpa using hc
    rw [← hg] at hc'
    exact h j hj ((rootBreak_iff m _ _).mp hc')

theorem seeded_iff (m : ℚ) (bs : List Branch) (i : Nat) :
    seeded (rootSelect m bs) i ↔ i < bs.length ∧ isRoot m bs i = true := by
  unfold seeded rootSelect
  constructor
  · rintro ⟨qn, hq, rfl⟩
    rw [List.mem_map] at hq
    obtain ⟨k, hk, rfl⟩ := hq
    rw [List.mem_filter, List.mem_range] at hk
    exact hk
  · rintro ⟨hi, hr⟩
    refine ⟨⟨(getB bs i).centre.z, sqr (getB bs i).centre.z, i⟩, ?_, rfl⟩
    rw [List.mem_map]
    exact ⟨i, by rw [List.mem_filter, List.mem_range]; exact ⟨hi, hr⟩, rfl⟩

/-- A branch whose centre is not above z = 0 does not exclude itself. -/
theorem not_codeDominates_self (m : ℚ) (b : Branch) (hz : b.centre.z ≤ 0) :
    ¬ codeDominates m b b := by
  rintro ⟨_, h⟩
  simp at h
  linarith

/-- The root test of the code away from the comparison of a branch with itself: a seeded
branch has no other branch `j` with `z_i > hdist(i,j)² / (2·height_j)`, where `z_i` is the z
coordinate of the centre of `i` and a branch `j` at height zero never excludes; conversely a
branch whose centre has z ≤ 0 and that no other branch excludes is seeded. -/
theorem rootSelect_spec (m : ℚ) (bs : List Branch) (i : Nat) (hi : i < bs.length) :
    (seeded (rootSelect m bs) i →
        ∀ j, j < bs.length → j ≠ i → ¬ codeDominates m (getB bs i) (getB bs j)) ∧
      ((getB bs i).centre.z ≤ 0 →
        (∀ j, j < bs.length → j ≠ i → ¬ codeDominates m (getB bs i) (getB bs j)) →
        seeded (rootSelect m bs) i) := by
  constructor
  · intro hs j hj _
    exact (isRoot_iff m bs i).mp ((seeded_iff m bs i).mp hs).2 j hj
  · intro hz h
    refine (seeded_iff m bs i).mpr ⟨hi, (isRoot_iff m bs i).mpr ?_⟩
    intro j hj
    by_cases hji : j = i
    · rw [hji]
      exact not_codeDominates_self m _ hz
    · exact h j hj hji

theorem rootSelect_spec_witness : seeded (rootSelect (-1) [lowBranch, highBranch]) 0 :=
  (rootSelect_spec (-1) [lowBranch, highBranch] 0 (by decide)).2 (by decide!)
    (by
      intro j hj hne
      have hj1 : j = 1 := by
        simp only [List.length_cons, List.length_nil] at hj
        omega
      subst hj1
      rintro ⟨_, h⟩
      revert h
      decide!)

/-- C5 (failing input): a single branch one unit above `min_bound` (which is at z = 0, so
that its z coordinate is its height) has no other branch at all, and the rule of the
specification makes it a root; the inner loop of lines 295-305 does not skip `j = i`,
compares the branch with itself and does not seed it. -/
theorem rootSelect_self_excluded :
    specRoot 0 [highBranch] 0 ∧ rootSelect 0 [highBranch] = [] := by
  constructor
  · rintro ⟨j, hj, hne, _⟩
    simp at hj
    exact hne hj
  · decide!

/-! ### Relaxation: evaluations -/

theorem cycleOut_parents :
    (skeleton libQ (knnPair 1) pickFirst (-1) [lowBranch, highBranch]).2 = [] ∧
      (rootSelect (-1) [lowBranch, highBranch]).map (fun qn => qn.id) = [0] ∧
      followParent cycleOut 0 = 1 ∧ followParent cycleOut 1 = 0 := by
  decide!

theorem cycleOut_ancestor (k : Nat) :
    ∀ p : Int, p = 0 ∨ p = 1 → ancestor cycleOut k p = 0 ∨ ancestor cycleOut k p = 1 := by
  induction k with
  | zero => intro p hp; exact hp
  | succ k ih =>
    intro p hp
    simp only [ancestor]
    apply ih
    rcases hp with hp | hp
    · right; rw [hp]; exact cycleOut_parents.2.2.1
    · left; rw [hp]; exact cycleOut_parents.2.2.2

/-- C1 (failing input): `lowBranch` is the only seeded root and `highBranch` its only
neighbour. When the loop ends the parent of `lowBranch` is `highBranch` and the parent of
`highBranch` is `lowBranch`: no number of steps along the parent links from branch 0
reaches -1. -/
theorem skeleton_parent_cycle :
    (skeleton libQ (knnPair 1) pickFirst (-1) [lowBranch, highBranch]).2 = [] ∧
      (getB cycleOut 0).parent = 1 ∧ (getB cycleOut 1).parent = 0 ∧
      ∀ k, ancestor cycleOut k 0 ≠ -1 := by
  refine ⟨cycleOut_parents.1, by decide!, by decide!, ?_⟩
  intro k h
  rcases cycleOut_ancestor k 0 (Or.inl rfl) with h0 | h1
  · rw [h0] at h; exact absurd h (by decide)
  · rw [h1] at h; exact absurd h (by decide)

/-- C6 (counterexample): two branches on one vertical line above the lowest point of the
cloud. Neither is seeded, the loop ends at once, and branch 0 keeps parent -1 although it
fails the root test of the code and is dominated by branch 1 in the sense of the
specification. -/
theorem unreached_not_root :
    (skeleton libQ (knnPair 1) pickFirst 0 [highBranch, higherBranch]).2 = [] ∧
      (getB (skeleton libQ (knnPair 1) pickFirst 0 [highBranch, higherBranch]).1 0).parent = -1 ∧
      isRoot 0 [highBranch, higherBranch] 0 = false ∧
      ¬ specRoot 0 [highBranch, higherBranch] 0 := by
  refine ⟨by decide!, by decide!, by decide!, ?_⟩
  intro h
  apply h
  refine ⟨1, by decide, by decide, ?_⟩
  unfold specDominates
  have e0 : (getB [highBranch, higherBranch] 0) = highBranch := rfl
  have e1 : (getB [highBranch, higherBranch] 1) = higherBranch := rfl
  rw [e0, e1]
  simp only [highBranch, higherBranch, mkBranch]
  norm_num

/-- C8 (counterexample): `flatLow` is the only seeded root and `flatHigh` is its neighbour,
so `flatHigh` is reachable; the edge costs 10¹², which is not below the initial tree score
10¹⁰, so `flatHigh` is never pushed and the queue empties with `flatHigh` not visited. -/
theorem reachable_not_visited :
    (skeleton libQ (knnPair (10 ^ 6)) pickFirst (-1) [flatLow, flatHigh]).2 = [] ∧
      Reach (knnPair (10 ^ 6)) (rootSelect (-1) [flatLow, flatHigh]) 1 ∧
      (getB (skeleton libQ (knnPair (10 ^ 6)) pickFirst (-1) [flatLow, flatHigh]).1 1).visited
        = false := by
  refine ⟨by decide!, ?_, by decide!⟩
  have hs : (⟨0, 0, 0⟩ : QueueNode) ∈ rootSelect (-1) [flatLow, flatHigh] := by decide!
  have h0 : Reach (knnPair (10 ^ 6)) (rootSelect (-1) [flatLow, flatHigh]) 0 :=
    Reach.seed ⟨0, 0, 0⟩ hs
  have h1 := Reach.edge 0 0 h0 (by decide : 0 ∈ slots (knnPair (10 ^ 6)) 0)
  exact h1

/-! ### Relaxation: invariants -/

theorem getB_eq_getElem (bs : List Branch) (i : Nat) (h : i < bs.length) : getB bs i = bs[i] := by
  simp [getB, List.getD_eq_getElem?_getD, h]

theorem getB_mem (bs : List Branch) (i : Nat) (h : i < bs.length) : getB bs i ∈ bs := by
  rw [getB_eq_getElem bs i h]
  exact List.getElem_mem h

theorem getB_set_eq (bs : List Branch) (j : Nat) (b : Branch) (h : j < bs.length) :
    getB (bs.set j b) j = b := by
  simp [getB, List.getD_eq_getElem?_getD, h]

theorem getB_set_ne (bs : List Branch) (i j : Nat) (b : Branch) (h : i ≠ j) :
    getB (bs.set j b) i = getB bs i := by
  simp [getB, List.getD_eq_getElem?_getD, List.getElem?_set_ne (Ne.symm h)]

theorem edgeCost_nonneg (L : NumLib) (node child : Branch) (d2 : ℚ) :
    0 ≤ edgeCost L node child d2 := by
  unfold edgeCost
  exact div_nonneg (mul_self_nonneg _) (sq_nonneg _)

theorem slotCost_nonneg (L : NumLib) (K : Knn) (bs : List Branch) (u i : Nat) :
    0 ≤ slotCost L K bs u i := edgeCost_nonneg _ _ _ _

/-- Two branch lists with the same centres and directions have the same edge costs. -/
theorem slotCost_congr (L : NumLib) (K : Knn) (bs bs2 : List Branch) (u i : Nat)
    (h : ∀ x, (getB bs2 x).centre = (getB bs x).centre ∧ (getB bs2 x).dir = (getB bs x).dir) :
    slotCost L K bs2 u i = slotCost L K bs u i := by
  unfold slotCost edgeCost
  rw [(h u).1, (h u).2, (h (childAt K u i)).1, (h (childAt K u i)).2]

theorem slots_length_le (K : Knn) (u : Nat) : (slots K u).length ≤ search_size := by
  unfold slots
  have := (List.takeWhile_sublist (l := List.range search_size)
    (fun i => decide (K.indices i u > -1))).length_le
  simpa using this

theorem expandRel_nil (L : NumLib) (K : Knn) (node : QueueNode)
    (st : List Branch × List QueueNode) : ExpandRel L K node [] st st where
  len := rfl
  geo := fun _ => ⟨rfl, rfl, rfl⟩
  chg := fun _ => Or.inl ⟨rfl, rfl⟩
  que := fun _ h => Or.inl h
  sub := fun _ h => h
  opt := fun i hi => absurd hi (List.not_mem_nil i)
  qlen := by simp

/-- One slot of the loop: the state is unchanged, or the child is relaxed and pushed. -/
theorem expandRel_step (L : NumLib) (K : Knn) (node : QueueNode) (i : Nat)
    (st : List Branch × List QueueNode) (hc : childAt K node.id i < st.1.length) :
    ExpandRel L K node [i] st (relaxChild L K node st i) := by
  unfold relaxChild
  by_cases hlt : node.score + slotCost L K st.1 node.id i <
      (getB st.1 (childAt K node.id i)).tree_score
  · simp only [hlt, if_true]
    have hs := getB_set_eq st.1 (childAt K node.id i)
      { getB st.1 (childAt K node.id i) with
        tree_score := node.score + slotCost L K st.1 node.id i,
        distance_to_ground := node.distance_to_ground + L.sqrt (K.dists2 i node.id),
        parent := (node.id : Int) } hc
    refine ⟨by simp, ?_, ?_, ?_, ?_, ?_, by simp⟩
    · intro x
      by_cases hx : x = childAt K node.id i
      · subst hx
        simp only [hs]
        exact ⟨trivial, trivial, trivial⟩
      · simp only [getB_set_ne _ _ _ _ hx]
        exact ⟨trivial, trivial, trivial⟩
    · intro x
      by_cases hx : x = childAt K node.id i
      · subst hx
        right
        rw [hs]
        exact ⟨hlt, rfl, ⟨_, List.mem_append_right _ (List.mem_singleton_self _), rfl, rfl⟩,
          ⟨i, List.mem_singleton_self _, rfl, rfl⟩⟩
      · left
        simp only [getB_set_ne _ _ _ _ hx]
        exact ⟨trivial, trivial⟩
    · intro qn hq
      simp only [List.mem_append, List.mem_singleton] at hq
      rcases hq with hq | hq
      · exact Or.inl hq
      · right
        subst hq
        refine ⟨i, List.mem_singleton_self _, rfl, rfl, ?_⟩
        rw [hs]
    · intro qn hq
      exact List.mem_append_left _ hq
    · intro j hj
      rw [List.mem_singleton] at hj
      subst hj
      rw [hs]
  · simp only [hlt, if_false]
    refine ⟨rfl, fun _ => ⟨rfl, rfl, rfl⟩, fun _ => Or.inl ⟨rfl, rfl⟩, fun _ h => Or.inl h,
      fun _ h => h, ?_, by simp⟩
    intro j hj
    rw [List.mem_singleton] at hj
    subst hj
    exact not_lt.mp hlt

theorem expandRel_trans (L : NumLib) (K : Knn) (node : QueueNode) (sl1 sl2 : List Nat)
    (st mid fin : List Branch × List QueueNode)
    (h1 : ExpandRel L K node sl1 st mid) (h2 : ExpandRel L K node sl2 mid fin) :
    ExpandRel L K node (sl1 ++ sl2) st fin := by
  have hcost : ∀ i, slotCost L K mid.1 node.id i = slotCost L K st.1 node.id i := fun i =>
    slotCost_congr L K st.1 mid.1 node.id i (fun x => ⟨(h1.geo x).1, (h1.geo x).2.1⟩)
  refine ⟨h2.len.trans h1.len, ?_, ?_, ?_, fun qn hq => h2.sub qn (h1.sub qn hq), ?_, ?_⟩
  · intro x
    obtain ⟨a1, a2, a3⟩ := h1.geo x
    obtain ⟨b1, b2, b3⟩ := h2.geo x
    exact ⟨b1.trans a1, b2.trans a2, b3.trans a3⟩
  · intro x
    rcases h2.chg x with ⟨e1, e2⟩ | ⟨l2, p2, q2, ⟨i, hi, hi1, hi2⟩⟩
    · rcases h1.chg x with ⟨f1, f2⟩ | ⟨l1, p1, ⟨qn, hq, hq1, hq2⟩, ⟨i, hi, hi1, hi2⟩⟩
      · exact Or.inl ⟨e1.trans f1, e2.trans f2⟩
      · right
        refine ⟨by rw [e1]; exact l1, by rw [e2]; exact p1,
          ⟨qn, h2.sub qn hq, hq1, by rw [e1]; exact hq2⟩,
          ⟨i, List.mem_append_left _ hi, hi1, by rw [e1]; exact hi2⟩⟩
    · right
      have hle : (getB mid.1 x).tree_score ≤ (getB st.1 x).tree_score := by
        rcases h1.chg x with ⟨f1, _⟩ | ⟨l1, _⟩
        · exact le_of_eq f1
        · exact le_of_lt l1
      exact ⟨lt_of_lt_of_le l2 hle, p2, q2,
        ⟨i, List.mem_append_right _ hi, hi1, by rw [hi2, hcost]⟩⟩
  · intro qn hq
    rcases h2.que qn hq with hm | ⟨i, hi, hi1, hi2, hi3⟩
    · rcases h1.que qn hm with h0 | ⟨i, hi, hi1, hi2, hi3⟩
      · exact Or.inl h0
      · right
        refine ⟨i, List.mem_append_left _ hi, hi1, hi2, ?_⟩
        rcases h2.chg qn.id with ⟨_, e2⟩ | ⟨_, p2, _⟩
        · rw [e2]; exact hi3
        · exact p2
    · right
      exact ⟨i, List.mem_append_right _ hi, hi1, by rw [hi2, hcost], hi3⟩
  · intro i hi
    rcases List.mem_append.mp hi with hi | hi
    · have hle : (getB fin.1 (childAt K node.id i)).tree_score ≤
          (getB mid.1 (childAt K node.id i)).tree_score := by
        rcases h2.chg (childAt K node.id i) with ⟨f1, _⟩ | ⟨l1, _⟩
        · exact le_of_eq f1
        · exact le_of_lt l1
      exact le_trans hle (h1.opt i hi)
    · have := h2.opt i hi
      rw [hcost] at this
      exact this
  · have a := h1.qlen
    have b := h2.qlen
    simp only [List.length_append]
    omega

/-- The whole loop over the slots of a popped node. -/
theorem expandRel_foldl (L : NumLib) (K : Knn) (node : QueueNode) (sl : List Nat) :
    ∀ st : List Branch × List QueueNode, (∀ i ∈ sl, childAt K node.id i < st.1.length) →
    ExpandRel L K node sl st (sl.foldl (relaxChild L K node) st) := by
  induction sl with
  | nil => intro st _; exact expandRel_nil L K node st
  | cons i sl ih =>
    intro st hv
    have h1 := expandRel_step L K node i st (hv i (List.mem_cons_self _ _))
    have h2 := ih (relaxChild L K node st i) (fun j hj => by
      rw [h1.len]
      exact hv j (List.mem_cons_of_mem _ hj))
    have := expandRel_trans L K node [i] sl st _ _ h1 h2
    simpa using this

theorem expandRel_expand (L : NumLib) (K : Knn) (node : QueueNode)
    (st : List Branch × List QueueNode) (hv : KnnValid K st.1.length)
    (hn : node.id < st.1.length) :
    ExpandRel L K node (slots K node.id) st (expand L K node st) :=
  expandRel_foldl L K node (slots K node.id) st (fun i hi => hv node.id hn i hi)

/-! ### The queue -/

theorem exists_leastIn (q : List QueueNode) (hq : q ≠ []) : ∃ e ∈ q, leastIn q e = true := by
  induction q with
  | nil => exact absurd rfl hq
  | cons a q ih =>
    by_cases hq2 : q = []
    · subst hq2
      exact ⟨a, List.mem_singleton_self _, by simp [leastIn]⟩
    · obtain ⟨e, he, hl⟩ := ih hq2
      simp only [leastIn, List.all_eq_true, decide_eq_true_eq] at hl
      by_cases hae : a.score ≤ e.score
      · refine ⟨a, List.mem_cons_self _ _, ?_⟩
        simp only [leastIn, List.all_eq_true, decide_eq_true_eq, List.mem_cons]
        rintro x (rfl | hx)
        · exact le_refl _
        · exact le_trans hae (hl x hx)
      · refine ⟨e, List.mem_cons_of_mem _ he, ?_⟩
        simp only [leastIn, List.all_eq_true, decide_eq_true_eq, List.mem_cons]
        rintro x (rfl | hx)
        · exact le_of_lt (not_le.mp hae)
        · exact hl x hx

theorem getD_eq_getElem_q (q : List QueueNode) (t : Nat) (h : t < q.length) :
    q.getD t default = q[t] := by
  simp [List.getD_eq_getElem?_getD, h]

theorem topIndex_spec (pick : List QueueNode → Nat) (q : List QueueNode) (hq : q ≠ []) :
    topIndex pick q < q.length ∧ leastIn q (q.getD (topIndex pick q) default) = true := by
  unfold topIndex
  split
  · rename_i h
    exact h
  · have hex : ∃ x ∈ q, (fun e => leastIn q e) x = true := exists_leastIn q hq
    have hlt := List.findIdx_lt_length_of_exists hex
    refine ⟨hlt, ?_⟩
    rw [getD_eq_getElem_q q _ hlt]
    exact List.findIdx_getElem (w := hlt)

theorem leastIn_le (q : List QueueNode) (e : QueueNode) (h : leastIn q e = true) :
    ∀ qn ∈ q, e.score ≤ qn.score := by
  simpa [leastIn] using h

theorem getD_mem_q (q : List QueueNode) (t : Nat) (h : t < q.length) :
    q.getD t default ∈ q := by
  rw [getD_eq_getElem_q q t h]
  exact List.getElem_mem h

theorem mem_eraseIdx_of_ne (q : List QueueNode) (t : Nat) (a : QueueNode) (ha : a ∈ q)
    (hne : a ≠ q.getD t default) : a ∈ q.eraseIdx t := by
  rw [List.mem_eraseIdx_iff_getElem?]
  obtain ⟨i, hi, rfl⟩ := List.getElem_of_mem ha
  refine ⟨i, ?_, by simp [hi]⟩
  rintro rfl
  exact hne (getD_eq_getElem_q q i hi).symm

theorem inv_init (L : NumLib) (K : Knn) (t0 : ℚ) (seeds : List QueueNode) (bs0 : List Branch)
    (hf : Fresh t0 bs0) (hs : ∀ s ∈ seeds, s.id < bs0.length) :
    Inv L K t0 seeds bs0 (fun _ => 0) (bs0, seeds) := by
  have hfr : ∀ u, u < bs0.length → (getB bs0 u).parent = -1 ∧ (getB bs0 u).visited = false ∧
      (getB bs0 u).tree_score = t0 := fun u hu => hf _ (getB_mem bs0 u hu)
  refine ⟨rfl, fun _ => ⟨rfl, rfl⟩, hs, ?_, ?_, ?_, ?_, ?_, ?_, ?_, ?_, ?_, ?_, ?_, ?_, ?_, ?_⟩
  · intro u hu hv
    rw [(hfr u hu).2.1] at hv
    exact absurd hv (by simp)
  · intro u hu _
    exact (hfr u hu).2.2
  · intro u hu hp
    exact absurd (hfr u hu).1 hp
  · intro u hu hp
    exact absurd (hfr u hu).1 hp
  · intro u hu hp
    exact absurd (hfr u hu).1 hp
  · intro u hu hv
    rw [(hfr u hu).2.1] at hv
    exact absurd hv (by simp)
  · intro qn hq
    exact Or.inl ⟨qn, hq, rfl⟩
  · intro u hu hv
    rw [(hfr u hu).2.1] at hv
    exact absurd hv (by simp)
  · intro s hs
    exact Or.inr hs
  · intro s hs hv
    rw [(hfr s.id (‹∀ s ∈ seeds, s.id < bs0.length› s hs)).2.1] at hv
    exact absurd hv (by simp)
  · intro u hu hp
    exact absurd (hfr u hu).1 hp
  · intro qn hq
    exact Reach.seed qn hq
  · intro u hu hv
    rw [(hfr u hu).2.1] at hv
    exact absurd hv (by simp)
  · intro u hu
    exact Or.inl (hfr u hu).1

/-- A pop of an entry whose branch is already visited keeps the invariant. -/
theorem inv_discard (L : NumLib) (K : Knn) (t0 : ℚ) (seeds : List QueueNode)
    (bs0 : List Branch) (e : Nat → ℚ) (st : List Branch × List QueueNode)
    (hI : Inv L K t0 seeds bs0 e st) (t : Nat)
    (hvis : (getB st.1 (st.2.getD t default).id).visited = true) :
    Inv L K t0 seeds bs0 e (st.1, st.2.eraseIdx t) := by
  have hsub : ∀ qn ∈ st.2.eraseIdx t, qn ∈ st.2 := fun qn h => List.mem_of_mem_eraseIdx h
  refine ⟨hI.len, hI.geo, fun qn h => hI.qid qn (hsub qn h),
    fun u hu hv qn h => hI.qlow u hu hv qn (hsub qn h), hI.ts_none, hI.ts_some, ?_, hI.low,
    hI.opt, fun qn h => hI.qsrc qn (hsub qn h), hI.vroot, ?_, hI.seedlow, hI.reach,
    fun qn h => hI.qreach qn (hsub qn h), hI.vreach, hI.par⟩
  · intro u hu hp hv
    obtain ⟨qn, hq, hid, hsc⟩ := hI.inq u hu hp hv
    refine ⟨qn, mem_eraseIdx_of_ne _ _ _ hq ?_, hid, hsc⟩
    intro heq
    rw [← heq, hid, hv] at hvis
    exact absurd hvis (by simp)
  · intro s hs
    rcases hI.seedq s hs with h | h
    · exact Or.inl h
    · by_cases heq : s = st.2.getD t default
      · left
        rw [heq]
        exact hvis
      · exact Or.inr (mem_eraseIdx_of_ne _ _ _ h heq)

/-- The first pop of a branch, the loop over its slots and the mark `visited` keep the
invariant; the branch is recorded with the score of the popped entry. -/
theorem inv_expand (L : NumLib) (K : Knn) (t0 : ℚ) (seeds : List QueueNode)
    (bs0 : List Branch) (e : Nat → ℚ) (st : List Branch × List QueueNode)
    (hK : KnnValid K bs0.length) (hI : Inv L K t0 seeds bs0 e st) (t : Nat)
    (ht : t < st.2.length) (node : QueueNode) (hnode : node = st.2.getD t default)
    (hleast : ∀ qn ∈ st.2, node.score ≤ qn.score)
    (hvis : (getB st.1 node.id).visited = false)
    (st1 : List Branch × List QueueNode)
    (hst1 : st1 = expand L K node (st.1, st.2.eraseIdx t)) :
    Inv L K t0 seeds bs0 (Function.update e node.id node.score)
      (st1.1.set node.id { getB st1.1 node.id with visited := true }, st1.2) := by
  have hmem : node ∈ st.2 := by rw [hnode]; exact getD_mem_q st.2 t ht
  have hu : node.id < bs0.length := hI.qid node hmem
  have R : ExpandRel L K node (slots K node.id) (st.1, st.2.eraseIdx t) st1 := by
    rw [hst1]
    exact expandRel_expand L K node (st.1, st.2.eraseIdx t) (by rw [hI.len]; exact hK)
      (by rw [hI.len]; exact hu)
  have hlen1 : st1.1.length = bs0.length := R.len.trans hI.len
  have hu1 : node.id < st1.1.length := by rw [hlen1]; exact hu
  have g_eq := getB_set_eq st1.1 node.id { getB st1.1 node.id with visited := true } hu1
  have g_ne : ∀ x, x ≠ node.id →
      getB (st1.1.set node.id { getB st1.1 node.id with visited := true }) x = getB st1.1 x :=
    fun x hx => getB_set_ne _ _ _ _ hx
  have hlen2 : (st1.1.set node.id { getB st1.1 node.id with visited := true }).length =
      bs0.length := by rw [List.length_set]; exact hlen1
  generalize st1.1.set node.id { getB st1.1 node.id with visited := true } = bs2
    at g_eq g_ne hlen2 ⊢
  have hge : ∀ x, (getB bs2 x).centre = (getB st1.1 x).centre ∧
      (getB bs2 x).dir = (getB st1.1 x).dir := by
    intro x
    by_cases hx : x = node.id
    · rw [hx, g_eq]; exact ⟨rfl, rfl⟩
    · rw [g_ne x hx]; exact ⟨rfl, rfl⟩
  have hts : ∀ x, (getB bs2 x).tree_score = (getB st1.1 x).tree_score := by
    intro x
    by_cases hx : x = node.id
    · rw [hx, g_eq]
    · rw [g_ne x hx]
  have hpa : ∀ x, (getB bs2 x).parent = (getB st1.1 x).parent := by
    intro x
    by_cases hx : x = node.id
    · rw [hx, g_eq]
    · rw [g_ne x hx]
  have hvu : (getB bs2 node.id).visited = true := by rw [g_eq]
  have hvx : ∀ x, x ≠ node.id → (getB bs2 x).visited = (getB st.1 x).visited := by
    intro x hx
    rw [g_ne x hx]
    exact (R.geo x).2.2
  have hmono : ∀ x, (getB st1.1 x).tree_score ≤ (getB st.1 x).tree_score := by
    intro x
    rcases R.chg x with ⟨f1, _⟩ | ⟨l1, _⟩
    · exact le_of_eq f1
    · exact le_of_lt l1
  have hcost : ∀ i, slotCost L K st.1 node.id i = slotCost L K bs0 node.id i := fun i =>
    slotCost_congr L K bs0 st.1 node.id i hI.geo
  have hsub0 : ∀ qn ∈ st.2.eraseIdx t, qn ∈ st.2 := fun qn h => List.mem_of_mem_eraseIdx h
  have hele : ∀ v, v < bs0.length → (getB st.1 v).visited = true → e v ≤ node.score :=
    fun v hv hvv => hI.qlow v hv hvv node hmem
  have hupd : ∀ v, v ≠ node.id → Function.update e node.id node.score v = e v :=
    fun v hv => Function.update_noteq hv _ _
  have hupd0 : Function.update e node.id node.score node.id = node.score :=
    Function.update_same _ _ _
  have hnn : (node.id : Int) ≠ -1 := by omega
  have hbound : ∀ u, u < bs0.length → (getB st.1 u).tree_score ≤ t0 := by
    intro u hu
    by_cases hp : (getB st.1 u).parent = -1
    · exact le_of_eq (hI.ts_none u hu hp)
    · exact le_of_lt (hI.ts_some u hu hp)
  have hque : ∀ qn ∈ st1.2, (qn ∈ st.2 ∧ qn ∈ st.2.eraseIdx t) ∨
      (∃ i ∈ slots K node.id, qn.id = childAt K node.id i ∧
        qn.score = node.score + slotCost L K bs0 node.id i ∧
        (getB st1.1 qn.id).parent = (node.id : Int)) := by
    intro qn hq
    rcases R.que qn hq with h | ⟨i, hi, h1, h2, h3⟩
    · exact Or.inl ⟨hsub0 qn h, h⟩
    · exact Or.inr ⟨i, hi, h1, by rw [h2]; exact congrArg _ (hcost i), h3⟩
  have hqs : ∀ qn ∈ st1.2, node.score ≤ qn.score := by
    intro qn hq
    rcases hque qn hq with ⟨h, _⟩ | ⟨i, _, _, h2, _⟩
    · exact hleast qn h
    · rw [h2]
      linarith [slotCost_nonneg L K bs0 node.id i]
  refine ⟨hlen2, ?_, ?_, ?_, ?_, ?_, ?_, ?_, ?_, ?_, ?_, ?_, ?_, ?_, ?_, ?_, ?_⟩
  · -- geo
    intro x
    exact ⟨(hge x).1.trans ((R.geo x).1.trans (hI.geo x).1),
      (hge x).2.trans ((R.geo x).2.1.trans (hI.geo x).2)⟩
  · -- qid
    intro qn hq
    rcases hque qn hq with ⟨h, _⟩ | ⟨i, hi, h1, _, _⟩
    · exact hI.qid qn h
    · rw [h1]; exact hK node.id hu i hi
  · -- qlow
    intro v hv hvv qn hq
    by_cases hvn : v = node.id
    · rw [hvn, hupd0]
      exact hqs qn hq
    · rw [hupd v hvn]
      rw [hvx v hvn] at hvv
      exact le_trans (hele v hv hvv) (hqs qn hq)
  · -- ts_none
    intro x hx hp
    rw [hpa] at hp
    rw [hts]
    rcases R.chg x with ⟨f1, f2⟩ | ⟨_, p1, _⟩
    · rw [f1]
      exact hI.ts_none x hx (by rw [← f2]; exact hp)
    · rw [p1] at hp
      exact absurd hp hnn
  · -- ts_some
    intro x hx hp
    rw [hpa] at hp
    rw [hts]
    rcases R.chg x with ⟨f1, f2⟩ | ⟨l1, _, _⟩
    · rw [f1]
      exact hI.ts_some x hx (by rw [← f2]; exact hp)
    · exact lt_of_lt_of_le l1 (hbound x hx)
  · -- inq
    intro x hx hp hv
    have hxn : x ≠ node.id := by
      intro h
      rw [h, hvu] at hv
      exact absurd hv (by simp)
    rw [hpa] at hp
    rw [hvx x hxn] at hv
    rw [hts]
    rcases R.chg x with ⟨f1, f2⟩ | ⟨_, _, q1, _⟩
    · obtain ⟨qn, hq, hid, hsc⟩ := hI.inq x hx (by rw [← f2]; exact hp) hv
      refine ⟨qn, R.sub qn (mem_eraseIdx_of_ne _ _ _ hq ?_), hid, by rw [f1]; exact hsc⟩
      intro heq
      rw [← hnode] at heq
      exact hxn (by rw [← hid, heq])
    · exact q1
  · -- low
    intro x hx hp hv
    rw [hpa] at hp
    rw [hts]
    by_cases hxn : x = node.id
    · rw [hxn, hupd0]
      rw [hxn] at hp
      rcases R.chg node.id with ⟨f1, f2⟩ | ⟨_, _, _, ⟨i, _, _, h2⟩⟩
      · obtain ⟨qn, hq, _, hsc⟩ := hI.inq node.id hu (by rw [← f2]; exact hp) hvis
        rw [f1, ← hsc]
        exact hleast qn hq
      · rw [h2]
        linarith [slotCost_nonneg L K st.1 node.id i]
    · rw [hupd x hxn]
      rw [hvx x hxn] at hv
      rcases R.chg x with ⟨f1, f2⟩ | ⟨_, _, _, ⟨i, _, _, h2⟩⟩
      · rw [f1]
        exact hI.low x hx (by rw [← f2]; exact hp) hv
      · rw [h2]
        linarith [slotCost_nonneg L K st.1 node.id i, hele x hx hv]
  · -- opt
    intro v hv hvv i hi
    rw [hts]
    by_cases hvn : v = node.id
    · rw [hvn, hupd0]
      rw [hvn] at hi
      have := R.opt i hi
      rw [hcost i] at this
      exact this
    · rw [hupd v hvn]
      rw [hvx v hvn] at hvv
      exact le_trans (hmono _) (hI.opt v hv hvv i hi)
  · -- qsrc
    intro qn hq
    rw [hpa]
    rcases hque qn hq with ⟨h, _⟩ | ⟨_, _, _, _, h3⟩
    · rcases hI.qsrc qn h with hs | hp
      · exact Or.inl hs
      · right
        rcases R.chg qn.id with ⟨_, f2⟩ | ⟨_, p1, _⟩
        · rw [f2]; exact hp
        · rw [p1]; exact hnn
    · right
      rw [h3]; exact hnn
  · -- vroot
    intro x hx hv hp
    rw [hpa] at hp
    have hp0 : (getB st.1 x).parent = -1 := by
      rcases R.chg x with ⟨_, f2⟩ | ⟨_, p1, _⟩
      · rw [← f2]; exact hp
      · rw [p1] at hp; exact absurd hp hnn
    by_cases hxn : x = node.id
    · rw [hxn]
      rcases hI.qsrc node hmem with hs | hpn
      · exact hs
      · rw [hxn] at hp0
        exact absurd hp0 hpn
    · rw [hvx x hxn] at hv
      exact hI.vroot x hx hv hp0
  · -- seedq
    intro s hs
    by_cases hsn : s.id = node.id
    · left
      rw [hsn]; exact hvu
    · rw [hvx s.id hsn]
      rcases hI.seedq s hs with h | h
      · exact Or.inl h
      · right
        refine R.sub s (mem_eraseIdx_of_ne _ _ _ h ?_)
        intro heq
        rw [← hnode] at heq
        exact hsn (by rw [heq])
  · -- seedlow
    intro s hs hv
    by_cases hsn : s.id = node.id
    · rw [hsn, hupd0]
      rcases hI.seedq s hs with h | h
      · rw [hsn, hvis] at h
        exact absurd h (by simp)
      · exact hleast s h
    · rw [hupd s.id hsn]
      rw [hvx s.id hsn] at hv
      exact hI.seedlow s hs hv
  · -- reach
    intro x hx hp
    rw [hpa] at hp
    rcases R.chg x with ⟨_, f2⟩ | ⟨_, _, _, ⟨i, hi, h1, _⟩⟩
    · exact hI.reach x hx (by rw [← f2]; exact hp)
    · rw [← h1]
      exact Reach.edge node.id i (hI.qreach node hmem) hi
  · -- qreach
    intro qn hq
    rcases hque qn hq with ⟨h, _⟩ | ⟨i, hi, h1, _, _⟩
    · exact hI.qreach qn h
    · rw [h1]
      exact Reach.edge node.id i (hI.qreach node hmem) hi
  · -- vreach
    intro x hx hv
    by_cases hxn : x = node.id
    · rw [hxn]
      exact hI.qreach node hmem
    · rw [hvx x hxn] at hv
      exact hI.vreach x hx hv
  · -- par
    intro x hx
    rw [hpa]
    rcases R.chg x with ⟨_, f2⟩ | ⟨_, p1, _⟩
    · rw [f2]; exact hI.par x hx
    · right
      rw [p1]
      exact ⟨by omega, by exact_mod_cast hu⟩

theorem unvisited_congr (bs bs1 : List Branch) (hl : bs1.length = bs.length)
    (hv : ∀ x, (getB bs1 x).visited = (getB bs x).visited) : unvisited bs1 = unvisited bs := by
  have hm : bs1.map (fun b => b.visited) = bs.map (fun b => b.visited) := by
    apply List.ext_getElem
    · simp [hl]
    · intro n h1 h2
      simp only [List.length_map] at h1 h2
      have := hv n
      rw [getB_eq_getElem bs1 n h1, getB_eq_getElem bs n h2] at this
      simpa using this
  have e1 : ∀ l : List Branch, unvisited l = (l.map (fun b => b.visited)).countP (fun v => !v) := by
    intro l
    unfold unvisited
    rw [List.countP_map]
    rfl
  rw [e1, e1, hm]

theorem unvisited_set (bs : List Branch) (u : Nat) (hu : u < bs.length)
    (hv : (getB bs u).visited = false) :
    unvisited (bs.set u { getB bs u with visited := true }) + 1 = unvisited bs := by
  unfold unvisited
  rw [List.countP_set _ _ _ _ hu]
  have h1 : (!(bs[u]).visited) = true := by
    rw [← getB_eq_getElem bs u hu, hv]; rfl
  have hpos : 0 < List.countP (fun b => !b.visited) bs :=
    List.countP_pos_iff.mpr ⟨bs[u], List.getElem_mem hu, h1⟩
  simp only [h1, if_true, Bool.not_true, Bool.false_eq_true, if_false]
  omega

/-- The loop keeps the invariant, and with `fuel` at least the length of the queue plus
`search_size + 1` for every branch not yet visited it ends with an empty queue. -/
theorem climb_inv (L : NumLib) (K : Knn) (pick : List QueueNode → Nat) (t0 : ℚ)
    (seeds : List QueueNode) (bs0 : List Branch) (hK : KnnValid K bs0.length) (fuel : Nat) :
    ∀ (st : List Branch × List QueueNode) (e : Nat → ℚ), Inv L K t0 seeds bs0 e st →
    ∃ e2, Inv L K t0 seeds bs0 e2 (climb L K pick fuel st) ∧
      (st.2.length + (search_size + 1) * unvisited st.1 ≤ fuel →
        (climb L K pick fuel st).2 = []) := by
  induction fuel with
  | zero =>
    intro st e hI
    refine ⟨e, hI, ?_⟩
    intro h
    simp only [climb]
    exact List.length_eq_zero.mp (by omega)
  | succ fuel ih =>
    intro st e hI
    unfold climb
    by_cases hemp : st.2.isEmpty = true
    · rw [if_pos hemp]
      exact ⟨e, hI, fun _ => List.isEmpty_iff.mp hemp⟩
    · rw [if_neg hemp]
      have hne : st.2 ≠ [] := fun h => hemp (List.isEmpty_iff.mpr h)
      obtain ⟨ht, hl⟩ := topIndex_spec pick st.2 hne
      have hleast := leastIn_le _ _ hl
      have hqlen := List.length_eraseIdx_of_lt ht
      simp only []
      by_cases hvis : (getB st.1 (st.2.getD (topIndex pick st.2) default).id).visited = true
      · simp only [hvis, Bool.not_true, Bool.false_eq_true, if_false]
        have hI2 := inv_discard L K t0 seeds bs0 e st hI (topIndex pick st.2) hvis
        obtain ⟨e2, hI3, hterm⟩ := ih _ e hI2
        refine ⟨e2, hI3, fun h => hterm ?_⟩
        simp only [hqlen]
        omega
      · have hvis2 : (getB st.1 (st.2.getD (topIndex pick st.2) default).id).visited = false := by
          simpa using hvis
        simp only [hvis2, Bool.not_false, if_true]
        have hmem := getD_mem_q st.2 _ ht
        have hu := hI.qid _ hmem
        have hI2 := inv_expand L K t0 seeds bs0 e st hK hI (topIndex pick st.2) ht _ rfl hleast
          hvis2 _ rfl
        obtain ⟨e2, hI3, hterm⟩ := ih _ _ hI2
        refine ⟨e2, hI3, fun h => hterm ?_⟩
        have R := expandRel_expand L K (st.2.getD (topIndex pick st.2) default)
          (st.1, st.2.eraseIdx (topIndex pick st.2)) (by rw [hI.len]; exact hK)
          (by rw [hI.len]; exact hu)
        have hc := unvisited_congr _ _ R.len (fun x => (R.geo x).2.2)
        have hv1 : (getB (expand L K (st.2.getD (topIndex pick st.2) default)
            (st.1, st.2.eraseIdx (topIndex pick st.2))).1
            (st.2.getD (topIndex pick st.2) default).id).visited = false := by
          rw [(R.geo _).2.2]; exact hvis2
        have hs := unvisited_set _ _ (by rw [R.len, hI.len]; exact hu) hv1
        have hq := R.qlen
        have hsl := slots_length_le K (st.2.getD (topIndex pick st.2) default).id
        simp only [hqlen] at hq
        simp only [] at hc hs hq ⊢
        have hpos : 0 < st.2.length := by omega
        generalize unvisited (List.set _ _ _) = a at hs ⊢
        generalize (expand L K (st.2.getD (topIndex pick st.2) default)
          (st.1, st.2.eraseIdx (topIndex pick st.2))).2.length = b at hq ⊢
        rw [hc] at hs
        generalize unvisited st.1 = c at hs h
        generalize (slots K (st.2.getD (topIndex pick st.2) default).id).length = d at hq hsl
        generalize st.2.length = m at hq h hpos
        rw [← hs] at h
        simp only [search_size] at hsl h ⊢
        omega

theorem rootSelect_id_lt (m : ℚ) (bs : List Branch) :
    ∀ s ∈ rootSelect m bs, s.id < bs.length := by
  intro s hs
  exact ((seeded_iff m bs s.id).mp ⟨s, hs, rfl⟩).1

/-- The skeleton stage ends with an empty queue in a state that satisfies the invariant. -/
theorem skeleton_inv (L : NumLib) (K : Knn) (pick : List QueueNode → Nat) (m t0 : ℚ)
    (bs : List Branch) (hf : Fresh t0 bs) (hK : KnnValid K bs.length) :
    ∃ e, Inv L K t0 (rootSelect m bs) bs e (skeleton L K pick m bs) ∧
      (skeleton L K pick m bs).2 = [] := by
  have h0 := inv_init L K t0 (rootSelect m bs) bs hf (rootSelect_id_lt m bs)
  obtain ⟨e, hI, hterm⟩ := climb_inv L K pick t0 (rootSelect m bs) bs hK
    (climbFuel bs.length (rootSelect m bs).length) _ _ h0
  refine ⟨e, hI, hterm ?_⟩
  have : unvisited bs ≤ bs.length := List.countP_le_length _
  simp only [climbFuel]
  exact Nat.add_le_add_left (Nat.mul_le_mul_left _ this) _

/-- C7: the relaxation loop ends with an empty queue, and then for every visited branch `u`
and every neighbour `c` of `u` (slot `i` of its neighbour list) that has a parent, the tree
score of `c` is at most the tree score of `u` plus the cost of the edge from `u` to `c`. -/
theorem relax_local_optimal (L : NumLib) (K : Knn) (pick : List QueueNode → Nat) (m t0 : ℚ)
    (bs : List Branch) (hf : Fresh t0 bs) (hK : KnnValid K bs.length)
    (u : Nat) (hu : u < bs.length)
    (hv : (getB (skeleton L K pick m bs).1 u).visited = true)
    (i : Nat) (hi : i ∈ slots K u)
    (hp : (getB (skeleton L K pick m bs).1 (childAt K u i)).parent ≠ -1) :
    (skeleton L K pick m bs).2 = [] ∧
      (getB (skeleton L K pick m bs).1 (childAt K u i)).tree_score ≤
        (getB (skeleton L K pick m bs).1 u).tree_score + slotCost L K bs u i := by
  obtain ⟨e, hI, hq⟩ := skeleton_inv L K pick m t0 bs hf hK
  refine ⟨hq, ?_⟩
  have hopt := hI.opt u hu hv i hi
  by_cases hpu : (getB (skeleton L K pick m bs).1 u).parent = -1
  · rw [hI.ts_none u hu hpu]
    have := hI.ts_some _ (hK u hu i hi) hp
    linarith [slotCost_nonneg L K bs u i]
  · have := hI.low u hu hpu hv
    linarith

/-- C6 (amended): the relaxation loop ends with an empty queue, and then every visited
branch with parent -1 was seeded by the root selection, that is, it passed the root test of
the code. -/
theorem visited_orphan_is_root (L : NumLib) (K : Knn) (pick : List QueueNode → Nat)
    (m t0 : ℚ) (bs : List Branch) (hf : Fresh t0 bs) (hK : KnnValid K bs.length)
    (u : Nat) (hu : u < bs.length)
    (hv : (getB (skeleton L K pick m bs).1 u).visited = true)
    (hp : (getB (skeleton L K pick m bs).1 u).parent = -1) :
    (skeleton L K pick m bs).2 = [] ∧ isRoot m bs u = true := by
  obtain ⟨e, hI, hq⟩ := skeleton_inv L K pick m t0 bs hf hK
  exact ⟨hq, ((seeded_iff m bs u).mp (hI.vroot u hu hv hp)).2⟩

theorem pathScore_visited (L : NumLib) (K : Knn) (t0 : ℚ) (seeds : List QueueNode)
    (bs : List Branch) (e : Nat → ℚ) (st : List Branch × List QueueNode)
    (hK : KnnValid K bs.length) (hI : Inv L K t0 seeds bs e st) (hq : st.2 = [])
    (hs : ∀ s ∈ seeds, s.id < bs.length) (v : Nat) (c : ℚ)
    (hpath : PathScore L K bs seeds v c) :
    c < t0 → v < bs.length ∧ (getB st.1 v).visited = true ∧ e v ≤ c := by
  induction hpath with
  | seed s hs2 =>
    intro _
    have hvis : (getB st.1 s.id).visited = true := by
      rcases hI.seedq s hs2 with h | h
      · exact h
      · rw [hq] at h
        exact absurd h (List.not_mem_nil _)
    exact ⟨hs s hs2, hvis, hI.seedlow s hs2 hvis⟩
  | edge u i c _ hi ih =>
    intro hc
    have hcost := slotCost_nonneg L K bs u i
    obtain ⟨hu, hvu, heu⟩ := ih (by linarith)
    have hch := hK u hu i hi
    have hopt := hI.opt u hu hvu i hi
    have hpar : (getB st.1 (childAt K u i)).parent ≠ -1 := by
      intro hp
      have := hI.ts_none _ hch hp
      linarith
    have hvis : (getB st.1 (childAt K u i)).visited = true := by
      by_contra hnv
      have hnv2 : (getB st.1 (childAt K u i)).visited = false := by simpa using hnv
      obtain ⟨qn, hqn, _⟩ := hI.inq _ hch hpar hnv2
      rw [hq] at hqn
      exact absurd hqn (List.not_mem_nil _)
    have := hI.low _ hch hpar hvis
    exact ⟨hch, hvis, by linarith⟩

/-- C8 (amended): when the queue has emptied, every branch reachable from a seeded root by
a path of neighbour edges whose score (the score of the seed plus the costs of the edges)
is below the initial tree score has been visited, and every branch that is not reachable
from a seeded root has parent -1 and is not visited. -/
theorem relax_reaches (L : NumLib) (K : Knn) (pick : List QueueNode → Nat) (m t0 : ℚ)
    (bs : List Branch) (hf : Fresh t0 bs) (hK : KnnValid K bs.length) :
    (skeleton L K pick m bs).2 = [] ∧
      (∀ v c, PathScore L K bs (rootSelect m bs) v c → c < t0 →
        (getB (skeleton L K pick m bs).1 v).visited = true) ∧
      (∀ v, v < bs.length → ¬ Reach K (rootSelect m bs) v →
        (getB (skeleton L K pick m bs).1 v).parent = -1 ∧
          (getB (skeleton L K pick m bs).1 v).visited = false) := by
  obtain ⟨e, hI, hq⟩ := skeleton_inv L K pick m t0 bs hf hK
  refine ⟨hq, ?_, ?_⟩
  · intro v c hpath hc
    exact (pathScore_visited L K t0 _ bs e _ hK hI hq (rootSelect_id_lt m bs) v c hpath hc).2.1
  · intro v hv hnr
    constructor
    · by_contra hp
      exact hnr (hI.reach v hv hp)
    · by_contra hvis
      have : (getB (skeleton L K pick m bs).1 v).visited = true := by simpa using hvis
      exact hnr (hI.vreach v hv this)

theorem fresh_pair (a b : Branch) (ha : a.parent = -1 ∧ a.visited = false ∧ a.tree_score = inf)
    (hb : b.parent = -1 ∧ b.visited = false ∧ b.tree_score = inf) : Fresh inf [a, b] := by
  intro x hx
  simp only [List.mem_cons, List.mem_singleton, List.not_mem_nil, or_false] at hx
  rcases hx with rfl | rfl
  · exact ha
  · exact hb

theorem knnPair_valid (d2 : ℚ) : KnnValid (knnPair d2) 2 := by
  intro u hu i hi
  have hi0 : i = 0 := by
    have := List.mem_takeWhile_imp hi
    simp only [knnPair, decide_eq_true_eq] at this
    by_contra h
    simp [h] at this
  subst hi0
  simp only [childAt, knnPair, if_true]
  by_cases h0 : u = 0
  · simp [h0]
  · simp [h0]

theorem relax_local_optimal_witness :
    (skeleton libQ (knnPair 1) pickFirst (-1) [lowBranch, highBranch]).2 = [] ∧
      (getB (skeleton libQ (knnPair 1) pickFirst (-1) [lowBranch, highBranch]).1
          (childAt (knnPair 1) 0 0)).tree_score ≤
        (getB (skeleton libQ (knnPair 1) pickFirst (-1) [lowBranch, highBranch]).1 0).tree_score +
          slotCost libQ (knnPair 1) [lowBranch, highBranch] 0 0 :=
  relax_local_optimal libQ (knnPair 1) pickFirst (-1) inf [lowBranch, highBranch]
    (fresh_pair _ _ ⟨rfl, rfl, rfl⟩ ⟨rfl, rfl, rfl⟩) (knnPair_valid 1) 0 (by decide)
    (by decide!) 0 (by decide) (by decide!)

theorem visited_orphan_is_root_witness :
    (skeleton libQ (knnPair (10 ^ 6)) pickFirst (-1) [flatLow, flatHigh]).2 = [] ∧
      isRoot (-1) [flatLow, flatHigh] 0 = true :=
  visited_orphan_is_root libQ (knnPair (10 ^ 6)) pickFirst (-1) inf [flatLow, flatHigh]
    (fresh_pair _ _ ⟨rfl, rfl, rfl⟩ ⟨rfl, rfl, rfl⟩) (knnPair_valid _) 0 (by decide)
    (by decide!) (by decide!)

theorem relax_reaches_witness :
    (getB (skeleton libQ (knnPair 1) pickFirst (-1) [lowBranch, highBranch]).1 1).visited
      = true :=
  (relax_reaches libQ (knnPair 1) pickFirst (-1) inf [lowBranch, highBranch]
    (fresh_pair _ _ ⟨rfl, rfl, rfl⟩ ⟨rfl, rfl, rfl⟩) (knnPair_valid 1)).2.1 1
    (0 + slotCost libQ (knnPair 1) [lowBranch, highBranch] 0 0)
    (PathScore.edge 0 0 0 (PathScore.seed ⟨0, 0, 0⟩ (by decide!)) (by decide))
    (by decide!)

/-! ### Loading a well-formed file -/

theorem parseLine_ok (stod : List Char → Option ℚ) (line : List Char)
    (h3 : numCommas line = 3) (ht : ∀ t ∈ tokens line, (stod t).isSome = true) :
    ∃ r, parseLine stod line = some r ∧ recordOf stod line r := by
  have hl := tokens_length line
  rw [h3] at hl
  match hm : tokens line, hl with
  | [t0, t1, t2, t3], _ =>
    rw [hm] at ht
    obtain ⟨x, hx⟩ := Option.isSome_iff_exists.mp (ht t0 (by simp))
    obtain ⟨y, hy⟩ := Option.isSome_iff_exists.mp (ht t1 (by simp))
    obtain ⟨z, hz⟩ := Option.isSome_iff_exists.mp (ht t2 (by simp))
    obtain ⟨r, hr⟩ := Option.isSome_iff_exists.mp (ht t3 (by simp))
    refine ⟨(⟨x, y, z⟩, r), ?_, t0, t1, t2, t3, hm, hx, hy, hz, hr⟩
    simp [parseLine, hm, hx, hy, hz, hr]

/-- C16: after the skeleton stage, with a neighbour search that returns only indices in
`[-1, n)`, the list still has its `n` branches and the parent of every branch is -1 or an
index into that list, so `branches[parent]` is in bounds. -/
theorem parent_in_bounds (L : NumLib) (K : Knn) (pick : List QueueNode → Nat) (m t0 : ℚ)
    (bs : List Branch) (hf : Fresh t0 bs) (hK : KnnValid K bs.length)
    (u : Nat) (hu : u < bs.length) :
    (skeleton L K pick m bs).1.length = bs.length ∧
      ((getB (skeleton L K pick m bs).1 u).parent = -1 ∨
        (0 ≤ (getB (skeleton L K pick m bs).1 u).parent ∧
          (getB (skeleton L K pick m bs).1 u).parent.toNat <
            (skeleton L K pick m bs).1.length)) := by
  obtain ⟨e, hI, _⟩ := skeleton_inv L K pick m t0 bs hf hK
  refine ⟨hI.len, ?_⟩
  rcases hI.par u hu with h | ⟨h0, h1⟩
  · exact Or.inl h
  · right
    refine ⟨h0, ?_⟩
    rw [hI.len]
    omega

theorem parent_in_bounds_witness :
    (skeleton libQ (knnPair 1) pickFirst (-1) [lowBranch, highBranch]).1.length = 2 ∧
      ((getB (skeleton libQ (knnPair 1) pickFirst (-1) [lowBranch, highBranch]).1 1).parent
          = -1 ∨
        (0 ≤ (getB (skeleton libQ (knnPair 1) pickFirst (-1)
            [lowBranch, highBranch]).1 1).parent ∧
          (getB (skeleton libQ (knnPair 1) pickFirst (-1)
            [lowBranch, highBranch]).1 1).parent.toNat <
            (skeleton libQ (knnPair 1) pickFirst (-1) [lowBranch, highBranch]).1.length)) :=
  parent_in_bounds libQ (knnPair 1) pickFirst (-1) inf [lowBranch, highBranch]
    (fresh_pair _ _ ⟨rfl, rfl, rfl⟩ ⟨rfl, rfl, rfl⟩) (knnPair_valid 1) 1 (by decide)

/-- C18 (amended): every branch that passes the root test is pushed, and every pushed entry
has `distance_to_ground` equal to the z coordinate of the centre of its branch and score
equal to the square of that coordinate. -/
theorem rootSelect_entries (m : ℚ) (bs : List Branch) (i : Nat) (hi : i < bs.length)
    (hr : isRoot m bs i = true) :
    (⟨(getB bs i).centre.z, sqr (getB bs i).centre.z, i⟩ : QueueNode) ∈ rootSelect m bs ∧
      ∀ qn ∈ rootSelect m bs, qn.distance_to_ground = (getB bs qn.id).centre.z ∧
        qn.score = (getB bs qn.id).centre.z * (getB bs qn.id).centre.z := by
  constructor
  · unfold rootSelect
    rw [List.mem_map]
    exact ⟨i, by rw [List.mem_filter, List.mem_range]; exact ⟨hi, hr⟩, rfl⟩
  · intro qn hq
    unfold rootSelect at hq
    rw [List.mem_map] at hq
    obtain ⟨k, _, rfl⟩ := hq
    exact ⟨rfl, rfl⟩

theorem rootSelect_entries_witness :
    (⟨(getB [lowBranch, highBranch] 0).centre.z, sqr (getB [lowBranch, highBranch] 0).centre.z,
        0⟩ : QueueNode) ∈ rootSelect (-1) [lowBranch, highBranch] ∧
      ∀ qn ∈ rootSelect (-1) [lowBranch, highBranch],
        qn.distance_to_ground = (getB [lowBranch, highBranch] qn.id).centre.z ∧
        qn.score = (getB [lowBranch, highBranch] qn.id).centre.z *
          (getB [lowBranch, highBranch] qn.id).centre.z :=
  rootSelect_entries (-1) [lowBranch, highBranch] 0 (by decide) (by decide!)

/-- C18 (counterexample): with the lowest point of the cloud at z = -1, `lowBranch` passes
the root test and is one unit above `min_bound`, yet it is pushed with
`distance_to_ground` 0 and score 0. -/
theorem rootSelect_raw_height :
    isRoot (-1) [lowBranch, highBranch] 0 = true ∧
      (getB [lowBranch, highBranch] 0).centre.z - (-1) = 1 ∧
      rootSelect (-1) [lowBranch, highBranch] = [⟨0, 0, 0⟩] := by
  decide!

/-- C19 (failing input): on `lowBranch`, `highBranch` the first iteration of the loop marks
branch 0 visited, with parent -1 and its initial tree score and distance; the expansion of
branch 1 afterwards gives branch 0 the parent 1, the tree score 1000001 and the distance 2. -/
theorem visited_branch_changed :
    (getB cycleMid.1 0).visited = true ∧ (getB cycleMid.1 0).parent = -1 ∧
      (getB cycleMid.1 0).tree_score = inf ∧ (getB cycleMid.1 0).distance_to_ground = inf ∧
      cycleOut = (climb libQ (knnPair 1) pickFirst 2 cycleMid).1 ∧
      (getB cycleOut 0).parent = 1 ∧ (getB cycleOut 0).tree_score = 1000001 ∧
      (getB cycleOut 0).distance_to_ground = 2 := by
  decide!

/-! ### Termination and the number of expansions -/

theorem sum_le_of_forall_le (l : List Nat) (k : Nat) (h : ∀ x ∈ l, x ≤ k) :
    l.sum ≤ k * l.length := by
  induction l with
  | nil => simp
  | cons a l ih =>
    have ha := h a (List.mem_cons_self _ _)
    have hl := ih (fun x hx => h x (List.mem_cons_of_mem _ hx))
    simp only [List.sum_cons, List.length_cons]
    rw [Nat.mul_succ]
    omega

theorem climb_succ (L : NumLib) (K : Knn) (pick : List QueueNode → Nat) (fuel : Nat)
    (st : List Branch × List QueueNode) :
    climb L K pick (fuel + 1) st =
      if st.2.isEmpty then st
      else if !(getB st.1 (st.2.getD (topIndex pick st.2) default).id).visited then
        climb L K pick fuel (afterExpand L K (st.2.getD (topIndex pick st.2) default)
          (st.1, st.2.eraseIdx (topIndex pick st.2)))
      else climb L K pick fuel (st.1, st.2.eraseIdx (topIndex pick st.2)) := rfl

theorem climbLog_succ (L : NumLib) (K : Knn) (pick : List QueueNode → Nat) (fuel : Nat)
    (st : List Branch × List QueueNode) :
    climbLog L K pick (fuel + 1) st =
      if st.2.isEmpty then []
      else if !(getB st.1 (st.2.getD (topIndex pick st.2) default).id).visited then
        ((st.2.getD (topIndex pick st.2) default).id,
          (afterExpand L K (st.2.getD (topIndex pick st.2) default)
            (st.1, st.2.eraseIdx (topIndex pick st.2))).2.length -
            (st.2.eraseIdx (topIndex pick st.2)).length) ::
          climbLog L K pick fuel (afterExpand L K (st.2.getD (topIndex pick st.2) default)
            (st.1, st.2.eraseIdx (topIndex pick st.2)))
      else climbLog L K pick fuel (st.1, st.2.eraseIdx (topIndex pick st.2)) := rfl

/-- The first pop of a branch: lengths, indices and visited marks after its expansion. -/
theorem afterExpand_facts (L : NumLib) (K : Knn) (n : Nat) (hK : KnnValid K n)
    (node : QueueNode) (st : List Branch × List QueueNode) (hlen : st.1.length = n)
    (hq : ∀ qn ∈ st.2, qn.id < n) (hu : node.id < n)
    (hvis : (getB st.1 node.id).visited = false) :
    (afterExpand L K node st).1.length = n ∧
      (∀ qn ∈ (afterExpand L K node st).2, qn.id < n) ∧
      unvisited (afterExpand L K node st).1 + 1 = unvisited st.1 ∧
      (afterExpand L K node st).2.length ≤ st.2.length + search_size ∧
      (∀ x, x ≠ node.id →
        (getB (afterExpand L K node st).1 x).visited = (getB st.1 x).visited) ∧
      (getB (afterExpand L K node st).1 node.id).visited = true := by
  have R := expandRel_expand L K node st (by rw [hlen]; exact hK) (by rw [hlen]; exact hu)
  have hl1 : (expand L K node st).1.length = n := R.len.trans hlen
  have hc := unvisited_congr _ _ R.len (fun x => (R.geo x).2.2)
  have hv1 : (getB (expand L K node st).1 node.id).visited = false := by
    rw [(R.geo _).2.2]; exact hvis
  have hs := unvisited_set _ _ (by rw [hl1]; exact hu) hv1
  refine ⟨?_, ?_, hs.trans hc, ?_, ?_, ?_⟩
  · simp only [afterExpand, List.length_set]
    exact hl1
  · intro qn hqn
    rcases R.que qn hqn with h | ⟨i, hi, h1, _, _⟩
    · exact hq qn h
    · rw [h1]; exact hK _ hu i hi
  · have := R.qlen
    have hsl := slots_length_le K node.id
    simp only [afterExpand]
    omega
  · intro x hx
    simp only [afterExpand]
    rw [getB_set_ne _ _ _ _ hx]
    exact (R.geo x).2.2
  · simp only [afterExpand]
    rw [getB_set_eq _ _ _ (by rw [hl1]; exact hu)]

/-- The loop from any state with valid indices: with enough fuel the queue empties; every
logged expansion is of a branch that was not visited before, pushes at most `search_size`
entries, and no branch is logged twice. -/
theorem climb_log (L : NumLib) (K : Knn) (pick : List QueueNode → Nat) (n : Nat)
    (hK : KnnValid K n) (fuel : Nat) :
    ∀ st : List Branch × List QueueNode, st.1.length = n → (∀ qn ∈ st.2, qn.id < n) →
    (st.2.length + (search_size + 1) * unvisited st.1 ≤ fuel →
        (climb L K pick fuel st).2 = []) ∧
      (∀ e ∈ climbLog L K pick fuel st,
        e.1 < n ∧ (getB st.1 e.1).visited = false ∧ e.2 ≤ search_size) ∧
      ((climbLog L K pick fuel st).map Prod.fst).Nodup ∧
      (climbLog L K pick fuel st).length ≤ unvisited st.1 := by
  induction fuel with
  | zero =>
    intro st _ _
    refine ⟨fun h => ?_, by simp [climbLog], by simp [climbLog], by simp [climbLog]⟩
    simp only [climb]
    exact List.length_eq_zero.mp (by omega)
  | succ fuel ih =>
    intro st hlen hq
    rw [climb_succ, climbLog_succ]
    by_cases hemp : st.2.isEmpty = true
    · simp only [hemp, if_true]
      exact ⟨fun _ => List.isEmpty_iff.mp hemp, by simp, by simp, by simp⟩
    · simp only [hemp, Bool.false_eq_true, if_false]
      have hne : st.2 ≠ [] := fun h => hemp (List.isEmpty_iff.mpr h)
      obtain ⟨ht, _⟩ := topIndex_spec pick st.2 hne
      have hqlen := List.length_eraseIdx_of_lt ht
      have hmem := getD_mem_q st.2 _ ht
      have hu := hq _ hmem
      have hsub : ∀ qn ∈ st.2.eraseIdx (topIndex pick st.2), qn.id < n :=
        fun qn h => hq qn (List.mem_of_mem_eraseIdx h)
      have hpos : 0 < st.2.length := by omega
      generalize st.2.getD (topIndex pick st.2) default = node at hu ⊢
      by_cases hvis : (getB st.1 node.id).visited = true
      · simp only [hvis, Bool.not_true, Bool.false_eq_true, if_false]
        obtain ⟨h1, h2, h3, h4⟩ := ih (st.1, st.2.eraseIdx (topIndex pick st.2)) hlen hsub
        refine ⟨fun h => h1 ?_, h2, h3, h4⟩
        simp only [hqlen]
        omega
      · have hvis2 : (getB st.1 node.id).visited = false := by simpa using hvis
        simp only [hvis2, Bool.not_false, if_true]
        obtain ⟨f1, f2, f3, f4, f5, f6⟩ := afterExpand_facts L K n hK node
          (st.1, st.2.eraseIdx (topIndex pick st.2)) hlen hsub hu hvis2
        obtain ⟨h1, h2, h3, h4⟩ := ih _ f1 f2
        dsimp only at f3 f4
        simp only [hqlen, search_size] at f4 h1 h2 ⊢
        generalize afterExpand L K node (st.1, st.2.eraseIdx (topIndex pick st.2)) = st2
          at f1 f2 f3 f4 f5 f6 h1 h2 h3 h4 ⊢
        refine ⟨fun h => h1 ?_, ?_, ?_, ?_⟩
        · omega
        · intro e he
          rcases List.mem_cons.mp he with rfl | he
          · refine ⟨hu, hvis2, ?_⟩
            simp only []
            omega
          · obtain ⟨a1, a2, a3⟩ := h2 e he
            have hne1 : e.1 ≠ node.id := by
              intro heq
              rw [heq, f6] at a2
              exact absurd a2 (by simp)
            rw [f5 e.1 hne1] at a2
            exact ⟨a1, a2, a3⟩
        · simp only [List.map_cons, List.nodup_cons]
          refine ⟨?_, h3⟩
          intro hin
          obtain ⟨e, he, heq⟩ := List.mem_map.mp hin
          have := (h2 e he).2.1
          rw [heq, f6] at this
          exact absurd this (by simp)
        · simp only [List.length_cons]
          omega

/-- C20: the relaxation loop ends with an empty queue; no branch is expanded twice, there
are at most `n` expansions, each pushes at most `search_size` entries, and the pushes of
the seeds and of all expansions together are at most the number of roots plus
`search_size · n`. -/
theorem relax_terminates (L : NumLib) (K : Knn) (pick : List QueueNode → Nat) (m : ℚ)
    (bs : List Branch) (hK : KnnValid K bs.length) :
    (skeleton L K pick m bs).2 = [] ∧
      ((climbLog L K pick (climbFuel bs.length (rootSelect m bs).length)
        (bs, rootSelect m bs)).map Prod.fst).Nodup ∧
      (climbLog L K pick (climbFuel bs.length (rootSelect m bs).length)
        (bs, rootSelect m bs)).length ≤ bs.length ∧
      (rootSelect m bs).length +
        ((climbLog L K pick (climbFuel bs.length (rootSelect m bs).length)
          (bs, rootSelect m bs)).map Prod.snd).sum ≤
        (rootSelect m bs).length + search_size * bs.length := by
  obtain ⟨h1, h2, h3, h4⟩ := climb_log L K pick bs.length hK
    (climbFuel bs.length (rootSelect m bs).length) (bs, rootSelect m bs) rfl
    (rootSelect_id_lt m bs)
  have hun : unvisited bs ≤ bs.length := List.countP_le_length _
  refine ⟨h1 ?_, h3, le_trans h4 hun, ?_⟩
  · simp only [climbFuel]
    exact Nat.add_le_add_left (Nat.mul_le_mul_left _ hun) _
  · have hs := sum_le_of_forall_le
      ((climbLog L K pick (climbFuel bs.length (rootSelect m bs).length)
        (bs, rootSelect m bs)).map Prod.snd) search_size (by
        intro x hx
        obtain ⟨e, he, rfl⟩ := List.mem_map.mp hx
        exact (h2 e he).2.2)
    rw [List.length_map] at hs
    have := Nat.mul_le_mul_left search_size (le_trans h4 hun)
    omega

theorem relax_terminates_witness :
    (skeleton libQ (knnPair 1) pickFirst (-1) [lowBranch, highBranch]).2 = [] ∧
      ((climbLog libQ (knnPair 1) pickFirst
        (climbFuel [lowBranch, highBranch].length
          (rootSelect (-1) [lowBranch, highBranch]).length)
        ([lowBranch, highBranch], rootSelect (-1) [lowBranch, highBranch])).map
          Prod.fst).Nodup ∧
      (climbLog libQ (knnPair 1) pickFirst
        (climbFuel [lowBranch, highBranch].length
          (rootSelect (-1) [lowBranch, highBranch]).length)
        ([lowBranch, highBranch], rootSelect (-1) [lowBranch, highBranch])).length ≤
        [lowBranch, highBranch].length ∧
      (rootSelect (-1) [lowBranch, highBranch]).length +
        ((climbLog libQ (knnPair 1) pickFirst
          (climbFuel [lowBranch, highBranch].length
            (rootSelect (-1) [lowBranch, highBranch]).length)
          ([lowBranch, highBranch], rootSelect (-1) [lowBranch, highBranch])).map
            Prod.snd).sum ≤
        (rootSelect (-1) [lowBranch, highBranch]).length +
          search_size * [lowBranch, highBranch].length :=
  relax_terminates libQ (knnPair 1) pickFirst (-1) [lowBranch, highBranch] (knnPair_valid 1)

/-! ### Ties in the overlap resolution -/

theorem swapRemove_perm_eraseIdx (bs : List Branch) (j : Nat) (hj : j < bs.length) :
    (swapRemove bs j).Perm (bs.eraseIdx j) := by
  obtain ⟨hsplit, hlen⟩ := split_at_index bs j hj
  obtain ⟨l₂, he, hp⟩ := swapRemove_split (bs.take j) (getB bs j) (bs.drop (j + 1))
  rw [hlen, ← hsplit] at he
  rw [he, List.eraseIdx_eq_take_drop_succ]
  exact List.Perm.append_left _ hp

theorem swapRemove_getB_lt (bs : List Branch) (i j : Nat) (hij : i < j) (hj : j < bs.length) :
    getB (swapRemove bs j) i = getB bs i := by
  obtain ⟨hsplit, hlen⟩ := split_at_index bs j hj
  obtain ⟨l₂, he, _⟩ := swapRemove_split (bs.take j) (getB bs j) (bs.drop (j + 1))
  rw [hlen, ← hsplit] at he
  have h1 : getB (bs.take j ++ l₂) i = getB (bs.take j) i := by
    simp [getB, List.getD_eq_getElem?_getD, List.getElem?_append_left, hlen, hij]
  have h2 : getB bs i = getB (bs.take j) i := by
    simp [getB, List.getD_eq_getElem?_getD, List.getElem?_take, hij]
  rw [he, h1, h2]

/-- C17 (amended): when the outer branch `i` and the first branch `j` found to hold more
than 0.4 of its samples have equal radius²·length, the pass keeps `i` unchanged and drops
`j`: `j` is removed from the list when `j > i` and marked inactive when `j < i`; the loop
goes on at index `i + 1`. -/
theorem overlap_tie_step (normalized : Vec3 → Vec3) (fuel i j : Nat) (bs : List Branch)
    (hi : i < bs.length) (ha : (getB bs i).active = true)
    (hf : (List.range bs.length).find? (fun j => dupHit normalized bs i j) = some j)
    (hv : vol (getB bs i) = vol (getB bs j)) :
    (i < j →
        overlapLoop normalized (fuel + 1) i bs =
          overlapLoop normalized fuel (i + 1) (swapRemove bs j) ∧
        (swapRemove bs j).Perm (bs.eraseIdx j) ∧ getB (swapRemove bs j) i = getB bs i) ∧
      (¬ i < j →
        j < i ∧
        overlapLoop normalized (fuel + 1) i bs =
          overlapLoop normalized fuel (i + 1)
            (bs.set j { getB bs j with active := false }) ∧
        (getB (bs.set j { getB bs j with active := false }) j).active = false ∧
        getB (bs.set j { getB bs j with active := false }) i = getB bs i) := by
  have hj := find?_range_lt _ _ _ hf
  have hne : i ≠ j := by
    have := List.find?_some hf
    simp only [dupHit, Bool.and_eq_true, decide_eq_true_eq] at this
    exact this.1.1.1
  have hnv : ¬ vol (getB bs i) < vol (getB bs j) := by rw [hv]; exact lt_irrefl _
  constructor
  · intro hij
    refine ⟨?_, swapRemove_perm_eraseIdx bs j hj, swapRemove_getB_lt bs i j hij hj⟩
    rw [overlapLoop]
    simp [hi, ha, hf, hnv, hij]
  · intro hij
    have hji : j < i := by omega
    refine ⟨hji, ?_, ?_, ?_⟩
    · rw [overlapLoop]
      simp [hi, ha, hf, hnv, hij]
    · rw [getB_set_eq _ _ _ hj]
    · exact getB_set_ne _ _ _ _ hne

theorem overlap_tie_step_witness :
    (1 < 0 →
        overlapLoop normalizedQ (0 + 1) 1 [tieA, tieB] =
          overlapLoop normalizedQ 0 (1 + 1) (swapRemove [tieA, tieB] 0) ∧
        (swapRemove [tieA, tieB] 0).Perm ([tieA, tieB].eraseIdx 0) ∧
        getB (swapRemove [tieA, tieB] 0) 1 = getB [tieA, tieB] 1) ∧
      (¬ 1 < 0 →
        0 < 1 ∧
        overlapLoop normalizedQ (0 + 1) 1 [tieA, tieB] =
          overlapLoop normalizedQ 0 (1 + 1)
            ([tieA, tieB].set 0 { getB [tieA, tieB] 0 with active := false }) ∧
        (getB ([tieA, tieB].set 0 { getB [tieA, tieB] 0 with active := false }) 0).active
          = false ∧
        getB ([tieA, tieB].set 0 { getB [tieA, tieB] 0 with active := false }) 1 =
          getB [tieA, tieB] 1) :=
  overlap_tie_step normalizedQ 0 1 0 [tieA, tieB] (by decide) (by decide) (by decide!)
    (by decide!)

/-- C17 (counterexample): `tieA` at index 0 and `tieB` at index 1 have equal
radius²·length. The samples of `tieA` do not make the pair a duplicate, those of `tieB` do
(15 of 25 lie inside `tieA`), and the pass then deactivates `tieA`, the branch with the
lower index: the output is `tieB` alone. -/
theorem overlap_tie_lower_index :
    vol tieA = vol tieB ∧ dupHit normalizedQ [tieA, tieB] 0 1 = false ∧
      numInside normalizedQ tieB tieA = 15 ∧ dupHit normalizedQ [tieA, tieB] 1 0 = true ∧
      overlapResolution normalizedQ [tieA, tieB] = [tieB] := by
  decide!

/-! ### Candidate initialisation -/

theorem bump_keys (c : Vec3i) (m : List (Vec3i × Nat)) :
    (bump c m).map Prod.fst =
      if c ∈ m.map Prod.fst then m.map Prod.fst else m.map Prod.fst ++ [c] := by
  induction m with
  | nil => simp [bump]
  | cons kc m ih =>
    obtain ⟨k, n⟩ := kc
    unfold bump
    by_cases hk : k = c
    · subst hk
      simp
    · have hk2 : ¬ c = k := fun h => hk h.symm
      simp only [hk, if_false, List.map_cons, ih, List.mem_cons, hk2, false_or]
      split <;> simp

theorem bump_mem (c : Vec3i) (m : List (Vec3i × Nat)) (hnd : (m.map Prod.fst).Nodup) :
    ∀ kc ∈ bump c m, (kc ∈ m ∧ kc.1 ≠ c) ∨
      (kc.1 = c ∧ ((c ∉ m.map Prod.fst ∧ kc.2 = 1) ∨ ∃ old, (c, old) ∈ m ∧ kc.2 = old + 1)) := by
  induction m with
  | nil =>
    intro kc h
    simp only [bump, List.mem_singleton] at h
    subst h
    exact Or.inr ⟨rfl, Or.inl ⟨by simp, rfl⟩⟩
  | cons hd m ih =>
    obtain ⟨k, n⟩ := hd
    intro kc h
    simp only [List.map_cons, List.nodup_cons] at hnd
    have ih := ih hnd.2
    unfold bump at h
    by_cases hk : k = c
    · subst hk
      simp only [if_true, List.mem_cons] at h
      rcases h with rfl | h
      · exact Or.inr ⟨rfl, Or.inr ⟨n, List.mem_cons_self _ _, rfl⟩⟩
      · by_cases hkc : kc.1 = k
        · exact absurd (hkc ▸ List.mem_map_of_mem Prod.fst h) hnd.1
        · exact Or.inl ⟨List.mem_cons_of_mem _ h, hkc⟩
    · simp only [hk, if_false, List.mem_cons] at h
      rcases h with rfl | h
      · exact Or.inl ⟨List.mem_cons_self _ _, hk⟩
      · rcases ih kc h with ⟨h1, h2⟩ | ⟨h1, h2⟩
        · exact Or.inl ⟨List.mem_cons_of_mem _ h1, h2⟩
        · right
          refine ⟨h1, ?_⟩
          rcases h2 with ⟨h3, h4⟩ | ⟨old, h3, h4⟩
          · left
            refine ⟨?_, h4⟩
            simp only [List.map_cons, List.mem_cons, not_or]
            exact ⟨fun h => hk h.symm, h3⟩
          · exact Or.inr ⟨old, List.mem_cons_of_mem _ h3, h4⟩


/-- The occupancy map built from the cells of the points: distinct indices, exactly the
cells that hold a point, each with the number of points in it. -/
theorem tally_spec (cells : List Vec3i) :
    (((cells.foldl (fun m c => bump c m) []).map Prod.fst).Nodup ∧
      (∀ k, k ∈ (cells.foldl (fun m c => bump c m) []).map Prod.fst ↔ k ∈ cells)) ∧
      ∀ kc ∈ cells.foldl (fun m c => bump c m) [], kc.2 = cells.count kc.1 := by
  induction cells using List.reverseRecOn with
  | nil => simp
  | append_singleton cells c ih =>
    obtain ⟨⟨hnd, hmem⟩, hcnt⟩ := ih
    rw [List.foldl_append]
    simp only [List.foldl_cons, List.foldl_nil]
    generalize cells.foldl (fun m c => bump c m) [] = m at hnd hmem hcnt
    have hk := bump_keys c m
    refine ⟨⟨?_, ?_⟩, ?_⟩
    · rw [hk]
      split
      · exact hnd
      · rename_i hc
        exact List.Nodup.append hnd (List.nodup_singleton c) (by simpa using hc)
    · intro k
      rw [hk]
      split
      · rename_i hc
        rw [hmem, List.mem_append, List.mem_singleton]
        constructor
        · exact Or.inl
        · rintro (h | rfl)
          · exact h
          · exact (hmem _).mp hc
      · simp only [List.mem_append, List.mem_singleton, hmem]
    · intro kc hkc
      rw [List.count_append]
      rcases bump_mem c m hnd kc hkc with ⟨h1, h2⟩ | ⟨h1, h2⟩
      · rw [hcnt kc h1, List.count_singleton]
        have h2' : ¬ c = kc.1 := fun h => h2 h.symm
        simp [h2']
      · rw [h1]
        simp only [List.count_singleton, beq_self_eq_true, if_true]
        rcases h2 with ⟨h3, h4⟩ | ⟨old, h3, h4⟩
        · rw [h4]
          have : c ∉ cells := fun h => h3 ((hmem c).mpr h)
          rw [List.count_eq_zero_of_not_mem this]
        · rw [h4]
          have := hcnt _ h3
          simp only at this
          rw [this]

theorem increment_fields (v : IntegerVoxels) (pts : List Vec3) :
    pts.foldl (fun v p => v.increment p) v =
      { v with voxel_map :=
        (pts.map (cellIndex v.voxel_width v.offset)).foldl (fun m c => bump c m) v.voxel_map } := by
  induction pts generalizing v with
  | nil => rfl
  | cons p pts ih =>
    simp only [List.foldl_cons, List.map_cons]
    rw [ih]
    rfl

/-- The loop of lines 80-88 counts, in every grid, the bounded end points. -/
theorem count_loop (cloud : Cloud) (is : List Nat) :
    ∀ vs : List IntegerVoxels,
    is.foldl (fun vs i =>
        if !cloud.rayBounded i then vs
        else vs.map (fun v => v.increment (cloud.ends.getD i default))) vs =
      vs.map (fun v =>
        ((is.filter (fun i => cloud.rayBounded i)).map
          (fun i => cloud.ends.getD i default)).foldl (fun v p => v.increment p) v) := by
  induction is with
  | nil => intro vs; simp
  | cons i is ih =>
    intro vs
    simp only [List.foldl_cons]
    by_cases hb : cloud.rayBounded i = true
    · simp only [hb, Bool.not_true, Bool.false_eq_true, if_false]
      rw [ih]
      simp [List.filter_cons, hb, List.map_map, Function.comp_def]
    · have hb2 : cloud.rayBounded i = false := by simpa using hb
      simp only [hb2, Bool.not_false, if_true]
      rw [ih]
      simp [List.filter_cons, hb2]

theorem forEach_eq (fresh : Branch) (sqrt : ℚ → ℚ) (g : IntegerVoxels)
    (m : List (Vec3i × Nat)) :
    ∀ branches : List Branch,
    m.foldl (fun bs kc => addBranch fresh sqrt bs g.voxel_width g.offset kc.1 kc.2) branches =
      branches ++ (m.filter (fun kc => decide (2 ≤ kc.2))).map
        (fun kc => candidateAt fresh sqrt g kc.1) := by
  induction m with
  | nil => intro branches; simp
  | cons kc m ih =>
    intro branches
    simp only [List.foldl_cons]
    rw [ih]
    by_cases hc : kc.2 < 2
    · have hc2 : ¬ 2 ≤ kc.2 := by omega
      simp [addBranch, hc, List.filter_cons, hc2]
    · have hc2 : 2 ≤ kc.2 := by omega
      simp only [addBranch, hc, if_false, List.filter_cons, hc2, decide_True, if_true,
        List.map_cons, List.append_assoc, List.singleton_append]
      congr 2

/-- The branch list after `initialiseBranches`: the list before, then for every grid in
turn the candidates of its cells with at least two points, in the order of its map. -/
theorem initialiseBranches_eq (fresh : Branch) (sqrt : ℚ → ℚ) (branches : List Branch)
    (cloud : Cloud) (min_bound : Vec3) (voxel_width : ℚ) :
    initialiseBranches fresh sqrt branches cloud min_bound voxel_width =
      branches ++ (emptyVoxels min_bound voxel_width).flatMap (fun g =>
        ((tallyOf g cloud).filter (fun kc => decide (2 ≤ kc.2))).map
          (fun kc => candidateAt fresh sqrt g kc.1)) := by
  unfold initialiseBranches
  rw [count_loop]
  simp only [emptyVoxels, List.map_cons, List.map_nil, List.foldl_cons, List.foldl_nil,
    increment_fields, IntegerVoxels.forEach, forEach_eq, List.flatMap_cons, List.flatMap_nil,
    List.append_assoc, List.append_nil]
  rfl

theorem tallyOf_perm (g : IntegerVoxels) (cloud : Cloud) :
    (tallyOf g cloud).Perm
      (((pointCells g cloud).dedup).map (fun k => (k, occupancy g cloud k))) := by
  obtain ⟨⟨hnd, hmem⟩, hcnt⟩ := tally_spec (pointCells g cloud)
  have h1 : tallyOf g cloud =
      ((tallyOf g cloud).map Prod.fst).map (fun k => (k, occupancy g cloud k)) := by
    rw [List.map_map]
    conv_lhs => rw [← List.map_id (tallyOf g cloud)]
    apply List.map_congr_left
    intro kc hkc
    have := hcnt kc hkc
    simp only [id, Function.comp, occupancy]
    rw [← this]
  rw [h1]
  apply List.Perm.map
  refine (List.perm_ext_iff_of_nodup (by exact hnd) (List.nodup_dedup _)).mpr ?_
  intro k
  rw [List.mem_dedup]
  exact hmem k

/-- The candidates a grid appends are, up to order, one candidate for every cell with at
least two bounded end points. -/
theorem grid_part_perm (fresh : Branch) (sqrt : ℚ → ℚ) (g : IntegerVoxels) (cloud : Cloud) :
    (((tallyOf g cloud).filter (fun kc => decide (2 ≤ kc.2))).map
      (fun kc => candidateAt fresh sqrt g kc.1)).Perm (gridCandidates fresh sqrt g cloud) := by
  have h := ((tallyOf_perm g cloud).filter (fun kc => decide (2 ≤ kc.2))).map
    (fun kc => candidateAt fresh sqrt g kc.1)
  refine h.trans ?_
  unfold gridCandidates
  rw [List.filter_map, List.map_map]
  exact List.Perm.refl _

/-- C13: `initialiseBranches` appends, for each of the four grids in turn, exactly one
candidate for every cell that holds at least two bounded end points and none for any other
cell; the candidate is centred at `(index + ½) · cell_width + grid_origin`; only bounded end
points are counted. -/
theorem initialiseBranches_cells (fresh : Branch) (sqrt : ℚ → ℚ) (branches : List Branch)
    (cloud : Cloud) (min_bound : Vec3) (voxel_width : ℚ) :
    ∃ parts : List (List Branch),
      initialiseBranches fresh sqrt branches cloud min_bound voxel_width =
        branches ++ parts.flatten ∧
      List.Forall₂ (fun g part => part.Perm (gridCandidates fresh sqrt g cloud))
        (emptyVoxels min_bound voxel_width) parts := by
  refine ⟨(emptyVoxels min_bound voxel_width).map (fun g =>
      ((tallyOf g cloud).filter (fun kc => decide (2 ≤ kc.2))).map
        (fun kc => candidateAt fresh sqrt g kc.1)), ?_, ?_⟩
  · rw [initialiseBranches_eq, List.flatMap_def]
  · rw [List.forall₂_map_right_iff]
    exact List.forall₂_same.mpr (fun g _ => grid_part_perm fresh sqrt g cloud)

/-- C12 (amended): the candidates that `initialiseBranches` appends come in four parts, one
for each grid in turn: the grids of width `voxel_width` at `min_bound` and half a cell off
it, and the grids of width `2 · voxel_width` at `min_bound` and a whole cell off it. The part
of a grid holds, up to order, its candidates, and every candidate in it is centred at a cell
of that grid with at least two points and has radius `(cell_width / √2) / 2` for the width
of that grid, length `radius · 2 · 4`, direction `(0, 0, 1)` and score 0; it is active when
the constructor of `Branch` leaves a branch active. -/
theorem initialiseBranches_fields (fresh : Branch) (sqrt : ℚ → ℚ) (branches : List Branch)
    (cloud : Cloud) (min_bound : Vec3) (voxel_width : ℚ) (hact : fresh.active = true) :
    ∃ parts : List (List Branch),
      initialiseBranches fresh sqrt branches cloud min_bound voxel_width =
        branches ++ parts.flatten ∧
      List.Forall₂
        (fun g part => part.Perm (gridCandidates fresh sqrt g cloud) ∧
          ∀ b ∈ part,
            (∃ index, 2 ≤ occupancy g cloud index ∧ b.centre = cellCentre g index) ∧
            b.radius = g.voxel_width / sqrt 2 / 2 ∧ b.length = b.radius * 2 * 4 ∧
            b.dir = ⟨0, 0, 1⟩ ∧ b.score = 0 ∧ b.active = true)
        [⟨voxel_width, min_bound, []⟩,
          ⟨voxel_width, Vec3.add min_bound
            ⟨1 / 2 * voxel_width, 1 / 2 * voxel_width, 1 / 2 * voxel_width⟩, []⟩,
          ⟨2 * voxel_width, min_bound, []⟩,
          ⟨2 * voxel_width, Vec3.add min_bound
            (Vec3.smul ⟨1 / 2 * voxel_width, 1 / 2 * voxel_width, 1 / 2 * voxel_width⟩ 2), []⟩]
        parts := by
  refine ⟨(emptyVoxels min_bound voxel_width).map (fun g =>
      ((tallyOf g cloud).filter (fun kc => decide (2 ≤ kc.2))).map
        (fun kc => candidateAt fresh sqrt g kc.1)), ?_, ?_⟩
  · rw [initialiseBranches_eq, List.flatMap_def]
  · show List.Forall₂ _ (emptyVoxels min_bound voxel_width) _
    rw [List.forall₂_map_right_iff]
    refine List.forall₂_same.mpr (fun g _ => ⟨grid_part_perm fresh sqrt g cloud, ?_⟩)
    intro b hb
    have hb2 := (grid_part_perm fresh sqrt g cloud).mem_iff.mp hb
    unfold gridCandidates at hb2
    rw [List.mem_map] at hb2
    obtain ⟨index, hidx, rfl⟩ := hb2
    rw [List.mem_filter] at hidx
    refine ⟨⟨index, by simpa using hidx.2, rfl⟩, rfl, ?_, rfl, rfl, hact⟩
    simp only [candidateAt, branch_height_to_width]
    ring

theorem initialiseBranches_fields_witness :
    ∃ parts : List (List Branch),
      initialiseBranches freshBranch sqrtQ [] pairCloud ⟨0, 0, 0⟩ 1 = [] ++ parts.flatten ∧
      List.Forall₂
        (fun g part => part.Perm (gridCandidates freshBranch sqrtQ g pairCloud) ∧
          ∀ b ∈ part,
            (∃ index, 2 ≤ occupancy g pairCloud index ∧ b.centre = cellCentre g index) ∧
            b.radius = g.voxel_width / sqrtQ 2 / 2 ∧ b.length = b.radius * 2 * 4 ∧
            b.dir = ⟨0, 0, 1⟩ ∧ b.score = 0 ∧ b.active = true)
        [⟨1, ⟨0, 0, 0⟩, []⟩,
          ⟨1, Vec3.add ⟨0, 0, 0⟩ ⟨1 / 2 * 1, 1 / 2 * 1, 1 / 2 * 1⟩, []⟩,
          ⟨2 * 1, ⟨0, 0, 0⟩, []⟩,
          ⟨2 * 1, Vec3.add ⟨0, 0, 0⟩ (Vec3.smul ⟨1 / 2 * 1, 1 / 2 * 1, 1 / 2 * 1⟩ 2), []⟩]
        parts :=
  initialiseBranches_fields freshBranch sqrtQ [] pairCloud ⟨0, 0, 0⟩ 1 rfl

/-- C12 (counterexample): with `voxel_width` 1 the two end points of `pairCloud` share a
cell only in the first grid of double width; the one candidate comes from that grid and has
radius `(2 / √2) / 2`, not `(1 / √2) / 2`. -/
theorem initialiseBranches_double_radius :
    (initialiseBranches freshBranch sqrtQ [] pairCloud ⟨0, 0, 0⟩ 1).map (fun b => b.radius) =
        [2 / sqrtQ 2 / 2] ∧
      (2 / sqrtQ 2 / 2 : ℚ) ≠ 1 / sqrtQ 2 / 2 := by
  decide!

/-! ## Refinement -/

/-- The branch after a pass does not depend on its best state. -/
theorem refineBranch_fst (R : Refiner) (midRadius : ℚ) (b best best2 : Branch) :
    (refineBranch R midRadius (b, best)).1 = (refineBranch R midRadius (b, best2)).1 := by
  unfold refineBranch
  dsimp only
  split_ifs <;> rfl

/-- The best state after a pass: replaced only in a steady pass, by a higher score. -/
theorem refineBranch_snd (R : Refiner) (midRadius : ℚ) (b best : Branch) :
    (refineBranch R midRadius (b, best)).2 =
      if steadyPass R b then keepBest best (updated R b (R.getOverlap b)) else best := by
  unfold refineBranch steadyPass
  dsimp only
  split_ifs <;> simp_all

/-- A pass never lowers the score of the best state. -/
theorem refineBranch_score_le (R : Refiner) (midRadius : ℚ) (st : Branch × Branch) :
    st.2.score ≤ (refineBranch R midRadius st).2.score := by
  obtain ⟨b, best⟩ := st
  rw [refineBranch_snd]
  split_ifs
  · unfold keepBest
    split_ifs with h
    · exact le_of_lt h
    · exact le_refl _
  · exact le_refl _

/-- The best state after `n` passes is the fold of `keepBest` over the steady states. -/
theorem iterate_snd (R : Refiner) (midRadius : ℚ) (n : Nat) (b best : Branch) :
    ((refineBranch R midRadius)^[n] (b, best)).2 =
      (steadyStates R midRadius n b).foldl keepBest best := by
  induction n generalizing b best with
  | zero => rfl
  | succ n ih =>
    rw [Function.iterate_succ_apply]
    have e : refineBranch R midRadius (b, best) =
        ((refineBranch R midRadius (b, b)).1, (refineBranch R midRadius (b, best)).2) := by
      rw [refineBranch_fst R midRadius b b best]
    rw [e, ih, refineBranch_snd]
    conv_rhs => rw [steadyStates]
    split_ifs <;> simp

/-- The fold of `keepBest`: the result is the start or a member, and no member has a higher
score. -/
theorem foldl_keepBest (l : List Branch) (best : Branch) :
    (l.foldl keepBest best = best ∨ l.foldl keepBest best ∈ l) ∧
      (∀ s ∈ l, s.score ≤ (l.foldl keepBest best).score) ∧
      best.score ≤ (l.foldl keepBest best).score := by
  induction l generalizing best with
  | nil => simp
  | cons a l ih =>
    obtain ⟨h1, h2, h3⟩ := ih (keepBest best a)
    have hk : (keepBest best a = best ∨ keepBest best a = a) ∧
        best.score ≤ (keepBest best a).score ∧ a.score ≤ (keepBest best a).score := by
      unfold keepBest
      split_ifs with h
      · exact ⟨Or.inr rfl, le_of_lt h, le_refl _⟩
      · exact ⟨Or.inl rfl, le_refl _, not_lt.mp h⟩
    simp only [List.foldl_cons, List.mem_cons, forall_eq_or_imp]
    refine ⟨?_, ⟨le_trans hk.2.2 h3, h2⟩, le_trans hk.2.1 h3⟩
    rcases h1 with h1 | h1
    · rcases hk.1 with hk | hk
      · exact Or.inl (h1.trans hk)
      · exact Or.inr (Or.inl (h1.trans hk))
    · exact Or.inr (Or.inr h1)

/-- The iterations act on every pair of a branch and its best state on its own. -/
theorem refineIterate_eq (R : Refiner) (midRadius : ℚ) (n : Nat) (sts : List (Branch × Branch)) :
    refineIterate R midRadius n sts = sts.map ((refineBranch R midRadius)^[n]) := by
  induction n generalizing sts with
  | zero => simp [refineIterate]
  | succ n ih =>
    rw [refineIterate, ih, List.map_map]
    congr 1

/-- The pair of slot `i` after `n` iterations. -/
theorem refineIterate_getD (R : Refiner) (midRadius : ℚ) (n : Nat) (branches : List Branch)
    (i : Nat) (hi : i < branches.length) :
    (refineIterate R midRadius n (refineInit branches)).getD i default =
      (refineBranch R midRadius)^[n]
        (branches.getD i default, { branches.getD i default with active := false }) := by
  rw [refineIterate_eq, refineInit, List.map_map]
  rw [List.getD_eq_getElem _ _ (by simpa using hi), List.getD_eq_getElem _ _ hi]
  simp

/-- States that do not score above the start leave the start in place. -/
theorem foldl_keepBest_of_le (l : List Branch) (best : Branch)
    (h : ∀ s ∈ l, s.score ≤ best.score) : l.foldl keepBest best = best := by
  induction l with
  | nil => rfl
  | cons a l ih =>
    have ha : keepBest best a = best := by
      unfold keepBest
      rw [if_neg (not_lt.mpr (h a (List.mem_cons_self _ _)))]
    rw [List.foldl_cons, ha]
    exact ih (fun s hs => h s (List.mem_cons_of_mem _ hs))

/-- C15 (amended): after the refinement the best state of a slot has a score no lower than
that of every state a steady pass produced on the slot. When one of these states scores
strictly above the initial candidate, the best state is one of them (so one of highest
score); otherwise, when no steady pass ran or none scored above the initial candidate, it is
the initial candidate with `active = false`. From one iteration to the next the score of
the best state never decreases. -/
theorem refine_best (R : Refiner) (midRadius : ℚ) (branches : List Branch) (i : Nat)
    (hi : i < branches.length) :
    (∀ s ∈ steadyStates R midRadius num_iterations (branches.getD i default),
        s.score ≤ ((refine R midRadius branches).getD i default).2.score) ∧
      ((∃ s ∈ steadyStates R midRadius num_iterations (branches.getD i default),
          (branches.getD i default).score < s.score) →
        ((refine R midRadius branches).getD i default).2 ∈
          steadyStates R midRadius num_iterations (branches.getD i default)) ∧
      ((∀ s ∈ steadyStates R midRadius num_iterations (branches.getD i default),
          s.score ≤ (branches.getD i default).score) →
        ((refine R midRadius branches).getD i default).2 =
          { branches.getD i default with active := false }) ∧
      ∀ it : Nat,
        ((refineIterate R midRadius it (refineInit branches)).getD i default).2.score ≤
          ((refineIterate R midRadius (it + 1) (refineInit branches)).getD i default).2.score := by
  have hf := foldl_keepBest (steadyStates R midRadius num_iterations (branches.getD i default))
    { branches.getD i default with active := false }
  have e : ((refine R midRadius branches).getD i default).2 =
      (steadyStates R midRadius num_iterations (branches.getD i default)).foldl keepBest
        { branches.getD i default with active := false } := by
    rw [refine, refineIterate_getD R midRadius _ branches i hi, iterate_snd]
  rw [e]
  refine ⟨hf.2.1, ?_, ?_, ?_⟩
  · rintro ⟨s, hs, hlt⟩
    rcases hf.1 with h | h
    · have := hf.2.1 s hs
      rw [h] at this
      exact absurd (lt_of_lt_of_le hlt this) (lt_irrefl _)
    · exact h
  · intro hle
    exact foldl_keepBest_of_le _ _ hle
  · intro it
    rw [refineIterate_getD R midRadius _ branches i hi,
      refineIterate_getD R midRadius _ branches i hi, Function.iterate_succ_apply']
    exact refineBranch_score_le R midRadius _

theorem refine_best_witness :
    (∀ s ∈ steadyStates countRefiner 1 num_iterations ([candLeft, candRight].getD 1 default),
        s.score ≤ ((refine countRefiner 1 [candLeft, candRight]).getD 1 default).2.score) ∧
      ((∃ s ∈ steadyStates countRefiner 1 num_iterations ([candLeft, candRight].getD 1 default),
          ([candLeft, candRight].getD 1 default).score < s.score) →
        ((refine countRefiner 1 [candLeft, candRight]).getD 1 default).2 ∈
          steadyStates countRefiner 1 num_iterations ([candLeft, candRight].getD 1 default)) ∧
      ((∀ s ∈ steadyStates countRefiner 1 num_iterations ([candLeft, candRight].getD 1 default),
          s.score ≤ ([candLeft, candRight].getD 1 default).score) →
        ((refine countRefiner 1 [candLeft, candRight]).getD 1 default).2 =
          { [candLeft, candRight].getD 1 default with active := false }) ∧
      ∀ it : Nat,
        ((refineIterate countRefiner 1 it (refineInit [candLeft, candRight])).getD 1
            default).2.score ≤
          ((refineIterate countRefiner 1 (it + 1) (refineInit [candLeft, candRight])).getD 1
            default).2.score :=
  refine_best countRefiner 1 [candLeft, candRight] 1 (by decide)

/-- C15 (counterexample): a candidate that collects fewer than six points is deactivated in
the first pass, no steady pass ever runs on it, and its best state is the initial candidate
marked inactive; a candidate whose steady passes all score 0 keeps the initial candidate
marked inactive as its best state, which none of its steady passes produced. -/
theorem refine_best_initial :
    steadyStates toyRefiner 1 num_iterations candLeft = [] ∧
      ((refine toyRefiner 1 [candLeft, candRight]).getD 0 default).2 =
        { candLeft with active := false } ∧
      (steadyStates toyRefiner 1 num_iterations candRight).map (fun b => b.score) =
        [0, 0, 0, 0] ∧
      ((refine toyRefiner 1 [candLeft, candRight]).getD 1 default).2 =
        { candRight with active := false } ∧
      ((refine toyRefiner 1 [candLeft, candRight]).getD 1 default).2 ∉
        steadyStates toyRefiner 1 num_iterations candRight := by
  decide!

/-! ## The pipeline on a cloud without bounded rays -/

theorem boundedEnds_nil (cloud : Cloud)
    (h : ∀ i, i < cloud.ends.length → cloud.rayBounded i = false) : boundedEnds cloud = [] := by
  unfold boundedEnds
  rw [List.map_eq_nil_iff, List.filter_eq_nil_iff]
  intro i hi
  rw [h i (List.mem_range.mp hi)]
  decide

theorem initialiseBranches_nil (fresh : Branch) (sqrt : ℚ → ℚ) (cloud : Cloud)
    (min_bound : Vec3) (voxel_width : ℚ)
    (h : ∀ i, i < cloud.ends.length → cloud.rayBounded i = false) :
    initialiseBranches fresh sqrt [] cloud min_bound voxel_width = [] := by
  have ht : ∀ g : IntegerVoxels, tallyOf g cloud = [] := by
    intro g
    simp [tallyOf, pointCells, boundedEnds_nil cloud h]
  rw [initialiseBranches_eq]
  simp [ht]

/-- C14: on a cloud none of whose rays is bounded `initialiseBranches` adds no candidate,
and the constructor goes on to the neighbour search with zero points and a request for
`search_size = 20` neighbours, which breaks the precondition of the search. The constructor
returns, with an empty branch list, exactly when the calls into the cloud and the grid and
this search return; when the search fails, the constructor fails. -/
theorem bush_empty (fresh : Branch) (L : NumLib) (O : Outside) (pick : List QueueNode → Nat)
    (cloud : Cloud) (midRadius : ℚ)
    (h : ∀ i, i < cloud.ends.length → cloud.rayBounded i = false) :
    (∀ min_bound : Vec3,
        initialiseBranches fresh L.sqrt [] cloud min_bound (midRadius * 2) = []) ∧
      knnRequestOk [] search_size = false ∧
      bush fresh L O pick cloud midRadius =
        ((O.estimatePointSpacing cloud).bind fun spacing =>
          (O.calcMinBound cloud).bind fun min_bound =>
            (O.calcMaxBound cloud).bind fun max_bound =>
              (O.grid min_bound max_bound (midRadius * 2) [] spacing).bind fun _ =>
                (O.knn [] search_size).map fun _ => ([], [])) ∧
      (O.knn [] search_size = none → bush fresh L O pick cloud midRadius = none) := by
  have hi := fun min_bound =>
    initialiseBranches_nil fresh L.sqrt cloud min_bound (midRadius * 2) h
  have hb := boundedEnds_nil cloud h
  have e : bush fresh L O pick cloud midRadius =
      ((O.estimatePointSpacing cloud).bind fun spacing =>
        (O.calcMinBound cloud).bind fun min_bound =>
          (O.calcMaxBound cloud).bind fun max_bound =>
            (O.grid min_bound max_bound (midRadius * 2) [] spacing).bind fun _ =>
              (O.knn [] search_size).map fun _ => ([], [])) := by
    unfold bush
    cases h1 : O.estimatePointSpacing cloud with
    | none => rfl
    | some spacing =>
      cases h2 : O.calcMinBound cloud with
      | none => rfl
      | some min_bound =>
        cases h3 : O.calcMaxBound cloud with
        | none => rfl
        | some max_bound =>
          simp only [hb, hi, Option.some_bind]
          cases h4 : O.grid min_bound max_bound (midRadius * 2) [] spacing with
          | none => rfl
          | some R =>
            have hr : overlapResolution L.normalized
                (prune ((refine R midRadius []).map Prod.snd)) = [] := rfl
            simp only [hr, List.map_nil, Option.some_bind]
            cases h5 : O.knn [] search_size with
            | none => rfl
            | some K => rfl
  refine ⟨hi, by decide, e, ?_⟩
  intro hk
  rw [e, hk]
  simp

theorem bush_empty_witness :
    (∀ i, i < unboundedCloud.ends.length → unboundedCloud.rayBounded i = false) ∧
      outsideChecked.knn [] search_size = none ∧
      bush freshBranch libQ outsideChecked pickFirst unboundedCloud 1 = none :=
  ⟨by decide, rfl,
    (bush_empty freshBranch libQ outsideChecked pickFirst unboundedCloud 1 (by decide)).2.2.2
      rfl⟩

/-! ## The edge cost -/

/-- The edge cost of the rational embedding is the computation of lines 335-350 in the
field `ℚ`. -/
theorem edgeCost_eq_in (L : NumLib) (node child : Branch) (d2 : ℚ) :
    edgeCost L node child d2 =
      edgeCostIn L.sqrt (fun v => (L.normalized (Vec3.ofF v)).toF) node.centre.toF
        node.dir.toF child.centre.toF child.dir.toF d2 := by
  unfold edgeCost edgeCostIn
  simp only [Vec3.toF, Vec3.ofF, VecF.sub, VecF.add, VecF.neg, VecF.dot, Vec3.sub, Vec3.add,
    Vec3.neg, Vec3.dot]
  split_ifs <;> rfl

theorem sqNormF_nonneg {F : Type} [LinearOrderedField F] (a : VecF F) :
    0 ≤ VecF.squaredNorm a := by
  unfold VecF.squaredNorm VecF.dot
  nlinarith [mul_self_nonneg a.x, mul_self_nonneg a.y, mul_self_nonneg a.z]

/-- C22: in every ordered field that stands for `double`, with a square root that is exact
on non-negative numbers (as the real square root is), the cost that lines 335-350 compute
for the edge from a popped node to a neighbour, from the squared distance between the
centres that the neighbour table holds, is that squared distance divided by
`max(0.001, a)²` with the alignment `a` of the specification; and the cost of slot `i` in
the relaxation of the rational embedding is this computation in the field `ℚ`. -/
theorem edge_cost_formula {F : Type} [LinearOrderedField F] (sqrt : F → F)
    (unit : VecF F → VecF F) (nodeCentre nodeDir childCentre childDir : VecF F) (d2 : F)
    (hs : ∀ x : F, 0 ≤ x → sqrt x * sqrt x = x)
    (hd : d2 = VecF.squaredNorm (VecF.sub childCentre nodeCentre)) :
    edgeCostIn sqrt unit nodeCentre nodeDir childCentre childDir d2 =
        specEdgeCostIn unit nodeCentre nodeDir childCentre childDir ∧
      ∀ (L : NumLib) (K : Knn) (bs : List Branch) (id i : Nat),
        slotCost L K bs id i =
          edgeCostIn L.sqrt (fun v => (L.normalized (Vec3.ofF v)).toF) (getB bs id).centre.toF
            (getB bs id).dir.toF (getB bs (childAt K id i)).centre.toF
            (getB bs (childAt K id i)).dir.toF (K.dists2 i id) := by
  constructor
  · unfold edgeCostIn specEdgeCostIn alignmentIn
    dsimp only
    rw [hs d2 (hd ▸ sqNormF_nonneg _), hd]
    congr 1
    simp only [VecF.squaredNorm, VecF.dot, VecF.sub]
    ring
  · intro L K bs id i
    exact edgeCost_eq_in L _ _ _

theorem edge_cost_formula_witness :
    edgeCostIn Real.sqrt
        (fun v => ⟨v.x / Real.sqrt (VecF.squaredNorm v), v.y / Real.sqrt (VecF.squaredNorm v),
          v.z / Real.sqrt (VecF.squaredNorm v)⟩)
        ⟨0, 0, 0⟩ ⟨0, 0, 1⟩ ⟨1, 1, 0⟩ ⟨0, 0, 1⟩ (2 : ℝ) =
      specEdgeCostIn
        (fun v => ⟨v.x / Real.sqrt (VecF.squaredNorm v), v.y / Real.sqrt (VecF.squaredNorm v),
          v.z / Real.sqrt (VecF.squaredNorm v)⟩)
        ⟨0, 0, 0⟩ ⟨0, 0, 1⟩ ⟨1, 1, 0⟩ ⟨0, 0, 1⟩ ∧
      specEdgeCostIn
        (fun v => ⟨v.x / Real.sqrt (VecF.squaredNorm v), v.y / Real.sqrt (VecF.squaredNorm v),
          v.z / Real.sqrt (VecF.squaredNorm v)⟩)
        ⟨0, 0, 0⟩ ⟨0, 0, 1⟩ ⟨1, 1, 0⟩ ⟨0, 0, 1⟩ = (2000000 : ℝ) := by
  refine ⟨(edge_cost_formula Real.sqrt _ ⟨0, 0, 0⟩ ⟨0, 0, 1⟩ ⟨1, 1, 0⟩ ⟨0, 0, 1⟩ (2 : ℝ)
    (fun x hx => Real.mul_self_sqrt hx)
    (by norm_num [VecF.squaredNorm, VecF.dot, VecF.sub])).1, ?_⟩
  simp only [specEdgeCostIn, alignmentIn, VecF.dot, VecF.add, VecF.sub, VecF.neg]
  norm_num

/-! ## Deactivation in the refinement -/

/-- A converted line: its record, and every field converts. -/
theorem parseLine_some (stod : List Char → Option ℚ) (line : List Char) (r : Base)
    (h3 : numCommas line = 3) (hp : parseLine stod line = some r) :
    recordOf stod line r ∧ ∀ t ∈ tokens line, (stod t).isSome = true := by
  have hl := tokens_length line
  rw [h3] at hl
  match hm : tokens line, hl with
  | [t0, t1, t2, t3], _ =>
    simp only [parseLine, hm] at hp
    cases hx : stod t0 with
    | none => simp [hx] at hp
    | some x =>
      cases hy : stod t1 with
      | none => simp [hx, hy] at hp
      | some y =>
        cases hz : stod t2 with
        | none => simp [hx, hy, hz] at hp
        | some z =>
          cases hr : stod t3 with
          | none => simp [hx, hy, hz, hr] at hp
          | some rad =>
            simp only [hx, hy, hz, hr, Option.some.injEq] at hp
            subst hp
            refine ⟨⟨t0, t1, t2, t3, hm, hx, hy, hz, hr⟩, ?_⟩
            intro t ht
            simp only [List.mem_cons, List.mem_singleton, List.not_mem_nil, or_false] at ht
            rcases ht with h | h | h | h <;> subst h <;> simp [hx, hy, hz, hr]

/-- On a line with three commas the conversion fails exactly when some field does not
convert. -/
theorem parseLine_none_iff (stod : List Char → Option ℚ) (line : List Char)
    (h3 : numCommas line = 3) :
    parseLine stod line = none ↔ (tokens line).any (fun t => (stod t).isNone) = true := by
  constructor
  · intro hp
    by_contra hany
    have hall : ∀ t ∈ tokens line, (stod t).isSome = true := by
      intro t ht
      by_contra hs
      apply hany
      rw [List.any_eq_true]
      refine ⟨t, ht, ?_⟩
      cases h : stod t with
      | none => rfl
      | some v => simp [h] at hs
    obtain ⟨r, hr, _⟩ := parseLine_ok stod line h3 hall
    rw [hp] at hr
    exact Option.noConfusion hr
  · intro hany
    cases hp : parseLine stod line with
    | none => rfl
    | some r =>
      obtain ⟨t, ht, hn⟩ := List.any_eq_true.mp hany
      have := (parseLine_some stod line r h3 hp).2 t ht
      cases h : stod t with
      | none => simp [h] at this
      | some v => simp [h] at hn

/-- The outcome of the read loop: without a stop line the records of the data lines are
appended; a stop line with another number of commas gives the empty result; a stop line on
which `std::stod` throws leaves the loop with the exception. -/
theorem loadLoop_outcome (stod : List Char → Option ℚ) (lines : List (List Char)) :
    ∀ acc : List Base,
    match firstStop stod lines with
    | none => ∃ recs, loadLoop stod lines acc = some (acc ++ recs) ∧
        List.Forall₂ (recordOf stod) (lines.filter isDataLine) recs
    | some l => loadLoop stod lines acc = if isBadLine l then some [] else none := by
  induction lines with
  | nil =>
    intro acc
    simp [firstStop, loadLoop]
  | cons l lines ih =>
    intro acc
    unfold loadLoop
    by_cases hs : skipLine l = true
    · have hd : isDataLine l = false := by simp [isDataLine, hs]
      have hf : firstStop stod (l :: lines) = firstStop stod lines := by
        simp [firstStop, List.find?_cons, isBadLine, raisesOn, hd]
      rw [hf]
      have h := ih acc
      simp only [hs, if_true]
      cases hst : firstStop stod lines with
      | none =>
        rw [hst] at h
        simpa [List.filter_cons, hd] using h
      | some l2 =>
        rw [hst] at h
        exact h
    · have hd : isDataLine l = true := by simpa [isDataLine] using hs
      simp only [hs, Bool.false_eq_true, if_false]
      by_cases h3 : numCommas l = 3
      · have hb : isBadLine l = false := by simp [isBadLine, h3]
        rw [if_pos h3]
        cases hp : parseLine stod l with
        | none =>
          have hr : raisesOn stod l = true := by
            simp only [raisesOn, hd, h3, beq_self_eq_true, Bool.true_and]
            exact (parseLine_none_iff stod l h3).mp hp
          have hf : firstStop stod (l :: lines) = some l := by
            simp [firstStop, List.find?_cons, hb, hr]
          rw [hf]
          simp [hb]
        | some r =>
          have hr : raisesOn stod l = false := by
            simp only [raisesOn, hd, h3, beq_self_eq_true, Bool.true_and]
            cases hany : (tokens l).any (fun t => (stod t).isNone) with
            | false => rfl
            | true =>
              have := (parseLine_none_iff stod l h3).mpr hany
              rw [hp] at this
              exact Option.noConfusion this
          have hf : firstStop stod (l :: lines) = firstStop stod lines := by
            simp [firstStop, List.find?_cons, hb, hr]
          rw [hf]
          have h := ih (acc ++ [r])
          cases hst : firstStop stod lines with
          | none =>
            rw [hst] at h
            obtain ⟨recs, h1, h2⟩ := h
            refine ⟨r :: recs, ?_, ?_⟩
            · simp [h1]
            · simp only [List.filter_cons, hd, if_true]
              exact List.Forall₂.cons (parseLine_some stod l r h3 hp).1 h2
          | some l2 =>
            rw [hst] at h
            exact h
      · have hb : isBadLine l = true := by simp [isBadLine, hd, h3]
        have hf : firstStop stod (l :: lines) = some l := by
          simp [firstStop, List.find?_cons, hb]
        rw [hf]
        simp [h3, hb]

/-- C24 (amended): `load` returns normally on a file that cannot be opened and on every
content whose read loop meets no three-comma data line with a field that `std::stod` does
not convert: it returns the records of the data lines when no line stops the loop and the
empty result when the first stop is a data line with another number of commas. When the
first stop is a three-comma data line with such a field, the exception of `std::stod` leaves
`load`. -/
theorem load_outcome (stod : List Char → Option ℚ) (content : List Char) :
    load stod none = some [] ∧
      match firstStop stod (getlines content) with
      | none => ∃ recs, load stod (some content) = some recs ∧
          List.Forall₂ (recordOf stod) ((getlines content).filter isDataLine) recs
      | some l => load stod (some content) = if isBadLine l then some [] else none := by
  refine ⟨rfl, ?_⟩
  have h := loadLoop_outcome stod (getlines content) []
  cases hst : firstStop stod (getlines content) with
  | none =>
    rw [hst] at h
    simpa [load] using h
  | some l =>
    rw [hst] at h
    simpa [load] using h

/-- C24 (counterexample): the files `1,2,3,` and `a,b,c,d` each hold one data line with
exactly three commas; `std::stod` throws on the empty fourth field of the first and on the
field `a` of the second, and `load` does not return. -/
theorem load_field_raises :
    numCommas emptyFieldFile = 3 ∧ stodDec [] = none ∧
      load stodDec (some emptyFieldFile) = none ∧
      numCommas lettersFile = 3 ∧ stodDec ['a'] = none ∧
      load stodDec (some lettersFile) = none := by
  decide!

/-! ### Tree scores along the parent links -/

/-- C21 (failing input): on the two branches `lowBranch`, `highBranch`, each the only neighbour of the
other, branch 0 is seeded with the queue score 0 while its own tree score stays at the
initial value. Its neighbour 1 gets parent 0 and the tree score 0 + 1 from the queue score,
at a time when the tree score of branch 0 is `inf`; at the end of the loop the tree score of
branch 0 is 1000001, so the tree score of branch 1 is not that of its parent plus the cost
1 of the edge between them. -/
theorem child_score_not_parent_plus_cost :
    (rootSelect (-1) [lowBranch, highBranch]) = [⟨0, 0, 0⟩] ∧
      (getB cycleMid.1 0).tree_score = inf ∧ (getB cycleMid.1 1).parent = 0 ∧
      (getB cycleMid.1 1).tree_score = 1 ∧
      (skeleton libQ (knnPair 1) pickFirst (-1) [lowBranch, highBranch]).2 = [] ∧
      (getB cycleOut 1).parent = 0 ∧ (getB cycleOut 1).tree_score = 1 ∧
      slotCost libQ (knnPair 1) cycleOut 0 0 = 1 ∧
      (getB cycleOut 0).tree_score = 1000001 ∧
      (getB cycleOut 1).tree_score ≠
        (getB cycleOut 0).tree_score + slotCost libQ (knnPair 1) cycleOut 0 0 := by
  decide!

/-! ### Soundness of the broad phase -/

/-- A component of the cross product with a unit vector is bounded by the length of the
other vector. -/
theorem cross_comp_sq_le (d a : Vec3) (hd : Vec3.squaredNorm d = 1) :
    (Vec3.cross d a).x ^ 2 ≤ Vec3.squaredNorm a ∧ (Vec3.cross d a).y ^ 2 ≤ Vec3.squaredNorm a ∧
      (Vec3.cross d a).z ^ 2 ≤ Vec3.squaredNorm a := by
  have key : Vec3.squaredNorm a * Vec3.squaredNorm d =
      (Vec3.dot d a) ^ 2 + (Vec3.cross d a).x ^ 2 + (Vec3.cross d a).y ^ 2 +
        (Vec3.cross d a).z ^ 2 := by
    simp only [Vec3.cross, Vec3.squaredNorm, Vec3.dot]
    ring
  rw [hd, mul_one] at key
  refine ⟨?_, ?_, ?_⟩ <;>
    nlinarith [sq_nonneg (Vec3.dot d a), sq_nonneg (Vec3.cross d a).x,
      sq_nonneg (Vec3.cross d a).y, sq_nonneg (Vec3.cross d a).z]

/-- A component of a vector is bounded by its length. -/
theorem comp_sq_le (a : Vec3) :
    a.x ^ 2 ≤ Vec3.squaredNorm a ∧ a.y ^ 2 ≤ Vec3.squaredNorm a ∧
      a.z ^ 2 ≤ Vec3.squaredNorm a := by
  simp only [Vec3.squaredNorm, Vec3.dot]
  refine ⟨?_, ?_, ?_⟩ <;> nlinarith [sq_nonneg a.x, sq_nonneg a.y, sq_nonneg a.z]

theorem abs_scale_le_one (q n : ℚ) (hq : q ^ 2 ≤ n) (hn : sqr sampleScale * n ≤ 1) :
    |q| * sampleScale ≤ 1 := by
  have hs : (0 : ℚ) ≤ sampleScale := by norm_num [sampleScale]
  by_contra hc
  push_neg at hc
  have h1 : 1 < (|q| * sampleScale) * (|q| * sampleScale) := by
    nlinarith [abs_nonneg q, mul_nonneg (abs_nonneg q) hs]
  have h2 : (|q| * sampleScale) * (|q| * sampleScale) = sqr sampleScale * q ^ 2 := by
    rw [← sq_abs q, sqr]
    ring
  have h3 : sqr sampleScale * q ^ 2 ≤ sqr sampleScale * n :=
    mul_le_mul_of_nonneg_left hq (by rw [sqr]; exact mul_nonneg hs hs)
  linarith

/-- The offset of a sample across the axis, per unit of radius, is at most 1 along every
coordinate axis. -/
theorem offset_abs_le (l : Nat) (a1 a2 : ℚ) (h1 : |a1| * sampleScale ≤ 1)
    (h2 : |a2| * sampleScale ≤ 1) : |a1 * xs.getD l 0 + a2 * ys.getD l 0| ≤ 1 := by
  have hs : (0 : ℚ) ≤ sampleScale := by norm_num [sampleScale]
  have e1 : |a1 * sampleScale| = |a1| * sampleScale := by rw [abs_mul, abs_of_nonneg hs]
  have e2 : |a2 * sampleScale| = |a2| * sampleScale := by rw [abs_mul, abs_of_nonneg hs]
  rcases l with _ | _ | _ | _ | _ | l
  · simp [xs, ys]
  · simpa [xs, ys, e1] using h1
  · simpa [xs, ys, e2] using h2
  · simpa [xs, ys, e1, abs_neg] using h1
  · simpa [xs, ys, e2, abs_neg] using h2
  · simp [xs, ys]

theorem shift_bounds (lo hi m o r : ℚ) (hr : 0 ≤ r) (ho : |o| ≤ 1) (h1 : lo ≤ m) (h2 : m ≤ hi) :
    lo - r ≤ m + o * r ∧ m + o * r ≤ hi + r := by
  have h := abs_le.mp ho
  constructor
  · nlinarith [h.1, h.2]
  · nlinarith [h.1, h.2]

/-- Every sample of a branch lies in the cuboid of the branch. -/
theorem sample_intersects (normalized : Vec3 → Vec3) (b : Branch) (k l : Nat)
    (hb : broadOk normalized b = true) :
    (branchCuboid b).intersects (samplePos normalized b (k, l)) = true := by
  simp only [broadOk, Bool.and_eq_true, decide_eq_true_eq] at hb
  obtain ⟨⟨hr, hd⟩, hn⟩ := hb
  have hz := zs_abs_le k
  have c1 := comp_sq_le (normalized (Vec3.cross ⟨1, 2, 3⟩ b.dir))
  have c2 := cross_comp_sq_le b.dir (normalized (Vec3.cross ⟨1, 2, 3⟩ b.dir)) hd
  have ox := offset_abs_le l _ _ (abs_scale_le_one _ _ c1.1 hn) (abs_scale_le_one _ _ c2.1 hn)
  have oy := offset_abs_le l _ _ (abs_scale_le_one _ _ c1.2.1 hn)
    (abs_scale_le_one _ _ c2.2.1 hn)
  have oz := offset_abs_le l _ _ (abs_scale_le_one _ _ c1.2.2 hn)
    (abs_scale_le_one _ _ c2.2.2 hn)
  clear c1 c2 hn
  simp only [Cuboid.intersects, branchCuboid, samplePos, Vec3.sub, Vec3.add, Vec3.smul,
    minVector, maxVector, Bool.and_eq_true, decide_eq_true_eq, ge_iff_le]
  generalize normalized (Vec3.cross ⟨1, 2, 3⟩ b.dir) = ax1 at ox oy oz ⊢
  generalize zs.getD k 0 = t at hz ⊢
  have habs : |t * b.length| ≤ |1 / 2 * b.length| := by
    rw [abs_mul, abs_mul]
    have : |(1 / 2 : ℚ)| = 1 / 2 := abs_of_nonneg (by norm_num)
    rw [this]
    exact mul_le_mul_of_nonneg_right hz (abs_nonneg _)
  have hx := seg_bounds b.centre.x b.dir.x (t * b.length) (1 / 2 * b.length) habs
  have hy := seg_bounds b.centre.y b.dir.y (t * b.length) (1 / 2 * b.length) habs
  have hz := seg_bounds b.centre.z b.dir.z (t * b.length) (1 / 2 * b.length) habs
  have sx := shift_bounds _ _ _ _ b.radius hr ox hx.1 hx.2
  have sy := shift_bounds _ _ _ _ b.radius hr oy hy.1 hy.2
  have sz := shift_bounds _ _ _ _ b.radius hr oz hz.1 hz.2
  refine ⟨⟨⟨⟨⟨?_, ?_⟩, ?_⟩, ?_⟩, ?_⟩, ?_⟩
  · have := sx.1; linarith
  · have := sy.1; linarith
  · have := sz.1; linarith
  · have := sx.2; linarith
  · have := sy.2; linarith
  · have := sz.2; linarith

/-- Cuboids that do not overlap: no sample of the first branch is inside the cylinder of
the second. -/
theorem no_overlap_none_inside (normalized : Vec3 → Vec3) (A B : Branch)
    (hA : broadOk normalized A = true) (hB : 0 ≤ B.radius)
    (hov : (branchCuboid A).overlaps (branchCuboid B) = false) :
    numInside normalized A B = 0 := by
  unfold numInside
  rw [List.countP_eq_zero]
  intro kl _ hin
  have h := overlaps_of_common _ _ _ (sample_intersects normalized A kl.1 kl.2 hA)
    (inside_intersects B _ hB hin)
  rw [hov] at h
  exact Bool.noConfusion h

/-- The broad phase does not change the test of a pair. -/
theorem dupHit_eq_all (normalized : Vec3 → Vec3) (bs : List Branch) (i j : Nat)
    (hi : broadOk normalized (getB bs i) = true) (hj : 0 ≤ (getB bs j).radius) :
    dupHit normalized bs i j = dupHitAll normalized bs i j := by
  unfold dupHit dupHitAll
  cases hov : (branchCuboid (getB bs i)).overlaps (branchCuboid (getB bs j)) with
  | true => simp
  | false =>
    have h0 := no_overlap_none_inside normalized _ _ hi hj hov
    simp only [h0, Nat.cast_zero, zero_div, Bool.and_false, Bool.false_and]
    norm_num

theorem find?_range_congr (p q : Nat → Bool) (n : Nat) (h : ∀ j, j < n → p j = q j) :
    (List.range n).find? p = (List.range n).find? q := by
  have hl : ∀ l : List Nat, (∀ j ∈ l, p j = q j) → l.find? p = l.find? q := by
    intro l
    induction l with
    | nil => intro _; rfl
    | cons a l ih =>
      intro hh
      rw [List.find?_cons, List.find?_cons, hh a (List.mem_cons_self _ _),
        ih (fun j hj => hh j (List.mem_cons_of_mem _ hj))]
  exact hl _ (fun j hj => h j (List.mem_range.mp hj))

theorem mem_swapRemove (bs : List Branch) (i : Nat) (b : Branch) (h : b ∈ swapRemove bs i) :
    b ∈ bs := by
  unfold swapRemove at h
  cases hl : bs.getLast? with
  | none =>
    rw [hl] at h
    exact h
  | some last =>
    rw [hl] at h
    rcases List.mem_or_eq_of_mem_set (List.mem_of_mem_dropLast h) with h1 | h1
    · exact h1
    · rw [h1]
      exact List.mem_of_getLast?_eq_some hl

/-- The conditions of the broad phase do not read the flag `active`. -/
theorem broadOk_inactive (normalized : Vec3 → Vec3) (b : Branch) :
    broadOk normalized { b with active := false } = broadOk normalized b := rfl

/-- Under the conditions of the broad phase the loop with the exclusion is the loop that
samples every pair. -/
theorem overlapLoop_eq_all (normalized : Vec3 → Vec3) (fuel : Nat) :
    ∀ (i : Nat) (bs : List Branch), (∀ b ∈ bs, broadOk normalized b = true) →
    overlapLoop normalized fuel i bs = overlapLoopAll normalized fuel i bs := by
  induction fuel with
  | zero => intro i bs _; rfl
  | succ fuel ih =>
    intro i bs hok
    have hrad : ∀ j, j < bs.length → 0 ≤ (getB bs j).radius := by
      intro j hj
      have := hok _ (getB_mem bs j hj)
      simp only [broadOk, Bool.and_eq_true, decide_eq_true_eq] at this
      exact this.1.1
    unfold overlapLoop overlapLoopAll
    by_cases hi : i < bs.length
    · simp only [hi, if_true]
      have hfind : (List.range bs.length).find? (fun j => dupHit normalized bs i j) =
          (List.range bs.length).find? (fun j => dupHitAll normalized bs i j) :=
        find?_range_congr _ _ _ (fun j hj =>
          dupHit_eq_all normalized bs i j (hok _ (getB_mem bs i hi)) (hrad j hj))
      rw [hfind]
      have hsw : ∀ t, ∀ b ∈ swapRemove bs t, broadOk normalized b = true :=
        fun t b hb => hok b (mem_swapRemove bs t b hb)
      have hset : ∀ t, t < bs.length →
          ∀ b ∈ bs.set t { getB bs t with active := false }, broadOk normalized b = true := by
        intro t ht b hb
        rcases List.mem_or_eq_of_mem_set hb with h1 | h1
        · exact hok b h1
        · rw [h1, broadOk_inactive]
          exact hok _ (getB_mem bs t ht)
      split_ifs
      · exact ih _ _ hok
      · cases hf : (List.range bs.length).find? (fun j => dupHitAll normalized bs i j) with
        | none => exact ih _ _ hok
        | some j =>
          have hj := find?_range_lt _ _ _ hf
          simp only []
          split_ifs
          · exact ih _ _ (hsw i)
          · exact ih _ _ (hsw j)
          · exact ih _ _ (hset j hj)
    · simp [hi]

/-- C25: for branches with a radius that is not negative, a direction of unit length and an
axis `ax1` of length at most `1 / 0.8` from `normalized`: when the cuboids of two of them do
not overlap, none of the 25 samples of the first is inside the cylinder of the second, and
the overlap-resolution pass with the broad-phase exclusion returns the list that the pass
returns when it samples every pair. -/
theorem broad_phase_sound (normalized : Vec3 → Vec3) (bs : List Branch)
    (hok : ∀ b ∈ bs, broadOk normalized b = true) :
    (∀ A ∈ bs, ∀ B ∈ bs, (branchCuboid A).overlaps (branchCuboid B) = false →
        ∀ kl ∈ samplePairs, insideCylinder B (samplePos normalized A kl) = false) ∧
      overlapResolution normalized bs = overlapResolutionAll normalized bs := by
  constructor
  · intro A hA B hB hov kl hkl
    have hrB : 0 ≤ B.radius := by
      have := hok B hB
      simp only [broadOk, Bool.and_eq_true, decide_eq_true_eq] at this
      exact this.1.1
    have h0 := no_overlap_none_inside normalized A B (hok A hA) hrB hov
    unfold numInside at h0
    rw [List.countP_eq_zero] at h0
    simpa using h0 kl hkl
  · unfold overlapResolution overlapResolutionAll
    rw [overlapLoop_eq_all normalized _ _ _ hok]

theorem broad_phase_sound_witness :
    (∀ b ∈ [lowBranch, flatHigh], broadOk normalizedQ b = true) ∧
      (∀ A ∈ [lowBranch, flatHigh], ∀ B ∈ [lowBranch, flatHigh],
        (branchCuboid A).overlaps (branchCuboid B) = false →
          ∀ kl ∈ samplePairs, insideCylinder B (samplePos normalizedQ A kl) = false) ∧
      overlapResolution normalizedQ [lowBranch, flatHigh] =
        overlapResolutionAll normalizedQ [lowBranch, flatHigh] :=
  ⟨by decide!, broad_phase_sound normalizedQ [lowBranch, flatHigh] (by decide!)⟩

/-! ### Overlap resolution keeps a branch of largest volume -/

theorem keeps_refl (bs : List Branch) : Keeps bs bs :=
  ⟨List.Subperm.refl _, fun b hb ha => ⟨b, hb, ha, le_refl _⟩⟩

theorem keeps_trans (bs bs2 bs3 : List Branch) (h1 : Keeps bs bs2) (h2 : Keeps bs2 bs3) :
    Keeps bs bs3 := by
  refine ⟨h2.1.trans h1.1, ?_⟩
  intro b hb ha
  obtain ⟨b2, hb2, ha2, hv2⟩ := h1.2 b hb ha
  obtain ⟨b3, hb3, ha3, hv3⟩ := h2.2 b2 hb2 ha2
  exact ⟨b3, hb3, ha3, le_trans hv2 hv3⟩

/-- The swap-removal of branch `t` keeps the list when another active branch `u` is at
least as large. -/
theorem keeps_swapRemove (bs : List Branch) (t u : Nat) (ht : t < bs.length)
    (hu : u < bs.length) (hne : u ≠ t) (hact : (getB bs u).active = true)
    (hv : vol (getB bs t) ≤ vol (getB bs u)) : Keeps bs (swapRemove bs t) := by
  have hp := swapRemove_perm_eraseIdx bs t ht
  have hmem : ∀ (i : Nat), i < bs.length → i ≠ t → getB bs i ∈ swapRemove bs t := by
    intro i hi hit
    rw [hp.mem_iff, List.mem_eraseIdx_iff_getElem]
    exact ⟨i, hi, hit, (getB_eq_getElem bs i hi).symm⟩
  constructor
  · exact (hp.filter _).subperm.trans ((List.eraseIdx_sublist bs t).filter _).subperm
  · intro b hb ha
    obtain ⟨i, hi, hbi⟩ := List.mem_iff_getElem.mp hb
    rw [← getB_eq_getElem bs i hi] at hbi
    by_cases hit : i = t
    · refine ⟨getB bs u, hmem u hu hne, hact, ?_⟩
      rw [← hbi, hit]
      exact hv
    · exact ⟨b, hbi ▸ hmem i hi hit, ha, le_refl _⟩

/-- The deactivation of branch `t` keeps the list when another active branch `u` is at
least as large. -/
theorem keeps_deactivate (bs : List Branch) (t u : Nat) (ht : t < bs.length)
    (hu : u < bs.length) (hne : u ≠ t) (hact : (getB bs u).active = true)
    (hv : vol (getB bs t) ≤ vol (getB bs u)) :
    Keeps bs (bs.set t { getB bs t with active := false }) := by
  have hlen : (bs.set t { getB bs t with active := false }).length = bs.length :=
    List.length_set _ _ _
  have hmem : ∀ (i : Nat), i < bs.length → i ≠ t →
      getB bs i ∈ bs.set t { getB bs t with active := false } := by
    intro i hi hit
    rw [← getB_set_ne bs i t { getB bs t with active := false } hit]
    exact getB_mem _ i (by rw [hlen]; exact hi)
  constructor
  · obtain ⟨hs, hl⟩ := split_at_index bs t ht
    rw [List.set_eq_take_cons_drop _ ht]
    conv_rhs => rw [hs]
    rw [List.filter_append, List.filter_append]
    apply List.Sublist.subperm
    apply List.Sublist.append_left
    rw [List.filter_cons_of_neg (by simp)]
    exact (List.sublist_cons_self _ _).filter _
  · intro b hb ha
    obtain ⟨i, hi, hbi⟩ := List.mem_iff_getElem.mp hb
    rw [← getB_eq_getElem bs i hi] at hbi
    by_cases hit : i = t
    · refine ⟨getB bs u, hmem u hu hne, hact, ?_⟩
      rw [← hbi, hit]
      exact hv
    · exact ⟨b, hbi ▸ hmem i hi hit, ha, le_refl _⟩

/-- Every number of iterations of the overlap loop keeps the list. -/
theorem overlapLoop_keeps (normalized : Vec3 → Vec3) (fuel : Nat) :
    ∀ (i : Nat) (bs : List Branch), Keeps bs (overlapLoop normalized fuel i bs) := by
  induction fuel with
  | zero => intro i bs; exact keeps_refl bs
  | succ fuel ih =>
    intro i bs
    unfold overlapLoop
    by_cases hi : i < bs.length
    · simp only [hi, if_true]
      by_cases hai : (getB bs i).active = true
      · simp only [hai, Bool.not_true, Bool.false_eq_true, if_false]
        cases hf : (List.range bs.length).find? (fun j => dupHit normalized bs i j) with
        | none => exact ih _ _
        | some j =>
          have hj := find?_range_lt _ _ _ hf
          have hd := List.find?_some hf
          simp only [dupHit, Bool.and_eq_true, decide_eq_true_eq] at hd
          obtain ⟨⟨⟨hij, haj⟩, _⟩, _⟩ := hd
          simp only []
          split_ifs with h1 h2
          · exact keeps_trans _ _ _
              (keeps_swapRemove bs i j hi hj (fun h => hij h.symm) haj (le_of_lt h1)) (ih _ _)
          · exact keeps_trans _ _ _
              (keeps_swapRemove bs j i hj hi hij hai (not_lt.mp h1)) (ih _ _)
          · exact keeps_trans _ _ _
              (keeps_deactivate bs j i hj hi hij hai (not_lt.mp h1)) (ih _ _)
      · have hai2 : (getB bs i).active = false := by simpa using hai
        simp only [hai2, Bool.not_false, if_true]
        exact ih _ _
    · simp only [hi, if_false]
      exact keeps_refl bs

theorem exists_max_vol (bs : List Branch) (hne : bs ≠ []) :
    ∃ m ∈ bs, ∀ c ∈ bs, vol c ≤ vol m := by
  induction bs with
  | nil => exact absurd rfl hne
  | cons a l ih =>
    by_cases hl : l = []
    · subst hl
      exact ⟨a, List.mem_cons_self _ _, by simp⟩
    · obtain ⟨m, hm, hmax⟩ := ih hl
      by_cases h : vol m ≤ vol a
      · refine ⟨a, List.mem_cons_self _ _, ?_⟩
        intro c hc
        rcases List.mem_cons.mp hc with h1 | h1
        · rw [h1]
        · exact le_trans (hmax c h1) h
      · refine ⟨m, List.mem_cons_of_mem _ hm, ?_⟩
        intro c hc
        rcases List.mem_cons.mp hc with h1 | h1
        · rw [h1]
          exact le_of_lt (not_le.mp h)
        · exact hmax c h1

/-- C26: for every non-empty list of active branches the output of the overlap resolution
is not empty, is a sub-multiset of the input, and holds a branch of the input whose
`radius²·length` is the largest of the input. -/
theorem overlap_keeps_max (normalized : Vec3 → Vec3) (bs : List Branch) (hne : bs ≠ [])
    (hact : ∀ b ∈ bs, b.active = true) :
    overlapResolution normalized bs ≠ [] ∧ (overlapResolution normalized bs).Subperm bs ∧
      ∃ b ∈ overlapResolution normalized bs, b ∈ bs ∧ ∀ c ∈ bs, vol c ≤ vol b := by
  have hk := overlapLoop_keeps normalized bs.length 0 bs
  have hfil : bs.filter (fun b => b.active) = bs := List.filter_eq_self.mpr hact
  have hsub : (overlapResolution normalized bs).Subperm bs := by
    have := hk.1
    rw [hfil] at this
    exact this
  obtain ⟨m, hm, hmax⟩ := exists_max_vol bs hne
  obtain ⟨b, hb, hab, hvb⟩ := hk.2 m hm (hact m hm)
  have hbo : b ∈ overlapResolution normalized bs := by
    unfold overlapResolution
    exact List.mem_filter.mpr ⟨hb, hab⟩
  refine ⟨List.ne_nil_of_mem hbo, hsub, b, hbo, hsub.subset hbo, ?_⟩
  intro c hc
  exact le_trans (hmax c hc) hvb

theorem overlap_keeps_max_witness :
    overlapResolution normalizedQ [tieA, tieB] ≠ [] ∧
      (overlapResolution normalizedQ [tieA, tieB]).Subperm [tieA, tieB] ∧
      ∃ b ∈ overlapResolution normalizedQ [tieA, tieB], b ∈ [tieA, tieB] ∧
        ∀ c ∈ [tieA, tieB], vol c ≤ vol b :=
  overlap_keeps_max normalizedQ [tieA, tieB] (by simp) (by decide)

end ray
